import Mathlib

/-!
Verification development for the Bamboo Lisp interpreter core
(`src/bamboo.c`, `src/bamboo.h`).

The C code is shallowly embedded: the tagged `atom_t` union becomes the
inductive `Atom`; out-parameters become returned values; `bamboo_error_t`
return codes become `Except BErr` or an explicit `Code`; in-place mutation
of heap cells (stack frames, environment frames) is modeled by functional
update, which is observationally equivalent for the single-traversal access
patterns exercised here.  `long double` payloads are modeled as exact
rationals; diagnostic message strings (`set_error_msg`) are not modeled,
only the error codes.  Reference identity of interned symbols and of heap
allocations, where a claim depends on it, is modeled explicitly in a
store-based section (allocation ids) mirroring `allocation_t`.
-/

namespace Bamboo

/-- `ATOM_TYPE_PAIR`, `ATOM_TYPE_CLOSURE` and `ATOM_TYPE_MACRO` all store a
`pair_t` (two-slot cell); only the type tag distinguishes them
(`atom_type_t`, bamboo.h). -/
inductive CellTag where
  | pairT
  | closureT
  | macroT
deriving DecidableEq

/-- Built-in function pointers (`builtin_func_t`) are modeled as names; only
the primitives the claims exercise are given semantics below. -/
inductive BuiltinFn where
  | bCar
  | bCdr
  | bCons
  | bNot
  | bAnd
  | bOr
  | bEq
  | bConcat
  | bDisplay
  | bNewline
deriving DecidableEq

/-- The tagged value union `atom_t` (bamboo.h).  Strings are the character
lists they hold; symbols carry their interned name (see the symbol-table
model for the reference-identity contract); floats are exact rationals. -/
inductive Atom where
  | nil
  | symbol (name : List Char)
  | integer (n : Int)
  | float (q : ℚ)
  | boolean (b : Bool)
  | str (s : List Char)
  | cell (tag : CellTag) (head tail : Atom)
  | builtin (f : BuiltinFn)
deriving DecidableEq

/-- `car(p)` reads `pair->atom[0]`.  On a non-cell atom the C macro would
dereference the wrong union member; every caller guards with a type check
first, so the junk value is modeled as nil. -/
def Atom.car : Atom → Atom
  | .cell _ a _ => a
  | _ => .nil

/-- `cdr(p)` reads `pair->atom[1]`. -/
def Atom.cdr : Atom → Atom
  | .cell _ _ d => d
  | _ => .nil

/-- `nilp(atom)`: type test against `ATOM_TYPE_NIL`. -/
def Atom.isNil : Atom → Bool
  | .nil => true
  | _ => false

/-- `cons(_car, _cdr)`: allocates a fresh pair cell. -/
def cons (a d : Atom) : Atom := .cell .pairT a d

/-- `listp(expr)`: walks `cdr` links; every intermediate atom must have type
`ATOM_TYPE_PAIR` and the chain must end in nil. -/
def listp : Atom → Bool
  | .nil => true
  | .cell .pairT _ d => listp d
  | _ => false

/-- Loop of `list_count`: the counter is a `uint16_t`, so it wraps mod 2^16;
a non-pair atom in the chain aborts with count 0. -/
def listCountA : Atom → Nat → Nat
  | .nil, count => count
  | .cell .pairT _ d, count => listCountA d ((count + 1) % 65536)
  | _, _ => 0

/-- `list_count(list)`. -/
def listCount (l : Atom) : Nat := listCountA l 0

/-- `list_ref(list, index)`: walks `index` cdrs, then takes `car`. -/
def listRefA : Atom → Nat → Atom
  | l, 0 => l.car
  | l, n + 1 => listRefA l.cdr n

/-- `list_set(list, index, value)`: walks `index` cdrs and overwrites the
`car` slot in place; modeled as a functional rebuild of the spine. -/
def listSetA : Atom → Nat → Atom → Atom
  | .cell t _ d, 0, v => .cell t v d
  | .cell t a d, n + 1, v => .cell t a (listSetA d n v)
  | l, _, _ => l

/-- `list_reverse(list)`: pointer-reversal of a proper cons chain onto an
accumulator (`tail`); a non-pair link would be undefined in C (all call
sites pass proper lists), modeled as stopping there. -/
def listReverseA : Atom → Atom → Atom
  | .nil, tail => tail
  | .cell t a d, tail => listReverseA d (.cell t a tail)
  | _l, tail => tail

/-- `list_reverse` entry point. -/
def listReverse (l : Atom) : Atom := listReverseA l .nil

/-- `atom_boolean_val(atom)`: false only for the false Boolean atom, true for
everything else. -/
def atomBooleanVal : Atom → Bool
  | .boolean b => b
  | _ => true

/-- Error side of `bamboo_error_t` (positive enumerators); the detail message
installed by `bamboo_error` is not modeled. -/
inductive BErr where
  | syntaxErr
  | emptyErr
  | unbound
  | arguments
  | wrongType
  | numOverflow
  | numUnderflow
  | allocation
  | unknown
deriving DecidableEq

/-- Special-condition side of `bamboo_error_t` (negative enumerators). -/
inductive SpecialCond where
  | parenQuoteEnd
  | parenEnd
  | quoteEnd
  | comment
  | emptyLine
deriving DecidableEq

/-- A full `bamboo_error_t` return code: `BAMBOO_OK`, a special condition
(`< 0`), or an error (`> 0`). -/
inductive Code where
  | ok
  | special (c : SpecialCond)
  | err (e : BErr)
deriving DecidableEq

/-- `IF_BAMBOO_ERROR(err)`: true exactly for the positive enumerators. -/
def Code.isErr : Code → Bool
  | .err _ => true
  | _ => false

/-! ### Pair primitives (`builtin_car`, `builtin_cdr`) -/

/-- `builtin_car`: exactly one argument; nil maps to nil, a pair to its first
slot, anything else to a wrong-type error. -/
def builtinCar (args : Atom) : Except BErr Atom :=
  if listCount args ≠ 1 then .error .arguments
  else if args.car.isNil then .ok .nil
  else match args.car with
    | .cell .pairT a _ => .ok a
    | _ => .error .wrongType

/-- `builtin_cdr`: exactly one argument; nil maps to nil, a pair to its second
slot, anything else to a wrong-type error. -/
def builtinCdr (args : Atom) : Except BErr Atom :=
  if listCount args ≠ 1 then .error .arguments
  else if args.car.isNil then .ok .nil
  else match args.car with
    | .cell .pairT _ d => .ok d
    | _ => .error .wrongType

/-! ### Boolean primitives (`builtin_not`, `builtin_and`, `builtin_or`) -/

/-- `builtin_not`: exactly one argument, negated through `atom_boolean_val`. -/
def builtinNot (args : Atom) : Except BErr Atom :=
  if listCount args ≠ 1 then .error .arguments
  else .ok (.boolean (! atomBooleanVal args.car))

/-- Loop of `builtin_and`: compares `atom_boolean_val` of each *adjacent*
argument pair; any inequality returns false immediately, otherwise true.
The arity guard guarantees a proper list, so the non-pair fallback is
unreached. -/
def builtinAndLoop : Atom → Atom → Except BErr Atom
  | _prev, .nil => .ok (.boolean true)
  | prev, .cell _ a d =>
      if atomBooleanVal prev ≠ atomBooleanVal a then .ok (.boolean false)
      else builtinAndLoop a d
  | _, _ => .ok (.boolean true)

/-- `builtin_and`: at least two arguments, then the adjacent-comparison
loop. -/
def builtinAnd (args : Atom) : Except BErr Atom :=
  if listCount args < 2 then .error .arguments
  else builtinAndLoop args.car args.cdr

/-- `builtin_cons`: exactly two arguments, consed together. -/
def builtinCons (args : Atom) : Except BErr Atom :=
  if listCount args ≠ 2 then .error .arguments
  else .ok (cons args.car args.cdr.car)

/-- Loop of `builtin_or`: any adjacent pair with a truthy member returns true
immediately, otherwise false. -/
def builtinOrLoop : Atom → Atom → Except BErr Atom
  | _prev, .nil => .ok (.boolean false)
  | prev, .cell _ a d =>
      if atomBooleanVal prev || atomBooleanVal a then .ok (.boolean true)
      else builtinOrLoop a d
  | _, _ => .ok (.boolean false)

/-- `builtin_or`: at least two arguments, then the loop. -/
def builtinOr (args : Atom) : Except BErr Atom :=
  if listCount args < 2 then .error .arguments
  else builtinOrLoop args.car args.cdr

/-! ### Character classes and text helpers (bamboo.c lexer/printer) -/

/-- The double-quote character. -/
def quoteCh : Char := Char.ofNat 34

/-- The apostrophe (quote shorthand) character. -/
def apostCh : Char := Char.ofNat 39

/-- `wspace`: space, tab, carriage return, newline (`lex`). -/
def wspaceChars : List Char := [' ', Char.ofNat 9, Char.ofNat 13, Char.ofNat 10]

/-- `delim`: `()`, double quote and whitespace (`lex`). -/
def delimChars : List Char := ['(', ')', quoteCh] ++ wspaceChars

/-- Tokens that stand alone as a single character (`prefix` in `lex`). -/
def prefixTokChars : List Char := ['(', ')', apostCh, quoteCh]

/-- `_totupper` under the default C locale (ASCII). -/
def totupper (c : Char) : Char :=
  if 'a' ≤ c ∧ c ≤ 'z' then Char.ofNat (c.toNat - 32) else c

/-- `LINEBREAK` (bamboo.h default): carriage return + line feed. -/
def LINEBREAK : List Char := [Char.ofNat 13, Char.ofNat 10]

/-- Decimal digits of a natural number, most significant first (the digit
production of `printf` `%lld`/`%u`). -/
def natDigits (n : Nat) : List Char :=
  if h : n < 10 then [Char.ofNat (48 + n)]
  else natDigits (n / 10) ++ [Char.ofNat (48 + n % 10)]
decreasing_by exact Nat.div_lt_self (by omega) (by omega)

/-- `printf("%lld", n)`: minus sign followed by decimal digits. -/
def intRepr (n : Int) : List Char :=
  if n < 0 then '-' :: natDigits n.natAbs else natDigits n.toNat

/-! `printf("%Lg", q)` on the exact-rational model of `long double`:
six significant digits, fixed-point style when the decimal exponent `X`
satisfies `-4 ≤ X < 6`, scientific style otherwise, trailing zeros
removed.  Never evaluated by a theorem below (the round-trip results
exclude float atoms); it completes the embedding of `bamboo_expr_str`. -/

/-- Least `k` with `q * 10^k ≥ 1` (for `0 < q`), fuel-bounded. -/
def negExpF : Nat → ℚ → Nat
  | 0, _ => 0
  | fuel + 1, q => if q ≥ 1 then 0 else negExpF fuel (q * 10) + 1

/-- Floor of `log10 q` for `0 < q`. -/
def floorLog10 (q : ℚ) : Int :=
  if q ≥ 1 then (Nat.log 10 (⌊q⌋).toNat : Int)
  else -(negExpF (q.den + 1) q : Int)

/-- Round to the nearest integer, ties to even (IEEE default rounding used
by `printf`). -/
def roundHalfEven (q : ℚ) : Int :=
  let f := ⌊q⌋
  let r := q - (f : ℚ)
  if r > 1 / 2 then f + 1
  else if r < 1 / 2 then f
  else if f % 2 = 0 then f else f + 1

/-- Drop trailing `'0'` characters. -/
def stripZeros (frac : List Char) : List Char :=
  (frac.reverse.dropWhile (fun c => c = '0')).reverse

/-- Exponent digits of `%g` (at least two). -/
def expDigits (e : Nat) : List Char :=
  if e < 10 then ['0', Char.ofNat (48 + e)] else natDigits e

/-- `%Lg` for a positive rational. -/
def formatLgPos (q : ℚ) : List Char :=
  let x0 := floorLog10 q
  let m0 := roundHalfEven (q * (10 : ℚ) ^ (5 - x0))
  let m : Nat := if m0 = 1000000 then 100000 else m0.toNat
  let x : Int := if m0 = 1000000 then x0 + 1 else x0
  let digits := natDigits m
  if -4 ≤ x ∧ x < 6 then
    if x ≥ 0 then
      let ip := digits.take (x.toNat + 1)
      let fp := stripZeros (digits.drop (x.toNat + 1))
      ip ++ (if fp = [] then [] else '.' :: fp)
    else
      let fp := stripZeros (List.replicate ((-x).toNat - 1) '0' ++ digits)
      '0' :: '.' :: fp
  else
    let fp := stripZeros digits.tail
    digits.take 1 ++ (if fp = [] then [] else '.' :: fp) ++
      'e' :: (if x < 0 then ['-'] else ['+']) ++ expDigits x.natAbs

/-- `%Lg`. -/
def formatLg (q : ℚ) : List Char :=
  if q = 0 then ['0']
  else if q < 0 then '-' :: formatLgPos (-q)
  else formatLgPos q

/-- Placeholder names standing in for the `%p` pointer value printed for a
built-in (`#<BUILTIN:address>`); the address itself has no shallow
counterpart. -/
def builtinName : BuiltinFn → List Char
  | .bCar => "CAR".toList
  | .bCdr => "CDR".toList
  | .bCons => "CONS".toList
  | .bNot => "NOT".toList
  | .bAnd => "AND".toList
  | .bOr => "OR".toList
  | .bEq => "EQ?".toList
  | .bConcat => "CONCAT".toList
  | .bDisplay => "DISPLAY".toList
  | .bNewline => "NEWLINE".toList

mutual

/-- `bamboo_expr_str(buf, atom)`: renders an atom to text. -/
def exprStr : Atom → List Char
  | .nil => "nil".toList
  | .symbol name => name
  | .integer n => intRepr n
  | .float q => formatLg q
  | .boolean b => ['#', if b then 't' else 'f']
  | .str s => quoteCh :: s ++ [quoteCh]
  | .cell .pairT a d => '(' :: exprStr a ++ exprStrTail d ++ [')']
  | .cell .closureT _ rest =>
      match rest with
      | .cell _ params body =>
          "#<FUNCTION:".toList ++
            (if params.isNil then [] else exprStr params) ++
            ' ' :: exprStr body ++ ['>']
      | _ => "#<FUNCTION: nil>".toList
  | .cell .macroT _ rest =>
      match rest with
      | .cell _ params body =>
          "#<MACRO:".toList ++
            (if params.isNil then [] else exprStr params) ++
            ' ' :: exprStr body ++ ['>']
      | _ => "#<MACRO: nil>".toList
  | .builtin f => "#<BUILTIN:".toList ++ builtinName f ++ ['>']

/-- The `while` loop over the right-hand side of a pair in
`bamboo_expr_str`: list continuation for a pair-tagged cdr, ` . ` plus the
atom for any other non-nil cdr. -/
def exprStrTail : Atom → List Char
  | .nil => []
  | .cell .pairT a d => ' ' :: exprStr a ++ exprStrTail d
  | a => ' ' :: '.' :: ' ' :: exprStr a

end

/-! ### `builtin_concat`, `builtin_display`, `builtin_newline` -/

/-- Rendering of one argument inside `builtin_concat`'s switch: strings
verbatim, nil elided, symbols by name, numbers via `%lld`/`%Lg`, booleans as
`TRUE`/`FALSE`; any other type is a wrong-type error. -/
def concatRender : Atom → Except BErr (List Char)
  | .str s => .ok s
  | .nil => .ok []
  | .symbol name => .ok name
  | .integer n => .ok (intRepr n)
  | .float q => .ok (formatLg q)
  | .boolean b => .ok (if b then "TRUE".toList else "FALSE".toList)
  | _ => .error .wrongType

/-- Argument loop of `builtin_concat` (the arity guard guarantees a proper
list, so the non-pair fallback is unreached). -/
def builtinConcatLoop : Atom → List Char → Except BErr (List Char)
  | .nil, buf => .ok buf
  | .cell _ a d, buf =>
      match concatRender a with
      | .ok piece => builtinConcatLoop d (buf ++ piece)
      | .error e => .error e
  | _, buf => .ok buf

/-- `builtin_concat`: at least one argument, rendered and concatenated. -/
def builtinConcat (args : Atom) : Except BErr Atom :=
  if listCount args < 1 then .error .arguments
  else
    match builtinConcatLoop args [] with
    | .ok buf => .ok (.str buf)
    | .error e => .error e

/-- `builtin_display`: delegates to `builtin_concat`; on success writes the
concatenation plus `LINEBREAK` to stdout.  The second component is the text
written (empty when the error return skips both `putstr` calls). -/
def builtinDisplay (args : Atom) : Except BErr Atom × List Char :=
  match builtinConcat args with
  | .error e => (.error e, [])
  | .ok r => (.ok r, (match r with | .str s => s | _ => []) ++ LINEBREAK)

/-- `builtin_newline`: no arguments; writes `LINEBREAK` (text dropped here)
and returns nil. -/
def builtinNewline (args : Atom) : Except BErr Atom :=
  if listCount args ≠ 0 then .error .arguments
  else .ok .nil

/-! ### Environment (`bamboo_env_new`, `bamboo_env_get`, `bamboo_env_set`)

An environment is `cons(parent, bindings)`.  The C code compares symbols by
their interned name pointer (`*car(item).value.symbol == *symbol.value.symbol`);
by the interning contract (symbol-table model below) pointer equality
coincides with name equality, so names are compared here. -/

/-- The name of a symbol atom. -/
def symName : Atom → Option (List Char)
  | .symbol n => some n
  | _ => none

/-- `bamboo_env_new(parent)`: `cons(parent, nil)`. -/
def bambooEnvNew (parent : Atom) : Atom := cons parent .nil

/-- The `while` loop of `bamboo_env_get` over one frame's binding list. -/
def envFrameGet : Atom → List Char → Option Atom
  | .cell _ item rest, name =>
      if symName item.car = some name then some item.cdr
      else envFrameGet rest name
  | _, _ => none

/-- `bamboo_env_get(env, symbol, atom)`: search the current frame, then the
parent chain; a miss everywhere is an unbound-symbol error. -/
def bambooEnvGet : Atom → List Char → Except BErr Atom
  | .cell _ parent current, name =>
      match envFrameGet current name with
      | some v => .ok v
      | none =>
          if parent.isNil then .error .unbound
          else bambooEnvGet parent name
  | _, _ => .error .unbound

/-- The `while` loop of `bamboo_env_set`: if the symbol is bound in this
frame, overwrite the binding's value slot in place (`cdr(item) = value`). -/
def envFrameSet : Atom → List Char → Atom → Option Atom
  | .cell t item rest, name, value =>
      match item with
      | .cell it sym old =>
          if symName sym = some name then some (.cell t (.cell it sym value) rest)
          else
            match envFrameSet rest name value with
            | some rest2 => some (.cell t (.cell it sym old) rest2)
            | none => none
      | _ =>
          match envFrameSet rest name value with
          | some rest2 => some (.cell t item rest2)
          | none => none
  | _, _, _ => none

/-- `bamboo_env_set(env, symbol, value)`: update the binding in this frame
if present, otherwise prepend a new `(symbol . value)` binding.  Parents are
never consulted or modified. -/
def bambooEnvSet (env symbol value : Atom) : Atom :=
  match env, symName symbol with
  | .cell t parent current, some name =>
      match envFrameSet current name value with
      | some cur2 => .cell t parent cur2
      | none => .cell t parent (cons (cons symbol value) current)
  | _, _ => env

/-- Statement-level predicate: the name is bound in some frame of the
environment chain (used to state the unbound-symbol contract). -/
def envBound : Atom → List Char → Bool
  | .cell _ parent current, name =>
      (envFrameGet current name).isSome || envBound parent name
  | _, _ => false

/-! ### Lexer (`lex`) -/

/-- `lex(str, token)`: skip leading whitespace; an exhausted string is the
`BAMBOO_EMPTY_LINE` condition; a prefix character is a single-character
token; otherwise the token runs to the first delimiter.  Returned as
`(code, token text, text after the token)`. -/
def lex (str : List Char) : Code × List Char × List Char :=
  let tmp := str.dropWhile (fun c => c ∈ wspaceChars)
  match tmp with
  | [] => (.special .emptyLine, [], [])
  | c :: rest =>
      if c ∈ prefixTokChars then (.ok, [c], rest)
      else
        (.ok, tmp.takeWhile (fun d => d ∉ delimChars),
          tmp.dropWhile (fun d => d ∉ delimChars))

/-! ### C number parsing (`_tcstoll` with base 0, `_tcstold`)

Both are modeled on the exact text from the token's start onward (the C
calls read from `token->start` into the surrounding buffer) and report how
many characters the subject sequence consumed; the caller compares that
against the token length.  `errno` is modeled per call: the flag is set
exactly when this conversion overflows (the C global can additionally hold
a stale `ERANGE` from an earlier call, which can only turn a successful
parse of a boundary value into a spurious range error). -/

/-- Decimal digit test. -/
def isDigitCh (c : Char) : Bool := '0' ≤ c ∧ c ≤ '9'

/-- Octal digit test. -/
def isOctalCh (c : Char) : Bool := '0' ≤ c ∧ c ≤ '7'

/-- Hexadecimal digit test (both cases). -/
def isHexCh (c : Char) : Bool :=
  isDigitCh c ∨ ('a' ≤ c ∧ c ≤ 'f') ∨ ('A' ≤ c ∧ c ≤ 'F')

/-- Value of a decimal digit. -/
def digitVal (c : Char) : Nat := c.toNat - 48

/-- Value of a hexadecimal digit (either case). -/
def hexVal (c : Char) : Nat :=
  if isDigitCh c then c.toNat - 48
  else if 'a' ≤ c ∧ c ≤ 'f' then c.toNat - 87
  else c.toNat - 55

/-- Accumulate a digit string left to right in the given base. -/
def natOfDigits (base : Nat) (val : Char → Nat) (ds : List Char) : Nat :=
  ds.foldl (fun a c => a * base + val c) 0

/-- The shared leading-sign scan of `strtoll` and `strtold`: negative flag,
characters consumed by the sign, remaining subject. -/
def llSign (s : List Char) : Bool × Nat × List Char :=
  match s with
  | c :: r =>
      if c = '+' then (false, 1, r)
      else if c = '-' then (true, 1, r)
      else (false, 0, c :: r)
  | [] => (false, 0, [])

/-- The digit scan of `strtoll` with base 0 (after the sign): hex after
`0x`/`0X` when a hex digit follows, octal after a bare `0`, else decimal.
Returns the magnitude and the count of characters it consumed. -/
def llMag (s1 : List Char) : Nat × Nat :=
  match s1 with
  | c :: t =>
      if c = '0' then
        match t with
        | x :: r =>
            if (x == 'x' || x == 'X') &&
                (match r with | c2 :: _ => isHexCh c2 | [] => false) then
              let ds := r.takeWhile isHexCh
              (natOfDigits 16 hexVal ds, 2 + ds.length)
            else
              let ds := (x :: r).takeWhile isOctalCh
              (natOfDigits 8 digitVal ds, 1 + ds.length)
        | [] => (0, 1)
      else
        let ds := (c :: t).takeWhile isDigitCh
        (natOfDigits 10 digitVal ds, ds.length)
  | [] => (0, 0)

/-- `strtoll` with base 0: optional sign, then hex after `0x`/`0X`, octal
after `0`, else decimal.  Returns the (clamped) value, the number of
characters consumed (0 when no digits form a subject sequence), and the
`ERANGE` flag. -/
def strtollM (s : List Char) : Int × Nat × Bool :=
  let (sgnNeg, sLen, s1) := llSign s
  let (mag, used) := llMag s1
  if used = 0 then (0, 0, false)
  else if sgnNeg then
    if mag > 2 ^ 63 then (-(2 ^ 63), sLen + used, true)
    else (-(mag : Int), sLen + used, false)
  else
    if mag > 2 ^ 63 - 1 then (2 ^ 63 - 1, sLen + used, true)
    else ((mag : Int), sLen + used, false)

/-- Case-insensitive literal match; returns the rest on success. -/
def matchCI : List Char → List Char → Option (List Char)
  | [], s => some s
  | _ :: _, [] => none
  | p :: ps, c :: cs => if totupper c = totupper p then matchCI ps cs else none

/-- Characters allowed inside `nan(...)`. -/
def isNanBodyCh (c : Char) : Bool :=
  isDigitCh c ∨ ('a' ≤ c ∧ c ≤ 'z') ∨ ('A' ≤ c ∧ c ≤ 'Z') ∨ c = '_'

/-- Mantissa of a C decimal (or hex, via the parameters) float subject:
digits with at most one point, at least one digit overall.  Returns
`(integer value of the digits, number of fraction digits, consumed, ok)`. -/
def cMantissa (isD : Char → Bool) (val : Char → Nat) (base : Nat)
    (s : List Char) : Nat × Nat × Nat × Bool :=
  let ds1 := s.takeWhile isD
  let s2 := s.drop ds1.length
  match s2 with
  | c :: r =>
      if c = '.' then
        let ds2 := r.takeWhile isD
        if ds1.isEmpty ∧ ds2.isEmpty then (0, 0, 0, false)
        else (natOfDigits base val (ds1 ++ ds2), ds2.length,
          ds1.length + 1 + ds2.length, true)
      else
        if ds1.isEmpty then (0, 0, 0, false)
        else (natOfDigits base val ds1, 0, ds1.length, true)
  | [] =>
      if ds1.isEmpty then (0, 0, 0, false)
      else (natOfDigits base val ds1, 0, ds1.length, true)

/-- Optional exponent part (`e`/`E` or `p`/`P`): sign and at least one
decimal digit, else nothing is consumed. -/
def cExponent (e1 e2 : Char) (s : List Char) : Int × Nat :=
  match s with
  | c :: r =>
      if c = e1 ∨ c = e2 then
        match r with
        | c2 :: r2 =>
            if c2 = '+' then
              let ds := r2.takeWhile isDigitCh
              if ds.isEmpty then (0, 0)
              else ((natOfDigits 10 digitVal ds : Int), 2 + ds.length)
            else if c2 = '-' then
              let ds := r2.takeWhile isDigitCh
              if ds.isEmpty then (0, 0)
              else (-(natOfDigits 10 digitVal ds : Int), 2 + ds.length)
            else
              let ds := (c2 :: r2).takeWhile isDigitCh
              if ds.isEmpty then (0, 0)
              else ((natOfDigits 10 digitVal ds : Int), 1 + ds.length)
        | [] => (0, 0)
      else (0, 0)
  | [] => (0, 0)

/-- Consumed length of a `nan` suffix after the letters `nan`: an optional
parenthesized n-char sequence. -/
def nanSuffixLen (s : List Char) : Nat :=
  match s with
  | c :: r =>
      if c = '(' then
        let body := r.takeWhile isNanBodyCh
        match r.drop body.length with
        | c2 :: _ => if c2 = ')' then 1 + body.length + 1 else 0
        | [] => 0
      else 0
  | [] => 0

/-- The hexadecimal-float subject of `strtold` (after the sign): `0x`/`0X`,
a hex mantissa and an optional binary exponent.  Returns the value and the
consumed length, `none` when the subject does not start this way. -/
def ldHex (neg : Bool) (s1 : List Char) : Option (ℚ × Nat) :=
  match s1 with
  | c :: x :: r =>
      if c = '0' ∧ (x = 'x' ∨ x = 'X') then
        let (m, fr, used, okm) := cMantissa isHexCh hexVal 16 r
        if okm then
          let (e, eused) := cExponent 'p' 'P' (r.drop used)
          some ((if neg then -1 else 1) * (m : ℚ) / (16 : ℚ) ^ fr * (2 : ℚ) ^ e,
            2 + used + eused)
        else none
      else none
  | _ => none

/-- `strtold`: sign, then `infinity`/`inf`/`nan` (case-insensitive), a hex
float after `0x`/`0X` (`ldHex`), or a decimal float.  Returns `(value,
consumed, positive-overflow flag)`.  Non-finite results (`inf`, `nan`) have
no rational counterpart and carry value 0 — only the consumed length of
those subjects ever matters to the interpreter (the token-length
comparison); underflow detection (`dfloat == LDBL_MIN`) is not modeled
since `strtold` underflows to a subnormal or zero, never to `LDBL_MIN`
itself. -/
def strtoldM (s : List Char) : ℚ × Nat × Bool :=
  let (neg, sLen, s1) := llSign s
  match matchCI "INFINITY".toList s1 with
  | some _ => (0, sLen + 8, false)
  | none =>
  match matchCI "INF".toList s1 with
  | some _ => (0, sLen + 3, false)
  | none =>
  match matchCI "NAN".toList s1 with
  | some r => (0, sLen + 3 + nanSuffixLen r, false)
  | none =>
  match ldHex neg s1 with
  | some (v, consumed) => (v, sLen + consumed, v > (2 : ℚ) ^ 16384)
  | none =>
      let (m, fr, used, okm) := cMantissa isDigitCh digitVal 10 s1
      if okm then
        let (e, eused) := cExponent 'e' 'E' (s1.drop used)
        let v := (if neg then -1 else 1) * (m : ℚ) / (10 : ℚ) ^ fr * (10 : ℚ) ^ e
        (v, sLen + used + eused, v > (2 : ℚ) ^ 16384)
      else (0, 0, false)

/-! ### Parser (`parse_hash_expr`, `parse_primitive`, `parse_string`,
`bamboo_parse_expr`, `parse_list`)

Each function returns `(code, end, atom)`.  `end` is the out-parameter
`*end`: `some` when the source writes it, `none` when the caller's value is
left untouched; positions are represented by the remaining input.  On paths
where the C code never writes `*atom`, the caller's (nil-initialized) value
is модeled as nil. -/

/-- `parse_hash_expr(token, end, atom)`: a lone `#` is a syntax error;
otherwise only the character directly after `#` is inspected — `f`/`F`
false, `t`/`T` true, anything else a syntax error.  The whole token is
consumed. -/
def parseHashExpr (tok rest : List Char) : Code × Option (List Char) × Atom :=
  match tok with
  | [_] => (.err .syntaxErr, none, .nil)
  | _ :: c :: _ =>
      if c = 'F' ∨ c = 'f' then (.ok, some rest, .boolean false)
      else if c = 'T' ∨ c = 't' then (.ok, some rest, .boolean true)
      else (.err .syntaxErr, none, .nil)
  | [] => (.err .syntaxErr, none, .nil)

/-- `parse_primitive(token, end, atom)`: `#` dispatches to the hash parser;
a leading digit or sign attempts integer then float conversion (each must
consume exactly the token); otherwise the token is upper-cased and becomes
nil (for `NIL`) or a symbol. -/
def parsePrimitive (tok rest : List Char) : Code × Option (List Char) × Atom :=
  if tok.head? = some '#' then parseHashExpr tok rest
  else
    let numeric : Bool :=
      match tok.head? with
      | some c => isDigitCh c || c == '+' || c == '-'
      | none => false
    let symbolResult :=
      let buf := tok.map totupper
      if buf = "NIL".toList then (Code.ok, some rest, Atom.nil)
      else (Code.ok, some rest, Atom.symbol buf)
    if numeric then
      let (ival, iconsumed, ierange) := strtollM (tok ++ rest)
      if iconsumed = tok.length then
        if ierange ∧ ival = 2 ^ 63 - 1 then (.err .numOverflow, none, .nil)
        else if ierange ∧ ival = -(2 ^ 63) then (.err .numUnderflow, none, .nil)
        else (.ok, some rest, .integer ival)
      else
        let (fval, fconsumed, frange) := strtoldM (tok ++ rest)
        if fconsumed = tok.length then
          if frange then (.err .numOverflow, none, .nil)
          else (.ok, some rest, .float fval)
        else symbolResult
    else symbolResult

/-- `parse_string(token, end, atom)`: the characters after the opening
quote, verbatim, up to the closing quote; reaching the end of input first
is a syntax error (with `*end` left at the terminator). -/
def parseString (rest : List Char) : Code × Option (List Char) × Atom :=
  let contents := rest.takeWhile (fun c => c ≠ quoteCh)
  match rest.drop contents.length with
  | _ :: r2 => (.ok, some r2, .str contents)
  | [] => (.err .syntaxErr, some [], .nil)

/-- Append the elements built so far onto the final tail (`*atom` of
`parse_list`: the list is built in place through `last_atom`). -/
def assembleList (elems : List Atom) (tail : Option Atom) : Atom :=
  elems.foldr cons (tail.getD .nil)

/-- The "concatenate the atom to the list" block of `parse_list`: first item
starts the list; appending past an installed pair tail is an error
(`none`); with `is_pair` set the atom becomes the tail; otherwise it is
appended.  Returns the new `(elems, tail, is_pair)` state. -/
def appendStep (elems : List Atom) (tail : Option Atom) (isPair : Bool)
    (tmpAtom : Atom) : Option (List Atom × Option Atom × Bool) :=
  if elems.isEmpty then some ([tmpAtom], none, isPair)
  else if tail.isSome then none
  else if isPair then some (elems, some tmpAtom, false)
  else some (elems ++ [tmpAtom], none, false)

mutual

/-- `bamboo_parse_expr(input, end, atom)`: lex one token and dispatch on its
first character — string, list, list terminator, quote shorthand (rejected
before `(`), else `parse_primitive`.  Fuel-indexed (`none` = fuel
exhausted); every recursive call consumes input, and the wrapper below
supplies more than enough fuel. -/
def parseExpr : Nat → List Char → Option (Code × Option (List Char) × Atom)
  | 0, _ => none
  | fuel + 1, input =>
      let (lcode, tok, rest) := lex input
      match lcode with
      | .special .emptyLine => some (.special .emptyLine, none, .nil)
      | _ =>
          match tok with
          | [] => some (.err .unknown, none, .nil)
          | c :: _ =>
              if c = quoteCh then some (parseString rest)
              else if c = '(' then parseList fuel rest [] none false none
              else if c = ')' then some (.special .parenEnd, none, .nil)
              else if c = apostCh then
                if rest.head? = some '(' then some (.err .syntaxErr, none, .nil)
                else
                  match parseExpr fuel rest with
                  | none => none
                  | some (code, endO, inner) =>
                      let qatom := cons (.symbol "QUOTE".toList) (cons inner .nil)
                      if code.isErr then some (code, endO, qatom)
                      else if code = .special .parenEnd then
                        some (.special .parenQuoteEnd, endO, qatom)
                      else some (.special .quoteEnd, endO, qatom)
              else some (parsePrimitive tok rest)

/-- `parse_list(input, end, atom)`: the element loop.  State: `elems` and
`tail` mirror the list built through `*atom`/`last_atom` (`tail = some`
once a pair tail is in place), `isPair` is the `is_pair` flag, `endCur` the
current value of the caller's `*end`.  A token *starting* with `.` is
always treated as the pair separator; `BAMBOO_QUOTE_END` from an element
skips the following token (both straight from the source).  Lexing the end
of input exits the loop with `BAMBOO_OK`.  The per-element "concatenate the
atom to the list" block is `appendStep` below. -/
def parseList : Nat → List Char → List Atom → Option Atom → Bool →
    Option (List Char) → Option (Code × Option (List Char) × Atom)
  | 0, _, _, _, _, _ => none
  | fuel + 1, input, elems, tail, isPair, endCur =>
      match lex input with
      | (.ok, tok, tokRest) =>
          let tokStart := input.dropWhile (fun c => c ∈ wspaceChars)
          if tok.head? = some '.' then
            if elems.isEmpty then
              some (.err .syntaxErr, endCur, assembleList elems tail)
            else
              let (lcode2, tok2, _) := lex tokRest
              if lcode2 ≠ Code.ok ∨ tok2.head? = some ')' then
                some (.err .syntaxErr, endCur, assembleList elems tail)
              else parseList fuel tokRest elems tail true endCur
          else
            match parseExpr fuel tokStart with
            | none => none
            | some (code, endO, tmpAtom) =>
                let tokEnd := endO.getD tokRest
                match code with
                | .special .parenEnd =>
                    some (.ok, some tokEnd, assembleList elems tail)
                | .special .quoteEnd =>
                    let rest3 := (lex tokEnd).2.2
                    (match appendStep elems tail isPair tmpAtom with
                     | none => some (.err .syntaxErr, some rest3, assembleList elems tail)
                     | some (e2, t2, p2) => parseList fuel rest3 e2 t2 p2 (some rest3))
                | .special .parenQuoteEnd =>
                    (match appendStep elems tail isPair tmpAtom with
                     | none => some (.err .syntaxErr, some tokEnd, assembleList elems tail)
                     | some (e2, t2, p2) => parseList fuel tokEnd e2 t2 p2 (some tokEnd))
                | .special _ =>
                    some (code, endCur, assembleList elems tail)
                | .err e => some (.err e, endCur, assembleList elems tail)
                | .ok =>
                    (match appendStep elems tail isPair tmpAtom with
                     | none => some (.err .syntaxErr, endCur, assembleList elems tail)
                     | some (e2, t2, p2) => parseList fuel tokEnd e2 t2 p2 endCur)
      | (_, _, _) => some (.ok, endCur, assembleList elems tail)

end

/-- Entry point `bamboo_parse_expr` with ample fuel for the input. -/
def parseExprTop (input : List Char) : Option (Code × Option (List Char) × Atom) :=
  parseExpr (2 * input.length + 2) input

/-! ### Heap store model (`allocation_t`, `gc_mark`, `bamboo_symbol`,
`builtin_eq`)

Claims about reference identity and the collector need allocations to be
explicit.  `HVal` is `atom_t` with every heap-backed payload replaced by an
allocation id (the index into the allocation store): `value.pair` for the
cell-shaped types and `value.symbol`/`value.str` (the `&alloc->str`
back-pointer) for symbols and strings.  The store is the `bamboo_allocations`
intrusive list, addressed by index; `next`-links are the list order. -/

/-- An `atom_t` whose heap payloads are allocation ids. -/
inductive HVal where
  | nil
  | symbol (aid : Nat)
  | integer (n : Int)
  | float (q : ℚ)
  | boolean (b : Bool)
  | strRef (aid : Nat)
  | cellRef (tag : CellTag) (aid : Nat)
  | builtin (f : BuiltinFn)
deriving DecidableEq

/-- Payload of an `allocation_t`: a pair of values, or an owned string
(also the backing of an interned symbol name). -/
inductive AllocKind where
  | pairA (head tail : HVal)
  | strA (s : List Char)
deriving DecidableEq

/-- One `allocation_t`: the mark bit (`GC_IN_USE` = true) and the payload. -/
structure Allocation where
  mark : Bool
  kind : AllocKind
deriving DecidableEq

/-- The allocation store (`bamboo_allocations`), addressed by id. -/
abbrev Heap := List Allocation

/-- The allocation a value's payload lives in, per `gc_mark`'s switch:
pair/closure/macro through `value.pair`, symbol/string through the string
slot; other types are not garbage collectable. -/
def allocIdOf : HVal → Option Nat
  | .cellRef _ aid => some aid
  | .symbol aid => some aid
  | .strRef aid => some aid
  | _ => none

/-- Set the mark bit of one allocation. -/
def setMark (heap : Heap) (aid : Nat) : Heap :=
  List.set heap aid { (heap.getD aid ⟨false, .strA []⟩) with mark := true }

/-- Number of unmarked allocations (the measure that bounds `gc_mark`'s
recursion). -/
def unmarkedCount (heap : Heap) : Nat :=
  (heap.filter (fun a => ! a.mark)).length

/-- `gc_mark(root)`: locate the allocation behind the value (non-collectable
types return); an already marked allocation is not re-entered; otherwise
mark it and recurse through the two slots of a pair payload.  For a string
allocation the source still executes `gc_mark(car(root)); gc_mark(cdr(root))`,
but those reads reinterpret the string slot as a `pair_t` outside the active
union member — junk with no defined content; the defined effect is marking
the allocation itself.  Fuel-indexed; `gcMarkRun` applies the bound shown
sufficient by the termination theorem. -/
def gcMarkF : Nat → HVal → Heap → Heap
  | 0, _, heap => heap
  | fuel + 1, root, heap =>
      match allocIdOf root with
      | none => heap
      | some aid =>
          match heap.get? aid with
          | none => heap
          | some alloc =>
              if alloc.mark then heap
              else
                let heap1 := setMark heap aid
                match alloc.kind with
                | .pairA h t => gcMarkF fuel t (gcMarkF fuel h heap1)
                | .strA _ => heap1

/-- `gc_mark` with the fuel the termination theorem shows sufficient. -/
def gcMarkRun (root : HVal) (heap : Heap) : Heap :=
  gcMarkF (unmarkedCount heap + 1) root heap

/-- Whether allocation `aid` is marked. -/
def markedIn (heap : Heap) (aid : Nat) : Bool :=
  match heap.get? aid with
  | some a => a.mark
  | none => false

/-- The payload kind stored at an allocation id. -/
def kindAt (heap : Heap) (aid : Nat) : Option AllocKind :=
  (heap.get? aid).map (fun a => a.kind)

/-- Reachability of allocation `aid` from a root value: the root's own
allocation, or onward through either slot of a reachable pair payload.
Marks are irrelevant to reachability. -/
inductive Reaches (heap : Heap) : HVal → Nat → Prop where
  | root (v : HVal) (aid : Nat) : allocIdOf v = some aid → Reaches heap v aid
  | head (v : HVal) (aid : Nat) (h t : HVal) (a2 : Nat) :
      allocIdOf v = some aid → kindAt heap aid = some (.pairA h t) →
      Reaches heap h a2 → Reaches heap v a2
  | tail (v : HVal) (aid : Nat) (h t : HVal) (a2 : Nat) :
      allocIdOf v = some aid → kindAt heap aid = some (.pairA h t) →
      Reaches heap t a2 → Reaches heap v a2

/-- Every allocation id referenced from a pair payload is in range (the C
heap has no dangling `allocation_t` back-pointers). -/
def HeapWF (heap : Heap) : Prop :=
  ∀ aid h t, kindAt heap aid = some (.pairA h t) →
    (∀ a2, allocIdOf h = some a2 → a2 < heap.length) ∧
    (∀ a2, allocIdOf t = some a2 → a2 < heap.length)

/-- A value's own allocation reference is in range. -/
def HValWF (heap : Heap) (v : HVal) : Prop :=
  ∀ aid, allocIdOf v = some aid → aid < heap.length

/-- The mark set is closed except on a set of allocations still being
processed: both children of every marked pair allocation outside `S` are
marked.  `MarksClosed` is the `S = ∅` case — the state every marking
campaign starts from (all clear) and, as proved below, re-establishes. -/
def ClosedExcept (heap : Heap) (S : Set Nat) : Prop :=
  ∀ aid h t, aid ∉ S → markedIn heap aid = true →
    kindAt heap aid = some (.pairA h t) →
    (∀ a2, allocIdOf h = some a2 → markedIn heap a2 = true) ∧
    (∀ a2, allocIdOf t = some a2 → markedIn heap a2 = true)

/-- Closed marks: both children of every marked pair allocation are
marked. -/
def MarksClosed (heap : Heap) : Prop := ClosedExcept heap ∅

/-- A concrete two-allocation heap whose pair payloads reference each other
(a cycle), all marks clear; used to witness the marking theorems on cyclic
structure. -/
def cycleHeap : Heap :=
  [⟨false, .pairA (.cellRef .pairT 1) .nil⟩,
   ⟨false, .pairA (.cellRef .pairT 0) (.integer 5)⟩]

/-! ### Symbol table model (`bamboo_symbol`)

`bamboo_symbol_table` is itself a cons chain in the C heap; its spine is
irrelevant to the interning contract, so the table is carried as the list
of string-allocation ids it holds, most recent first. -/

/-- Interpreter-global allocation state relevant to symbols. -/
structure SymState where
  heap : Heap
  table : List Nat
deriving DecidableEq

/-- The interned name behind a table entry. -/
def symNameAt (heap : Heap) (aid : Nat) : Option (List Char) :=
  match heap.get? aid with
  | some ⟨_, .strA s⟩ => some s
  | _ => none

/-- The `while` loop of `bamboo_symbol`: scan the symbol table comparing the
stored name against `name` with `strcmp`. -/
def symTableFind (heap : Heap) : List Nat → List Char → Option Nat
  | [], _ => none
  | aid :: rest, name =>
      if symNameAt heap aid = some name then some aid
      else symTableFind heap rest name

/-- `bamboo_symbol(name)`: return the existing symbol atom when the name is
already interned; otherwise allocate a fresh string allocation holding a
copy of the name, prepend the new symbol to the table, and return it. -/
def bambooSymbolS (name : List Char) (st : SymState) : HVal × SymState :=
  match symTableFind st.heap st.table name with
  | some aid => (.symbol aid, st)
  | none =>
      let aid := st.heap.length
      (.symbol aid,
        { heap := st.heap ++ [⟨false, .strA name⟩], table := aid :: st.table })

/-- The symbol-table invariant: every table entry is a live string
allocation, and no two entries hold the same name. -/
def SymTableInv (st : SymState) : Prop :=
  (∀ aid ∈ st.table, ∃ s, symNameAt st.heap aid = some s) ∧
  (∀ a1 a2, a1 ∈ st.table → a2 ∈ st.table →
    symNameAt st.heap a1 = symNameAt st.heap a2 → a1 = a2)

/-- `builtin_eq` on the store model, with the heap-allocated argument list
abstracted to a Lean list (only its two elements are read once the arity
check `list_count(args) == 2` has passed).  Pair/closure/macro compare by
cell address, symbols by the interned name pointer `*value.symbol` (the
`TCHAR *` owned by the allocation — equal exactly for the same allocation),
strings by `strcmp` on contents.  First, the `atom_type_t` enumerator of a
value (bamboo.h order), for the leading `a.type != b.type` test: -/
def hvTypeTag : HVal → Nat
  | .nil => 0
  | .symbol _ => 1
  | .integer _ => 2
  | .float _ => 3
  | .boolean _ => 4
  | .strRef _ => 5
  | .cellRef .pairT _ => 6
  | .builtin _ => 7
  | .cellRef .closureT _ => 8
  | .cellRef .macroT _ => 9

/-- `builtin_eq` itself (see the comment above). -/
def builtinEqHV (heap : Heap) (args : List HVal) : Except BErr Atom :=
  if args.length ≠ 2 then .error .arguments
  else
    match args with
    | [a, b] =>
        if hvTypeTag a ≠ hvTypeTag b then .ok (.boolean false)
        else
          match a, b with
          | .nil, .nil => .ok (.boolean true)
          | .cellRef _ x, .cellRef _ y => .ok (.boolean (x == y))
          | .symbol x, .symbol y => .ok (.boolean (x == y))
          | .strRef x, .strRef y =>
              .ok (.boolean (symNameAt heap x == symNameAt heap y))
          | .boolean x, .boolean y => .ok (.boolean (x == y))
          | .integer x, .integer y => .ok (.boolean (x == y))
          | .float x, .float y => .ok (.boolean (x == y))
          | .builtin x, .builtin y => .ok (.boolean (x == y))
          | _, _ => .ok (.boolean false)
    | _ => .error .arguments

/-! ### Closure construction (`bamboo_closure`) and the trampoline evaluator
(`bamboo_eval_expr`, `new_stack_frame`, `eval_expr_exec`, `eval_expr_bind`,
`eval_expr_apply`, `eval_expr_return`, `apply`)

Stack frames are the six-slot lists the source allocates with pair cells;
`list_set` on them is the functional update `listSetA`.  Where the C code
relies on a frame's ENV slot aliasing the local `env` being mutated
(`eval_expr_bind` binds arguments after storing the environment in the
frame), the updated environment is stored back explicitly.  The GC counter
and collections do not affect values and are not modeled. -/

/-- `bamboo_closure(env, args, body, result)`: the argument-name validation
loop — a proper list of symbols, optionally ending in a bare symbol
(variadic). -/
def bambooClosureCheckArgs : Atom → Bool
  | .nil => true
  | .symbol _ => true
  | .cell .pairT (.symbol _) rest => bambooClosureCheckArgs rest
  | _ => false

/-- `bamboo_closure`: body must be a list and the parameter spec valid; the
result is `cons(env, cons(args, body))` retagged `ATOM_TYPE_CLOSURE`. -/
def bambooClosure (env args body : Atom) : Except BErr Atom :=
  if ! listp body then .error .syntaxErr
  else if ! bambooClosureCheckArgs args then .error .syntaxErr
  else .ok (.cell .closureT env (cons args body))

/-- `new_stack_frame(parent, env, tail)`:
`(parent env evaluated-op pending-args evaluated-args body)`. -/
def newStackFrame (parent env tail : Atom) : Atom :=
  cons parent (cons env (cons .nil (cons tail (cons .nil (cons .nil .nil)))))

/-- Dispatch of a `builtin_func_t` pointer.  `builtin_display`'s stdout text
is dropped here (it is observable through `builtinDisplay` directly); `EQ?`
needs reference identity and lives in the store model. -/
def runBuiltin : BuiltinFn → Atom → Except BErr Atom
  | .bCar, args => builtinCar args
  | .bCdr, args => builtinCdr args
  | .bCons, args => builtinCons args
  | .bNot, args => builtinNot args
  | .bAnd, args => builtinAnd args
  | .bOr, args => builtinOr args
  | .bConcat, args => builtinConcat args
  | .bDisplay, args => (builtinDisplay args).1
  | .bNewline, args => builtinNewline args
  | .bEq, _ => .error .unknown

/-- `eval_expr_exec(stack, expr, env)`: pull the next body expression out of
the frame; when it is the last one, pop to the parent frame (tail-call
reuse).  Returns `(stack, expr, env)`. -/
def evalExprExec (stack : Atom) : Atom × Atom × Atom :=
  let env := listRefA stack 1
  let body := listRefA stack 5
  let expr := body.car
  let body2 := body.cdr
  if body2.isNil then (stack.car, expr, env)
  else (listSetA stack 5 body2, expr, env)

/-- Binding loop of `eval_expr_bind`: a bare-symbol parameter takes the whole
remaining argument list; a pair parameter with no argument left is an
argument-count error; leftover arguments after the parameters are too. -/
def evalExprBindLoop : Atom → Atom → Atom → Except BErr Atom
  | env, .symbol n, args => .ok (bambooEnvSet env (.symbol n) args)
  | env, .nil, args => if ! args.isNil then .error .arguments else .ok env
  | env, .cell _t pn rest, args =>
      match args with
      | .nil => .error .arguments
      | _ => evalExprBindLoop (bambooEnvSet env pn args.car) rest args.cdr
  | env, _, args => if ! args.isNil then .error .arguments else .ok env

/-- `eval_expr_bind(stack, expr, env)`: with body pending, just execute it;
otherwise build the child environment from the closure in the op slot, bind
the evaluated arguments, clear them, and start the body. -/
def evalExprBind (stack : Atom) : Except BErr (Atom × Atom × Atom) :=
  let body0 := listRefA stack 5
  if ! body0.isNil then .ok (evalExprExec stack)
  else
    let op := listRefA stack 2
    let args := listRefA stack 4
    let env := bambooEnvNew op.car
    let argNames := op.cdr.car
    let body := op.cdr.cdr
    let stack1 := listSetA (listSetA stack 1 env) 5 body
    match evalExprBindLoop env argNames args with
    | .error e => .error e
    | .ok env2 =>
        let stack2 := listSetA (listSetA stack1 1 env2) 4 .nil
        .ok (evalExprExec stack2)

/-- Tail of `eval_expr_apply` after the `APPLY` rewrite: built-ins pop the
frame and re-dispatch as `cons(op, args)`; closures go to the binder;
anything else is a wrong-type error. -/
def evalApplyTail (stack env op args : Atom) : Except BErr (Atom × Atom × Atom) :=
  match op with
  | .builtin _ => .ok (stack.car, cons op args, env)
  | .cell .closureT _ _ => evalExprBind stack
  | _ => .error .wrongType

/-- `eval_expr_apply(stack, expr, env)`: reverse the accumulated arguments;
an `APPLY` frame is replaced by a fresh frame applying its first argument to
its second (which must be a proper list); then built-in/closure dispatch. -/
def evalExprApply (stack env : Atom) : Except BErr (Atom × Atom × Atom) :=
  let op := listRefA stack 2
  let args0 := listRefA stack 4
  let (args, stack1) :=
    if ! args0.isNil then
      let r := listReverse args0
      (r, listSetA stack 4 r)
    else (args0, stack)
  match op with
  | .symbol n =>
      if n = "APPLY".toList then
        let stack2 := newStackFrame stack1.car env .nil
        let op2 := args.car
        let args2 := args.cdr.car
        if ! listp args2 then .error .syntaxErr
        else
          let stack3 := listSetA (listSetA stack2 2 op2) 4 args2
          evalApplyTail stack3 env op2 args2
      else evalApplyTail stack1 env op args
  | _ => evalApplyTail stack1 env op args

/-- `eval_expr_return(stack, expr, env, result)`: store the arrived result —
as the operator (flipping a macro into an argument-transfer bind), as a
special-form continuation (`DEFINE` binds and rewrites to a quote; `IF`
picks the branch, the else branch exactly for the literal false Boolean),
as a completed macro expansion, or as an evaluated argument — then fetch
the next pending argument or move to the apply phase. -/
def evalExprReturn (stack result : Atom) : Except BErr (Atom × Atom × Atom) :=
  let env := listRefA stack 1
  let op := listRefA stack 2
  let body := listRefA stack 5
  if ! body.isNil then evalExprApply stack env
  else
    let fetchNext : Atom → Except BErr (Atom × Atom × Atom) := fun stk =>
      let args := listRefA stk 3
      if args.isNil then evalExprApply stk env
      else .ok (listSetA stk 3 args.cdr, args.car, env)
    if op.isNil then
      let stack1 := listSetA stack 2 result
      match result with
      | .cell .macroT mEnv mRest =>
          let args := listRefA stack1 3
          let stack2 := newStackFrame stack1 env .nil
          let stack3 :=
            listSetA (listSetA stack2 2 (.cell .closureT mEnv mRest)) 4 args
          evalExprBind stack3
      | _ => fetchNext stack1
    else
      match op with
      | .symbol n =>
          if n = "DEFINE".toList then
            let symbol := listRefA stack 4
            let env2 := bambooEnvSet env symbol result
            .ok (stack.car,
              cons (.symbol "QUOTE".toList) (cons symbol .nil), env2)
          else if n = "IF".toList then
            let args := listRefA stack 3
            let expr2 :=
              if result = .boolean false then args.cdr.car else args.car
            .ok (stack.car, expr2, env)
          else fetchNext (listSetA stack 4 (cons result (listRefA stack 4)))
      | .cell .macroT _ _ => .ok (stack.car, result, env)
      | _ => fetchNext (listSetA stack 4 (cons result (listRefA stack 4)))

/-- Outcome of one iteration of `bamboo_eval_expr`'s trampoline loop:
an immediate error `return`, a `continue` with new loop state, or falling
through to the frame-return logic with an error or a result. -/
inductive IterOut where
  | retErr (e : BErr)
  | cont (expr env stack : Atom)
  | fallOk (result : Atom)
  | fallErr (e : BErr)

/-- One iteration of `bamboo_eval_expr`: symbols are looked up, non-pair
literals are their own value, special forms are recognized on a symbol
operator, a built-in operator is called directly, and any other pair pushes
a frame to evaluate its operator.  Environment bindings made by
`DEFINE`-lambda and `DEFMACRO` mutate the environment in place in C; the
pure model returns the result and drops that store effect (no claim reads
it back). -/
def evalIter (expr env stack : Atom) : IterOut :=
  match expr with
  | .symbol n =>
      match bambooEnvGet env n with
      | .ok v => .fallOk v
      | .error e => .fallErr e
  | .cell .pairT op args =>
      (match op with
       | .symbol n =>
           if n = "QUOTE".toList then
             if listCount args ≠ 1 then .retErr .arguments
             else .fallOk args.car
           else if n = "IF".toList then
             if listCount args ≠ 3 then .retErr .arguments
             else
               let stack1 := listSetA (newStackFrame stack env args.cdr) 2 op
               .cont args.car env stack1
           else if n = "DEFINE".toList then
             if listCount args < 2 then .retErr .arguments
             else
               match args.car with
               | .symbol s =>
                   let stack1 :=
                     listSetA (listSetA (newStackFrame stack env .nil) 2 op)
                       4 (.symbol s)
                   .cont args.cdr.car env stack1
               | .cell .pairT name params =>
                   (match bambooClosure env params args.cdr with
                    | .error e =>
                        (match name with
                         | .symbol _ => .fallErr e
                         | _ => .retErr .wrongType)
                    | .ok _clo =>
                        (match name with
                         | .symbol s => .fallOk (.symbol s)
                         | _ => .retErr .wrongType))
               | _ => .retErr .wrongType
           else if n = "LAMBDA".toList then
             if listCount args < 2 then .retErr .arguments
             else
               match bambooClosure env args.car args.cdr with
               | .ok c => .fallOk c
               | .error e => .fallErr e
           else if n = "DEFMACRO".toList then
             if listCount args < 2 then .retErr .arguments
             else
               match args.car with
               | .cell .pairT name params =>
                   (match name with
                    | .symbol s =>
                        (match bambooClosure env params args.cdr with
                         | .ok _ => .fallOk (.symbol s)
                         | .error e => .fallErr e)
                    | _ => .retErr .wrongType)
               | _ => .retErr .wrongType
           else if n = "APPLY".toList then
             if listCount args < 2 then .retErr .arguments
             else
               let stack1 := listSetA (newStackFrame stack env args.cdr) 2 op
               .cont args.car env stack1
           else .cont op env (newStackFrame stack env args)
       | .builtin f =>
           match runBuiltin f args with
           | .ok r => .fallOk r
           | .error e => .fallErr e
       | _ => .cont op env (newStackFrame stack env args))
  | _ => .fallOk expr

/-- The trampoline loop of `bamboo_eval_expr`, fuel-indexed over iterations
(`none` = fuel exhausted).  A fall-through with the stack empty breaks out
of the loop; otherwise an OK result goes to `eval_expr_return` and the loop
continues while the code stays non-error. -/
def bambooEvalExprF : Nat → Atom → Atom → Atom → Atom → Option (Except BErr Atom)
  | 0, _, _, _, _ => none
  | fuel + 1, expr, env, stack, result =>
      match evalIter expr env stack with
      | .retErr e => some (.error e)
      | .cont e2 v2 s2 => bambooEvalExprF fuel e2 v2 s2 result

      | .fallErr e => some (.error e)
      | .fallOk r =>
          if stack.isNil then some (.ok r)
          else
            match evalExprReturn stack r with
            | .error e => some (.error e)
            | .ok (s2, e2, v2) => bambooEvalExprF fuel e2 v2 s2 r

/-- `bamboo_eval_expr(expr, env, result)` with fuel: stack and result start
nil. -/
def bambooEvalExpr (fuel : Nat) (expr env : Atom) : Option (Except BErr Atom) :=
  bambooEvalExprF fuel expr env .nil .nil

/-- Binding loop of the public `apply`: identical control flow to
`eval_expr_bind`'s loop, but the premature end of the argument list returns
`BAMBOO_ERROR_WRONG_TYPE` (the source's code; its message, like the
`BAMBOO_ERROR_ARGUMENTS` twin in `eval_expr_bind`, says "Argument value
list ended prematurely"), while leftover arguments return
`BAMBOO_ERROR_ARGUMENTS`. -/
def applyBindLoop : Atom → Atom → Atom → Except BErr Atom
  | env, .symbol n, args => .ok (bambooEnvSet env (.symbol n) args)
  | env, .nil, args => if ! args.isNil then .error .arguments else .ok env
  | env, .cell _t pn rest, args =>
      match args with
      | .nil => .error .wrongType
      | _ => applyBindLoop (bambooEnvSet env pn args.car) rest args.cdr
  | env, _, args => if ! args.isNil then .error .arguments else .ok env

/-- Body loop of `apply`: evaluate each body expression; the last value is
the result (an empty body leaves the caller's nil-initialized result). -/
def applyBodyLoop (fuel : Nat) (env : Atom) : Atom → Atom → Option (Except BErr Atom)
  | .nil, result => some (.ok result)
  | .cell _ e rest, _result =>
      match bambooEvalExpr fuel e env with
      | none => none
      | some (.error err) => some (.error err)
      | some (.ok r) => applyBodyLoop fuel env rest r
  | _, result => some (.ok result)

/-- `apply(func, args, result)`: a built-in is called directly; a non-closure
otherwise is a wrong-type error; a closure gets a child environment of its
captured one, the arguments bound, and its body evaluated. -/
def applyF (fuel : Nat) (func args : Atom) : Option (Except BErr Atom) :=
  match func with
  | .builtin f => some (runBuiltin f args)
  | .cell .closureT cEnv rest =>
      let env := bambooEnvNew cEnv
      let argNames := rest.car
      let body := rest.cdr
      (match applyBindLoop env argNames args with
       | .error e => some (.error e)
       | .ok env2 => applyBodyLoop fuel env2 body .nil)
  | _ => some (.error .wrongType)

/-! ### Round-trip side conditions (predicates for the print/parse
relation) -/

/-- A symbol name that survives re-tokenization: it does not begin with the
pair-separator character `.` and `parse_primitive` maps the bare name back
to the same symbol (so it is not `NIL`, not a hash form, is fixed under
upper-casing, and is rejected by both numeric conversions). -/
def symbolRoundOK (name : List Char) : Bool :=
  name.head? ≠ some '.' &&
    match parsePrimitive name [] with
    | (.ok, _, .symbol m) => m == name
    | _ => false

/-- Values whose printed form reads back verbatim: no closures, macros or
built-ins (which the claim already excludes), and additionally no floats
(printed through `%Lg`) and only symbols that re-tokenize to themselves. -/
def printSafe : Atom → Bool
  | .nil => true
  | .integer _ => true
  | .boolean _ => true
  | .str _ => true
  | .float _ => false
  | .builtin _ => false
  | .symbol n => symbolRoundOK n
  | .cell .pairT a d => printSafe a && printSafe d
  | .cell _ _ _ => false

/-- Structural facts holding of every atom the parser produces: integers in
`int64_t` range, string contents free of the double quote, symbol names
nonempty, delimiter-free and not starting with a prefix character, and
pairs built from such atoms. -/
inductive ParseShape : Atom → Prop where
  | nilS : ParseShape .nil
  | intS (n : Int) : -(2 ^ 63) ≤ n → n ≤ 2 ^ 63 - 1 → ParseShape (.integer n)
  | boolS (b : Bool) : ParseShape (.boolean b)
  | floatS (q : ℚ) : ParseShape (.float q)
  | strS (s : List Char) : quoteCh ∉ s → ParseShape (.str s)
  | symS (name : List Char) : name ≠ [] → (∀ c ∈ name, c ∉ delimChars) →
      (∀ c, name.head? = some c → c ∉ prefixTokChars) → ParseShape (.symbol name)
  | pairS (a d : Atom) : ParseShape a → ParseShape d → ParseShape (.cell .pairT a d)

/-- Text that may legally follow a printed element: nothing, or a space or
closing parenthesis (the only characters `bamboo_expr_str` ever places
after an element). -/
def printedBoundary (rest : List Char) : Prop :=
  rest = [] ∨ (∃ rs, rest = ' ' :: rs) ∨ (∃ rs, rest = ')' :: rs)


/-! ## Theorems -/

/-- C1: the claim states that `AND` over a proper list of at least two
arguments returns true iff every argument is truthy.  The code instead
compares adjacent truthiness for *equality*: on the two-argument list
`(#f #f)` — a proper list of two arguments, neither of them truthy — it
returns Boolean true, contradicting the claim (and the source's own
comments, which say a single false value should yield false). -/
theorem builtin_and_all_false_returns_true :
    listCount (cons (.boolean false) (cons (.boolean false) .nil)) = 2 ∧
    atomBooleanVal (.boolean false) = false ∧
    builtinAnd (cons (.boolean false) (cons (.boolean false) .nil)) =
      .ok (.boolean true) := by
  refine ⟨rfl, rfl, rfl⟩

/-- C3: on a single-element argument list, `CAR` of nil is nil (not an
error), `CAR` of a pair is its head slot, and `CAR` of any other atom is
the wrong-type error; `CDR` is identical with the tail slot. -/
theorem car_cdr_single_argument (x : Atom) :
    (builtinCar (cons .nil .nil) = .ok .nil ∧
      builtinCdr (cons .nil .nil) = .ok .nil) ∧
    (∀ a d, builtinCar (cons (.cell .pairT a d) .nil) = .ok a ∧
      builtinCdr (cons (.cell .pairT a d) .nil) = .ok d) ∧
    (x ≠ .nil → (∀ a d, x ≠ .cell .pairT a d) →
      builtinCar (cons x .nil) = .error .wrongType ∧
      builtinCdr (cons x .nil) = .error .wrongType) := by
  refine ⟨⟨rfl, rfl⟩, fun a d => ⟨rfl, rfl⟩, fun hnil hpair => ?_⟩
  cases x with
  | nil => exact absurd rfl hnil
  | cell t a d =>
      cases t with
      | pairT => exact absurd rfl (hpair a d)
      | closureT => exact ⟨rfl, rfl⟩
      | macroT => exact ⟨rfl, rfl⟩
  | symbol n => exact ⟨rfl, rfl⟩
  | integer n => exact ⟨rfl, rfl⟩
  | float q => exact ⟨rfl, rfl⟩
  | boolean b => exact ⟨rfl, rfl⟩
  | str s => exact ⟨rfl, rfl⟩
  | builtin f => exact ⟨rfl, rfl⟩

/-- C3 witness: instantiated at the integer 0 (neither nil nor a pair). -/
theorem car_cdr_single_argument_witness :
    builtinCar (cons (.integer 0) .nil) = .error .wrongType ∧
    builtinCdr (cons (.integer 0) .nil) = .error .wrongType :=
  (car_cdr_single_argument (.integer 0)).2.2 (by decide) (fun a d h => by cases h)

/-- C10: with an empty argument list, `CONCAT` and `DISPLAY` both fail with
the wrong-arity error, and `DISPLAY` writes nothing to the output sink. -/
theorem concat_display_empty_args :
    builtinConcat .nil = .error .arguments ∧
    builtinDisplay .nil = (.error .arguments, []) := by
  exact ⟨rfl, rfl⟩

/-- C4: on an `IF` frame carrying pending branches `(t e)` — exactly the
frame `bamboo_eval_expr` pushes for `(IF c t e)` after checking for exactly
three sub-forms — the arrival of the condition's value `v` selects the else
expression precisely when `v` is the literal false Boolean, and the then
expression for every other value (integer 0, the empty string and nil
included), popping to the parent frame in the caller's environment. -/
theorem if_return_selects_on_literal_false (parent env t e v : Atom) :
    evalExprReturn
      (listSetA (newStackFrame parent env (cons t (cons e .nil))) 2
        (.symbol "IF".toList)) v =
      .ok (parent, (if v = .boolean false then e else t), env) ∧
    ((if v = .boolean false then e else t) = e ↔
      (v = .boolean false ∨ t = e)) ∧
    (v = .integer 0 ∨ v = .str [] ∨ v = .nil →
      (if v = .boolean false then e else t) = t) := by
  refine ⟨rfl, ?_, ?_⟩
  · by_cases h : v = .boolean false <;> simp [h]
  · rintro (rfl | rfl | rfl) <;> simp

/-- C4 witness: the integer 0 is truthy — `(IF 0 A B)`'s frame selects the
then expression `A`. -/
theorem if_return_selects_witness :
    evalExprReturn
      (listSetA (newStackFrame .nil .nil
        (cons (.symbol ['A']) (cons (.symbol ['B']) .nil))) 2
        (.symbol "IF".toList)) (.integer 0) =
      .ok (.nil, .symbol ['A'], .nil) := by
  have h := if_return_selects_on_literal_false .nil .nil (.symbol ['A'])
    (.symbol ['B']) (.integer 0)
  have ht := h.2.2 (Or.inl rfl)
  have h1 := h.1
  rw [ht] at h1
  exact h1

/-- C5: too few argument values for a pair parameter.  Through the
evaluator's binding phase (`eval_expr_bind`, reached from a closure frame
whose evaluated arguments ran out) the call fails with the argument-count
error, as the claim states; but through the public `apply` entry point the
very same condition returns the *wrong-type* error code (`apply`'s
premature-end branch returns `BAMBOO_ERROR_WRONG_TYPE`), so the claim's
"wrong-arity through the public apply entry point" half fails on the code. -/
theorem bind_too_few_args_error_codes :
    (∀ env t p ps, evalExprBindLoop env (.cell t p ps) .nil = .error .arguments) ∧
    (∀ parent env0 cEnv p ps bodyL,
      evalExprBind
        (listSetA (listSetA (newStackFrame parent env0 .nil) 2
          (.cell .closureT cEnv (cons (cons p ps) bodyL))) 4 .nil) =
        .error .arguments) ∧
    (∀ env t p ps, applyBindLoop env (.cell t p ps) .nil = .error .wrongType) ∧
    (∀ fuel cEnv p ps bodyL,
      applyF fuel (.cell .closureT cEnv (cons (cons p ps) bodyL)) .nil =
        some (.error .wrongType)) := by
  refine ⟨fun env t p ps => rfl, fun parent env0 cEnv p ps bodyL => rfl,
    fun env t p ps => rfl, fun fuel cEnv p ps bodyL => rfl⟩

/-! ### C7: environment scoping -/

theorem envFrameSet_none {bindings : Atom} {name : List Char} {value : Atom}
    (h : envFrameGet bindings name = none) :
    envFrameSet bindings name value = none := by
  induction bindings with
  | cell t item rest ihh ih =>
      simp only [envFrameGet] at h
      by_cases hs : symName item.car = some name
      · simp [hs] at h
      · simp only [hs, if_false] at h
        cases item with
        | cell it sym old =>
            have hs2 : symName sym = some name → False := by
              intro hx; exact hs (by simpa [Atom.car] using hx)
            simp only [envFrameSet]
            rw [if_neg hs2, ih h]
        | nil => simp only [envFrameSet]; rw [ih h]
        | symbol n => simp only [envFrameSet]; rw [ih h]
        | integer n => simp only [envFrameSet]; rw [ih h]
        | float q => simp only [envFrameSet]; rw [ih h]
        | boolean b => simp only [envFrameSet]; rw [ih h]
        | str s => simp only [envFrameSet]; rw [ih h]
        | builtin f => simp only [envFrameSet]; rw [ih h]
  | nil => rfl
  | symbol n => rfl
  | integer n => rfl
  | float q => rfl
  | boolean b => rfl
  | str s => rfl
  | builtin f => rfl

theorem envFrameSet_found {bindings : Atom} {name : List Char} {value b2 : Atom}
    (h : envFrameSet bindings name value = some b2) :
    envFrameGet b2 name = some value ∧
    (∀ m, m ≠ name → envFrameGet b2 m = envFrameGet bindings m) := by
  induction bindings generalizing b2 with
  | cell t item rest ihh ih =>
      cases item with
      | cell it sym old =>
          by_cases hs : symName sym = some name
          · simp only [envFrameSet, hs, if_pos] at h
            cases h
            constructor
            · simp [envFrameGet, Atom.car, Atom.cdr, hs]
            · intro m hm
              have hs2 : symName sym ≠ some m := by
                rw [hs]; intro hx; exact hm (by injection hx with hx2; exact hx2.symm)
              simp [envFrameGet, Atom.car, hs2]
          · simp only [envFrameSet, hs, if_neg, not_false_iff] at h
            cases hr : envFrameSet rest name value with
            | none => rw [hr] at h; cases h
            | some rest2 =>
                rw [hr] at h
                cases h
                have ⟨ih1, ih2⟩ := ih hr
                constructor
                · have hs3 : symName (Atom.car (.cell it sym value)) = some name → False := by
                    intro hx; exact hs (by simpa [Atom.car] using hx)
                  simp only [envFrameGet, Atom.car, Atom.cdr]
                  rw [if_neg (by simpa [Atom.car] using hs)]
                  exact ih1
                · intro m hm
                  simp only [envFrameGet, Atom.car, Atom.cdr]
                  by_cases hsm : symName sym = some m
                  · rw [if_pos (by simpa [Atom.car] using hsm),
                      if_pos (by simpa [Atom.car] using hsm)]
                  · rw [if_neg (by simpa [Atom.car] using hsm),
                      if_neg (by simpa [Atom.car] using hsm)]
                    exact ih2 m hm
      | nil =>
          simp only [envFrameSet] at h
          cases hr : envFrameSet rest name value with
          | none => rw [hr] at h; cases h
          | some rest2 =>
              rw [hr] at h; cases h
              have ⟨ih1, ih2⟩ := ih hr
              refine ⟨by simpa [envFrameGet, Atom.car, symName] using ih1, ?_⟩
              intro m hm
              simpa [envFrameGet, Atom.car, symName] using ih2 m hm
      | symbol n =>
          simp only [envFrameSet] at h
          cases hr : envFrameSet rest name value with
          | none => rw [hr] at h; cases h
          | some rest2 =>
              rw [hr] at h; cases h
              have ⟨ih1, ih2⟩ := ih hr
              refine ⟨by simpa [envFrameGet, Atom.car, symName] using ih1, ?_⟩
              intro m hm
              simpa [envFrameGet, Atom.car, symName] using ih2 m hm
      | integer n =>
          simp only [envFrameSet] at h
          cases hr : envFrameSet rest name value with
          | none => rw [hr] at h; cases h
          | some rest2 =>
              rw [hr] at h; cases h
              have ⟨ih1, ih2⟩ := ih hr
              refine ⟨by simpa [envFrameGet, Atom.car, symName] using ih1, ?_⟩
              intro m hm
              simpa [envFrameGet, Atom.car, symName] using ih2 m hm
      | float q =>
          simp only [envFrameSet] at h
          cases hr : envFrameSet rest name value with
          | none => rw [hr] at h; cases h
          | some rest2 =>
              rw [hr] at h; cases h
              have ⟨ih1, ih2⟩ := ih hr
              refine ⟨by simpa [envFrameGet, Atom.car, symName] using ih1, ?_⟩
              intro m hm
              simpa [envFrameGet, Atom.car, symName] using ih2 m hm
      | boolean b =>
          simp only [envFrameSet] at h
          cases hr : envFrameSet rest name value with
          | none => rw [hr] at h; cases h
          | some rest2 =>
              rw [hr] at h; cases h
              have ⟨ih1, ih2⟩ := ih hr
              refine ⟨by simpa [envFrameGet, Atom.car, symName] using ih1, ?_⟩
              intro m hm
              simpa [envFrameGet, Atom.car, symName] using ih2 m hm
      | str s =>
          simp only [envFrameSet] at h
          cases hr : envFrameSet rest name value with
          | none => rw [hr] at h; cases h
          | some rest2 =>
              rw [hr] at h; cases h
              have ⟨ih1, ih2⟩ := ih hr
              refine ⟨by simpa [envFrameGet, Atom.car, symName] using ih1, ?_⟩
              intro m hm
              simpa [envFrameGet, Atom.car, symName] using ih2 m hm
      | builtin f =>
          simp only [envFrameSet] at h
          cases hr : envFrameSet rest name value with
          | none => rw [hr] at h; cases h
          | some rest2 =>
              rw [hr] at h; cases h
              have ⟨ih1, ih2⟩ := ih hr
              refine ⟨by simpa [envFrameGet, Atom.car, symName] using ih1, ?_⟩
              intro m hm
              simpa [envFrameGet, Atom.car, symName] using ih2 m hm
  | nil => cases h
  | symbol n => cases h
  | integer n => cases h
  | float q => cases h
  | boolean b => cases h
  | str s => cases h
  | builtin f => cases h

theorem envBound_false_unbound (env : Atom) (nm : List Char)
    (h : envBound env nm = false) : bambooEnvGet env nm = .error .unbound := by
  induction env with
  | cell t parent current ih =>
      simp only [envBound, Bool.or_eq_false_iff] at h
      obtain ⟨h1, h2⟩ := h
      have hget : envFrameGet current nm = none := by
        cases hg : envFrameGet current nm with
        | none => rfl
        | some v => rw [hg] at h1; cases h1
      simp only [bambooEnvGet, hget]
      cases parent with
      | nil => simp [Atom.isNil]
      | cell t2 p2 c2 => simpa [Atom.isNil] using ih h2
      | symbol n => simp [Atom.isNil, bambooEnvGet]
      | integer n => simp [Atom.isNil, bambooEnvGet]
      | float q => simp [Atom.isNil, bambooEnvGet]
      | boolean b => simp [Atom.isNil, bambooEnvGet]
      | str s => simp [Atom.isNil, bambooEnvGet]
      | builtin f => simp [Atom.isNil, bambooEnvGet]
  | nil => rfl
  | symbol n => rfl
  | integer n => rfl
  | float q => rfl
  | boolean b => rfl
  | str s => rfl
  | builtin f => rfl

/-- C7: `bamboo_env_set` touches only the target frame — the parent slot is
returned unchanged (so parent-frame lookups are over the very same
environment value as before), the updated binding list is independent of
the parent, a name missing from this frame is prepended to it even when a
parent binds it, other names' lookups in the frame are untouched, lookup of
the set name in the child now yields the new value, and a name bound in no
frame of the chain is an unbound-symbol error. -/
theorem env_set_shadows_locally (parent bindings value : Atom) (name : List Char) :
    (bambooEnvSet (cons parent bindings) (.symbol name) value).car = parent ∧
    (∀ nm, bambooEnvGet (bambooEnvSet (cons parent bindings) (.symbol name) value).car nm =
      bambooEnvGet parent nm) ∧
    (∀ p2, (bambooEnvSet (cons p2 bindings) (.symbol name) value).cdr =
      (bambooEnvSet (cons parent bindings) (.symbol name) value).cdr) ∧
    (envFrameGet bindings name = none →
      bambooEnvSet (cons parent bindings) (.symbol name) value =
        cons parent (cons (cons (.symbol name) value) bindings)) ∧
    (∀ m, m ≠ name →
      envFrameGet (bambooEnvSet (cons parent bindings) (.symbol name) value).cdr m =
        envFrameGet bindings m) ∧
    bambooEnvGet (bambooEnvSet (cons parent bindings) (.symbol name) value) name =
      .ok value ∧
    (∀ env nm, envBound env nm = false → bambooEnvGet env nm = .error .unbound) := by
  have hset : ∀ p : Atom, bambooEnvSet (cons p bindings) (.symbol name) value =
      .cell .pairT p (match envFrameSet bindings name value with
        | some cur2 => cur2
        | none => cons (cons (.symbol name) value) bindings) := by
    intro p
    simp only [bambooEnvSet, cons, symName]
    cases envFrameSet bindings name value <;> rfl
  constructor
  · rw [hset]; rfl
  constructor
  · intro nm; rw [hset]; rfl
  constructor
  · intro p2; rw [hset, hset]; rfl
  constructor
  · intro hnone
    rw [hset, envFrameSet_none hnone]
    rfl
  constructor
  · intro m hm
    rw [hset]
    cases hr : envFrameSet bindings name value with
    | some b2 =>
        simpa [Atom.cdr] using (envFrameSet_found hr).2 m hm
    | none =>
        have hmn : symName (Atom.car (cons (.symbol name) value)) ≠ some m := by
          simp only [cons, Atom.car, symName]
          intro hx; exact hm (by injection hx with hx2; exact hx2.symm)
        simp only [Atom.cdr, envFrameGet, cons, Atom.car, symName, hr]
        rw [if_neg (by intro hx; exact hm (by injection hx with hx2; exact hx2.symm))]
  constructor
  · rw [hset]
    cases hr : envFrameSet bindings name value with
    | some b2 =>
        have := (envFrameSet_found hr).1
        simp [bambooEnvGet, this]
    | none =>
        simp [bambooEnvGet, envFrameGet, cons, Atom.car, Atom.cdr, symName]
  · exact envBound_false_unbound

/-- C7 witness: parent binds `X ↦ 1`; setting `X ↦ 2` in an empty child
frame updates only the child: child lookup gives 2, the parent slot (and a
lookup through it) still gives 1, and `Y` is unbound. -/
theorem env_set_shadows_locally_witness :
    (bambooEnvSet (cons (cons .nil (cons (cons (.symbol ['X']) (.integer 1)) .nil)) .nil)
        (.symbol ['X']) (.integer 2)).car =
      cons .nil (cons (cons (.symbol ['X']) (.integer 1)) .nil) ∧
    envFrameGet (.nil : Atom) ['X'] = none ∧
    bambooEnvSet (cons (cons .nil (cons (cons (.symbol ['X']) (.integer 1)) .nil)) .nil)
        (.symbol ['X']) (.integer 2) =
      cons (cons .nil (cons (cons (.symbol ['X']) (.integer 1)) .nil))
        (cons (cons (.symbol ['X']) (.integer 2)) .nil) ∧
    bambooEnvGet (bambooEnvSet
        (cons (cons .nil (cons (cons (.symbol ['X']) (.integer 1)) .nil)) .nil)
        (.symbol ['X']) (.integer 2)) ['X'] = .ok (.integer 2) ∧
    envBound (cons (cons .nil (cons (cons (.symbol ['X']) (.integer 1)) .nil)) .nil)
        ['Y'] = false ∧
    bambooEnvGet (cons (cons .nil (cons (cons (.symbol ['X']) (.integer 1)) .nil)) .nil)
        ['Y'] = .error .unbound := by
  have h := env_set_shadows_locally
    (cons .nil (cons (cons (.symbol ['X']) (.integer 1)) .nil)) .nil (.integer 2) ['X']
  refine ⟨h.1, by decide, h.2.2.2.1 (by decide), h.2.2.2.2.2.1, by decide,
    h.2.2.2.2.2.2 _ _ (by decide)⟩

/-! ### C8: symbol interning -/

theorem symTableFind_some {heap : Heap} {table : List Nat} {name : List Char}
    {aid : Nat} (h : symTableFind heap table name = some aid) :
    aid ∈ table ∧ symNameAt heap aid = some name := by
  induction table with
  | nil => cases h
  | cons a rest ih =>
      simp only [symTableFind] at h
      by_cases ha : symNameAt heap a = some name
      · rw [if_pos ha] at h
        cases h
        exact ⟨List.mem_cons_self _ _, ha⟩
      · rw [if_neg ha] at h
        have ⟨h1, h2⟩ := ih h
        exact ⟨List.mem_cons_of_mem _ h1, h2⟩

theorem symTableFind_none {heap : Heap} {table : List Nat} {name : List Char}
    (h : symTableFind heap table name = none) :
    ∀ aid ∈ table, symNameAt heap aid ≠ some name := by
  induction table with
  | nil => intro aid ha; cases ha
  | cons a rest ih =>
      simp only [symTableFind] at h
      by_cases ha : symNameAt heap a = some name
      · rw [if_pos ha] at h; cases h
      · rw [if_neg ha] at h
        intro aid hmem
        rcases List.mem_cons.mp hmem with rfl | hmem2
        · exact ha
        · exact ih h aid hmem2

theorem symNameAt_lt {heap : Heap} {aid : Nat} {s : List Char}
    (h : symNameAt heap aid = some s) : aid < heap.length := by
  by_contra hge
  have hnone : heap[aid]? = none := List.getElem?_eq_none (Nat.le_of_not_lt hge)
  simp [symNameAt, List.get?_eq_getElem?, hnone] at h

theorem symNameAt_append {heap : Heap} {aid : Nat} (x : Allocation)
    (h : aid < heap.length) : symNameAt (heap ++ [x]) aid = symNameAt heap aid := by
  simp [symNameAt, List.get?_eq_getElem?, List.getElem?_append_left h]

theorem symNameAt_concat_length (heap : Heap) (s : List Char) (m : Bool) :
    symNameAt (heap ++ [⟨m, .strA s⟩]) heap.length = some s := by
  simp [symNameAt, List.get?_eq_getElem?, List.getElem?_concat_length]

theorem bambooSymbolS_inv {st : SymState} (hinv : SymTableInv st)
    (n : List Char) : SymTableInv (bambooSymbolS n st).2 := by
  obtain ⟨hval, huniq⟩ := hinv
  cases hfind : symTableFind st.heap st.table n with
  | some aid => simpa [bambooSymbolS, hfind] using ⟨hval, huniq⟩
  | none =>
      simp only [bambooSymbolS, hfind]
      constructor
      · intro aid hmem
        rcases List.mem_cons.mp hmem with rfl | hmem2
        · exact ⟨n, symNameAt_concat_length _ _ _⟩
        · obtain ⟨s, hs⟩ := hval aid hmem2
          exact ⟨s, by rw [symNameAt_append _ (symNameAt_lt hs)]; exact hs⟩
      · intro a1 a2 h1 h2 hname
        have hres : ∀ a ∈ st.table, symNameAt (st.heap ++ [⟨false, .strA n⟩]) a =
            symNameAt st.heap a := by
          intro a ha
          obtain ⟨s, hs⟩ := hval a ha
          exact symNameAt_append _ (symNameAt_lt hs)
        rcases List.mem_cons.mp h1 with rfl | h1b
        · rcases List.mem_cons.mp h2 with rfl | h2b
          · rfl
          · exfalso
            rw [symNameAt_concat_length, hres a2 h2b] at hname
            exact symTableFind_none hfind a2 h2b hname.symm
        · rcases List.mem_cons.mp h2 with rfl | h2b
          · exfalso
            rw [symNameAt_concat_length, hres a1 h1b] at hname
            exact symTableFind_none hfind a1 h1b hname
          · rw [hres a1 h1b, hres a2 h2b] at hname
            exact huniq a1 a2 h1b h2b hname

theorem bambooSymbolS_name {st : SymState} (n : List Char) :
    ∃ aid, (bambooSymbolS n st).1 = .symbol aid ∧
      symNameAt (bambooSymbolS n st).2.heap aid = some n := by
  cases hfind : symTableFind st.heap st.table n with
  | some aid =>
      exact ⟨aid, by simp [bambooSymbolS, hfind], by
        simpa [bambooSymbolS, hfind] using (symTableFind_some hfind).2⟩
  | none =>
      exact ⟨st.heap.length, by simp [bambooSymbolS, hfind], by
        simpa [bambooSymbolS, hfind] using symNameAt_concat_length st.heap n false⟩

theorem bambooSymbolS_mem {st : SymState} (n : List Char) :
    ∃ aid, (bambooSymbolS n st).1 = .symbol aid ∧
      aid ∈ (bambooSymbolS n st).2.table := by
  cases hfind : symTableFind st.heap st.table n with
  | some aid =>
      refine ⟨aid, by simp [bambooSymbolS, hfind], ?_⟩
      simpa [bambooSymbolS, hfind] using (symTableFind_some hfind).1
  | none =>
      exact ⟨st.heap.length, by simp [bambooSymbolS, hfind], by
        simp [bambooSymbolS, hfind]⟩

theorem bambooSymbolS_extends {st : SymState} (hinv : SymTableInv st)
    (n : List Char) :
    ∀ a ∈ st.table, a ∈ (bambooSymbolS n st).2.table ∧
      symNameAt (bambooSymbolS n st).2.heap a = symNameAt st.heap a := by
  intro a ha
  cases hfind : symTableFind st.heap st.table n with
  | some aid => simp [bambooSymbolS, hfind, ha]
  | none =>
      obtain ⟨s, hs⟩ := hinv.1 a ha
      simp only [bambooSymbolS, hfind]
      exact ⟨List.mem_cons_of_mem _ ha, symNameAt_append _ (symNameAt_lt hs)⟩

/-- Find returns the member whose interned name matches, given the table's
one-entry-per-name uniqueness. -/
theorem symTableFind_of_mem {heap : Heap} {table : List Nat} {aid : Nat}
    {n : List Char}
    (huniq : ∀ a1 a2, a1 ∈ table → a2 ∈ table →
      symNameAt heap a1 = symNameAt heap a2 → a1 = a2)
    (hmem : aid ∈ table) (hname : symNameAt heap aid = some n) :
    symTableFind heap table n = some aid := by
  induction table with
  | nil => cases hmem
  | cons a rest ih =>
      simp only [symTableFind]
      by_cases hx : symNameAt heap a = some n
      · have : a = aid :=
          huniq a aid (List.mem_cons_self _ _) hmem (hx.trans hname.symm)
        rw [if_pos hx, this]
      · rw [if_neg hx]
        rcases List.mem_cons.mp hmem with rfl | hmem2
        · exact absurd hname hx
        · exact ih (fun b1 b2 h1 h2 =>
            huniq b1 b2 (List.mem_cons_of_mem _ h1) (List.mem_cons_of_mem _ h2))
            hmem2

/-- C8: with a well-formed symbol table (every entry a live name string, at
most one entry per name — an invariant `bamboo_symbol` preserves, second
conjunct), constructing a symbol for the same name again returns the very
same allocation and leaves the state untouched (first conjunct); for any
two constructed symbols, reference equality (equality of the allocation
backing `value.symbol`) holds exactly when the names are equal (third
conjunct); and `builtin_eq` on the two symbol atoms — the `EQ?` primitive —
answers exactly name equality, so `(eq? 'foo 'foo)` is true (fourth
conjunct). -/
theorem symbol_interning (st : SymState) (hinv : SymTableInv st)
    (n1 n2 : List Char) :
    (bambooSymbolS n1 (bambooSymbolS n1 st).2 =
      ((bambooSymbolS n1 st).1, (bambooSymbolS n1 st).2)) ∧
    SymTableInv (bambooSymbolS n1 st).2 ∧
    ((bambooSymbolS n1 st).1 = (bambooSymbolS n2 (bambooSymbolS n1 st).2).1 ↔
      n1 = n2) ∧
    builtinEqHV (bambooSymbolS n2 (bambooSymbolS n1 st).2).2.heap
      [(bambooSymbolS n1 st).1, (bambooSymbolS n2 (bambooSymbolS n1 st).2).1] =
      .ok (.boolean (n1 == n2)) := by
  have hinv1 : SymTableInv (bambooSymbolS n1 st).2 := bambooSymbolS_inv hinv n1
  obtain ⟨aid1, ha1, hn1⟩ := @bambooSymbolS_name st n1
  obtain ⟨aid1b, ha1b, hm1⟩ := @bambooSymbolS_mem st n1
  have haid1 : aid1b = aid1 := by
    have hx := ha1.symm.trans ha1b
    injection hx with hx2
    exact hx2.symm
  rw [haid1] at hm1
  have hfind2 : symTableFind (bambooSymbolS n1 st).2.heap
      (bambooSymbolS n1 st).2.table n1 = some aid1 :=
    symTableFind_of_mem (fun b1 b2 h1 h2 => hinv1.2 b1 b2 h1 h2) hm1 hn1
  have hsame : bambooSymbolS n1 (bambooSymbolS n1 st).2 =
      ((bambooSymbolS n1 st).1, (bambooSymbolS n1 st).2) := by
    rw [ha1]
    set st1 := (bambooSymbolS n1 st).2 with hst1
    simp only [bambooSymbolS, hfind2]
  obtain ⟨aid2, ha2, hn2⟩ := @bambooSymbolS_name (bambooSymbolS n1 st).2 n2
  have hn1ext : symNameAt (bambooSymbolS n2 (bambooSymbolS n1 st).2).2.heap aid1 =
      some n1 := by
    have := (bambooSymbolS_extends hinv1 n2 aid1 hm1).2
    rw [this]; exact hn1
  have hn2ext : symNameAt (bambooSymbolS n2 (bambooSymbolS n1 st).2).2.heap aid2 =
      some n2 := hn2
  have hiff : (bambooSymbolS n1 st).1 =
      (bambooSymbolS n2 (bambooSymbolS n1 st).2).1 ↔ n1 = n2 := by
    constructor
    · intro heq
      rw [ha1, ha2] at heq
      have haa : aid1 = aid2 := HVal.symbol.inj heq
      rw [haa] at hn1ext
      have hx := hn1ext.symm.trans hn2ext
      exact (Option.some.inj hx)
    · intro heq
      subst heq
      rw [hsame]
  refine ⟨hsame, hinv1, hiff, ?_⟩
  rw [ha1, ha2]
  rw [ha1, ha2] at hiff
  have hbeq : (aid1 == aid2) = (n1 == n2) := by
    by_cases h : n1 = n2
    · have h2 : aid1 = aid2 := HVal.symbol.inj (hiff.mpr h)
      simp [h, h2]
    · have h2 : aid1 ≠ aid2 := by
        intro hx
        exact h (hiff.mp (by rw [hx]))
      simp [h, h2]
  simp [builtinEqHV, hvTypeTag, hbeq]

/-- C8 witness: starting from the empty interpreter state (empty heap and
symbol table — trivially well formed), interning `FOO` twice yields the
same allocation, the invariant persists, and `EQ?` on the two symbols is
true. -/
theorem symbol_interning_witness :
    SymTableInv ⟨[], []⟩ ∧
    (bambooSymbolS "FOO".toList (bambooSymbolS "FOO".toList ⟨[], []⟩).2 =
      ((bambooSymbolS "FOO".toList ⟨[], []⟩).1,
        (bambooSymbolS "FOO".toList ⟨[], []⟩).2)) ∧
    builtinEqHV (bambooSymbolS "FOO".toList
        (bambooSymbolS "FOO".toList ⟨[], []⟩).2).2.heap
      [(bambooSymbolS "FOO".toList ⟨[], []⟩).1,
        (bambooSymbolS "FOO".toList (bambooSymbolS "FOO".toList ⟨[], []⟩).2).1] =
      .ok (.boolean true) := by
  have hinv : SymTableInv ⟨[], []⟩ := by
    constructor
    · intro aid h; cases h
    · intro a1 a2 h1; cases h1
  have h := symbol_interning ⟨[], []⟩ hinv "FOO".toList "FOO".toList
  refine ⟨hinv, h.1, ?_⟩
  have := h.2.2.2
  simpa using this

/-! ### C9: garbage collector marking -/

theorem length_setMark (heap : Heap) (aid : Nat) :
    (setMark heap aid).length = heap.length := by
  simp [setMark]

theorem getElem?_setMark_self {heap : Heap} {aid : Nat} {a : Allocation}
    (h : heap[aid]? = some a) :
    (setMark heap aid)[aid]? = some ⟨true, a.kind⟩ := by
  have hlt : aid < heap.length := (List.getElem?_eq_some.mp h).1
  have hd : heap.getD aid ⟨false, .strA []⟩ = a := by
    simp [List.getD_eq_getElem?_getD, h]
  simp [setMark, hd, List.getElem?_set_eq_of_lt _ hlt]
  simp [h]

theorem getElem?_setMark_ne {heap : Heap} {aid b : Nat} (hne : b ≠ aid) :
    (setMark heap aid)[b]? = heap[b]? := by
  simp [setMark, List.getElem?_set_ne (fun h => hne h.symm)]

theorem kindAt_eq (heap : Heap) (b : Nat) :
    kindAt heap b = (heap[b]?).map (fun a => a.kind) := by
  simp [kindAt, List.get?_eq_getElem?]

theorem markedIn_eq (heap : Heap) (b : Nat) :
    markedIn heap b = ((heap[b]?).map (fun a => a.mark)).getD false := by
  rw [markedIn, List.get?_eq_getElem?]
  cases heap[b]? <;> rfl

theorem kindAt_setMark (heap : Heap) (aid b : Nat) :
    kindAt (setMark heap aid) b = kindAt heap b := by
  rw [kindAt_eq, kindAt_eq]
  by_cases hb : b = aid
  · subst hb
    cases h : heap[b]? with
    | none =>
        have hge : heap.length ≤ b := List.getElem?_eq_none_iff.mp h
        have h2 : (setMark heap b)[b]? = none := by
          apply List.getElem?_eq_none
          rwa [length_setMark]
        simp [h2, h]
    | some a => simp [getElem?_setMark_self h, h]
  · rw [getElem?_setMark_ne hb]

theorem markedIn_setMark {heap : Heap} {aid : Nat} {a : Allocation}
    (h : heap[aid]? = some a) (b : Nat) :
    markedIn (setMark heap aid) b = (b == aid || markedIn heap b) := by
  rw [markedIn_eq, markedIn_eq]
  by_cases hb : b = aid
  · subst hb
    simp [getElem?_setMark_self h]
  · simp [getElem?_setMark_ne hb, hb]

theorem unmarkedCount_setMark {heap : Heap} {aid : Nat} {a : Allocation}
    (h : heap[aid]? = some a) (hm : a.mark = false) :
    unmarkedCount (setMark heap aid) + 1 = unmarkedCount heap := by
  induction heap generalizing aid with
  | nil => cases h
  | cons x rest ih =>
      cases aid with
      | zero =>
          have hx : x = a := by simpa using h
          subst hx
          simp only [setMark, List.getD_cons_zero, List.set_cons_zero]
          simp [unmarkedCount, List.filter, hm]
      | succ n =>
          have hr : rest[n]? = some a := by simpa using h
          have ihn := ih hr
          simp only [setMark, List.getD_cons_succ, List.set_cons_succ] at *
          by_cases hxm : x.mark
          · simpa [unmarkedCount, List.filter, hxm] using ihn
          · simp only [unmarkedCount, List.filter] at *
            simp only [Bool.not_eq_true] at hxm
            simp [hxm] at ihn ⊢
            omega

theorem length_gcMarkF (fuel : Nat) (v : HVal) (heap : Heap) :
    (gcMarkF fuel v heap).length = heap.length := by
  induction fuel generalizing v heap with
  | zero => rfl
  | succ f ih =>
      cases hv : allocIdOf v with
      | none => simp [gcMarkF, hv]
      | some aid =>
          cases h : heap[aid]? with
          | none => simp [gcMarkF, hv, h]
          | some a =>
              by_cases hm : a.mark
              · simp [gcMarkF, hv, h, hm]
              · cases hk : a.kind with
                | strA s => simp [gcMarkF, hv, h, hm, hk, length_setMark]
                | pairA hd tl => simp [gcMarkF, hv, h, hm, hk, ih, length_setMark]

theorem kindAt_gcMarkF (fuel : Nat) (v : HVal) (heap : Heap) (b : Nat) :
    kindAt (gcMarkF fuel v heap) b = kindAt heap b := by
  induction fuel generalizing v heap with
  | zero => rfl
  | succ f ih =>
      cases hv : allocIdOf v with
      | none => simp [gcMarkF, hv]
      | some aid =>
          cases h : heap[aid]? with
          | none => simp [gcMarkF, hv, h]
          | some a =>
              by_cases hm : a.mark
              · simp [gcMarkF, hv, h, hm]
              · cases hk : a.kind with
                | strA s => simp [gcMarkF, hv, h, hm, hk, kindAt_setMark]
                | pairA hd tl => simp [gcMarkF, hv, h, hm, hk, ih, kindAt_setMark]

theorem markedIn_mono (fuel : Nat) (v : HVal) (heap : Heap) (b : Nat)
    (hb : markedIn heap b = true) : markedIn (gcMarkF fuel v heap) b = true := by
  induction fuel generalizing v heap with
  | zero => exact hb
  | succ f ih =>
      cases hv : allocIdOf v with
      | none => simpa [gcMarkF, hv] using hb
      | some aid =>
          cases h : heap[aid]? with
          | none => simpa [gcMarkF, hv, h] using hb
          | some a =>
              have hb1 : markedIn (setMark heap aid) b = true := by
                rw [markedIn_setMark h]
                simp [hb]
              by_cases hm : a.mark
              · simpa [gcMarkF, hv, h, hm] using hb
              · cases hk : a.kind with
                | strA s => simpa [gcMarkF, hv, h, hm, hk] using hb1
                | pairA hd tl => simpa [gcMarkF, hv, h, hm, hk] using ih _ _ (ih _ _ hb1)

theorem unmarkedCount_le_of_mono {h1 h2 : Heap} (hlen : h2.length = h1.length)
    (hmono : ∀ b, markedIn h1 b = true → markedIn h2 b = true) :
    unmarkedCount h2 ≤ unmarkedCount h1 := by
  induction h1 generalizing h2 with
  | nil =>
      cases h2 with
      | nil => exact Nat.le_refl _
      | cons y ys => cases hlen
  | cons x xs ih =>
      cases h2 with
      | nil => cases hlen
      | cons y ys =>
          have hlen2 : ys.length = xs.length := by simpa using hlen
          have hhead : x.mark = true → y.mark = true := by
            intro hx
            have := hmono 0 (by simp [markedIn, hx])
            simpa [markedIn] using this
          have htail : ∀ b, markedIn xs b = true → markedIn ys b = true := by
            intro b hb
            have := hmono (b + 1) (by
              rw [markedIn_eq] at hb ⊢
              simpa using hb)
            rw [markedIn_eq] at this ⊢
            simpa using this
          have hle := ih hlen2 htail
          by_cases hx : x.mark
          · by_cases hy : y.mark
            · simpa [unmarkedCount, List.filter, hx, hy] using hle
            · exact absurd (hhead hx) (by simp [hy])
          · simp only [Bool.not_eq_true] at hx
            by_cases hy : y.mark
            · simp only [unmarkedCount, List.filter, hx, hy] at *
              simp at *
              omega
            · simp only [Bool.not_eq_true] at hy
              simp only [unmarkedCount, List.filter, hx, hy] at *
              simp at *
              omega

theorem unmarkedCount_gcMarkF (fuel : Nat) (v : HVal) (heap : Heap) :
    unmarkedCount (gcMarkF fuel v heap) ≤ unmarkedCount heap :=
  unmarkedCount_le_of_mono (length_gcMarkF fuel v heap)
    (fun b => markedIn_mono fuel v heap b)

theorem reaches_of_kindAt_eq {h1 h2 : Heap} (hk : ∀ b, kindAt h1 b = kindAt h2 b)
    {v : HVal} {a : Nat} (hr : Reaches h1 v a) : Reaches h2 v a := by
  induction hr with
  | root v aid hv => exact .root v aid hv
  | head v aid hd tl a2 hv hkind _ ih =>
      exact .head v aid hd tl a2 hv (by rw [← hk aid]; exact hkind) ih
  | tail v aid hd tl a2 hv hkind _ ih =>
      exact .tail v aid hd tl a2 hv (by rw [← hk aid]; exact hkind) ih

theorem gcMarkF_sound (fuel : Nat) (v : HVal) (heap : Heap) (b : Nat)
    (hb : markedIn (gcMarkF fuel v heap) b = true) :
    markedIn heap b = true ∨ Reaches heap v b := by
  induction fuel generalizing v heap with
  | zero => exact Or.inl hb
  | succ f ih =>
      cases hv : allocIdOf v with
      | none =>
          simp only [gcMarkF, hv] at hb
          exact Or.inl hb
      | some aid =>
          simp only [gcMarkF, hv, List.get?_eq_getElem?] at hb
          cases h : heap[aid]? with
          | none =>
              simp only [h] at hb
              exact Or.inl hb
          | some a =>
              simp only [h] at hb
              by_cases hm : a.mark
              · rw [if_pos hm] at hb; exact Or.inl hb
              · rw [if_neg hm] at hb
                have hkindaid : ∀ hd tl, a.kind = .pairA hd tl →
                    kindAt heap aid = some (.pairA hd tl) := by
                  intro hd tl hk
                  rw [kindAt_eq, h]
                  simp [hk]
                cases hk : a.kind with
                | strA s =>
                    simp only [hk] at hb
                    rw [markedIn_setMark h] at hb
                    rcases Bool.or_eq_true_iff.mp hb with hba | hbb
                    · have hbaid : b = aid := by simpa using hba
                      subst hbaid
                      exact Or.inr (.root v b hv)
                    · exact Or.inl hbb
                | pairA hd tl =>
                    simp only [hk] at hb
                    have hktrans : ∀ b2, kindAt (gcMarkF f hd (setMark heap aid)) b2 =
                        kindAt heap b2 := by
                      intro b2
                      rw [kindAt_gcMarkF, kindAt_setMark]
                    rcases ih tl (gcMarkF f hd (setMark heap aid)) hb with hb2 | hr2
                    · rcases ih hd (setMark heap aid) hb2 with hb1 | hr1
                      · rw [markedIn_setMark h] at hb1
                        rcases Bool.or_eq_true_iff.mp hb1 with hba | hbb
                        · have hbaid : b = aid := by simpa using hba
                          subst hbaid
                          exact Or.inr (.root v b hv)
                        · exact Or.inl hbb
                      · refine Or.inr (.head v aid hd tl b hv (hkindaid hd tl hk) ?_)
                        exact reaches_of_kindAt_eq (fun b2 => kindAt_setMark heap aid b2) hr1
                    · refine Or.inr (.tail v aid hd tl b hv (hkindaid hd tl hk) ?_)
                      exact reaches_of_kindAt_eq hktrans hr2

theorem heapWF_transfer {h1 h2 : Heap} (hlen : h2.length = h1.length)
    (hk : ∀ b, kindAt h2 b = kindAt h1 b) (hwf : HeapWF h1) : HeapWF h2 := by
  intro aid hd tl hkind
  rw [hk] at hkind
  obtain ⟨w1, w2⟩ := hwf aid hd tl hkind
  exact ⟨fun a2 ha => hlen ▸ w1 a2 ha, fun a2 ha => hlen ▸ w2 a2 ha⟩

theorem closedExcept_setMark {heap : Heap} {S : Set Nat} {aid : Nat}
    {a : Allocation} (h : heap[aid]? = some a) (hc : ClosedExcept heap S) :
    ClosedExcept (setMark heap aid) (S ∪ {aid}) := by
  intro aid2 hd tl hnot hm hkind
  have haid2 : aid2 ≠ aid := fun he => hnot (Or.inr he)
  rw [markedIn_setMark h] at hm
  have hm2 : markedIn heap aid2 = true := by
    rcases Bool.or_eq_true_iff.mp hm with hx | hx
    · exact absurd (by simpa using hx) haid2
    · exact hx
  rw [kindAt_setMark] at hkind
  obtain ⟨w1, w2⟩ := hc aid2 hd tl (fun hx => hnot (Or.inl hx)) hm2 hkind
  constructor
  · intro a2 ha
    rw [markedIn_setMark h]
    simp [w1 a2 ha]
  · intro a2 ha
    rw [markedIn_setMark h]
    simp [w2 a2 ha]

theorem gcMarkF_closed (fuel : Nat) : ∀ (v : HVal) (heap : Heap) (S : Set Nat),
    unmarkedCount heap < fuel → HeapWF heap → ClosedExcept heap S →
    ClosedExcept (gcMarkF fuel v heap) S ∧
    (∀ aid, allocIdOf v = some aid → aid < heap.length →
      markedIn (gcMarkF fuel v heap) aid = true) := by
  induction fuel with
  | zero => intro v heap S hf; exact absurd hf (Nat.not_lt_zero _)
  | succ f ih =>
      intro v heap S hf hwf hclosed
      cases hv : allocIdOf v with
      | none =>
          refine ⟨by simpa [gcMarkF, hv] using hclosed, ?_⟩
          intro aid ha
          cases ha
      | some aid =>
          cases h : heap[aid]? with
          | none =>
              refine ⟨by simpa [gcMarkF, hv, h] using hclosed, ?_⟩
              intro aid2 ha hlt
              injection ha with ha2
              subst ha2
              exact absurd hlt (Nat.not_lt.mpr (List.getElem?_eq_none_iff.mp h))
          | some a =>
              by_cases hm : a.mark
              · refine ⟨by simpa [gcMarkF, hv, h, hm] using hclosed, ?_⟩
                intro aid2 ha _
                injection ha with ha2
                subst ha2
                have hres : gcMarkF (f + 1) v heap = heap := by
                  simp [gcMarkF, hv, h, hm]
                rw [hres, markedIn_eq, h]
                simpa using hm
              · have hm' : a.mark = false := by simpa using hm
                have hcount : unmarkedCount (setMark heap aid) + 1 = unmarkedCount heap :=
                  unmarkedCount_setMark h hm'
                have hcount2 : unmarkedCount (setMark heap aid) < f := by omega
                have hwf1 : HeapWF (setMark heap aid) :=
                  heapWF_transfer (length_setMark heap aid)
                    (fun b => kindAt_setMark heap aid b) hwf
                have hclosed1 : ClosedExcept (setMark heap aid) (S ∪ {aid}) :=
                  closedExcept_setMark h hclosed
                have hmarked1 : markedIn (setMark heap aid) aid = true := by
                  rw [markedIn_setMark h]; simp
                cases hk : a.kind with
                | strA s =>
                    have hres : gcMarkF (f + 1) v heap = setMark heap aid := by
                      simp [gcMarkF, hv, h, hm, hk]
                    rw [hres]
                    constructor
                    · intro aid2 hd tl hnot hm2 hkind
                      by_cases he : aid2 = aid
                      · subst he
                        rw [kindAt_setMark, kindAt_eq, h] at hkind
                        simp [hk] at hkind
                      · exact hclosed1 aid2 hd tl (fun hx => by
                          rcases hx with hx | hx
                          · exact hnot hx
                          · exact he hx) hm2 hkind
                    · intro aid2 ha _
                      injection ha with ha2
                      subst ha2
                      exact hmarked1
                | pairA hd tl =>
                    have hres : gcMarkF (f + 1) v heap =
                        gcMarkF f tl (gcMarkF f hd (setMark heap aid)) := by
                      simp [gcMarkF, hv, h, hm, hk]
                    rw [hres]
                    obtain ⟨hc2, hmk2⟩ := ih hd (setMark heap aid) (S ∪ {aid})
                      hcount2 hwf1 hclosed1
                    have hlen2 : (gcMarkF f hd (setMark heap aid)).length = heap.length := by
                      rw [length_gcMarkF, length_setMark]
                    have hkind2 : ∀ b, kindAt (gcMarkF f hd (setMark heap aid)) b =
                        kindAt heap b := by
                      intro b
                      rw [kindAt_gcMarkF, kindAt_setMark]
                    have hwf2 : HeapWF (gcMarkF f hd (setMark heap aid)) :=
                      heapWF_transfer (length_gcMarkF f hd (setMark heap aid))
                        (fun b => kindAt_gcMarkF f hd (setMark heap aid) b) hwf1
                    have hcount3 : unmarkedCount (gcMarkF f hd (setMark heap aid)) < f :=
                      Nat.lt_of_le_of_lt (unmarkedCount_gcMarkF _ _ _) hcount2
                    obtain ⟨hc3, hmk3⟩ := ih tl (gcMarkF f hd (setMark heap aid))
                      (S ∪ {aid}) hcount3 hwf2 hc2
                    have hmono23 : ∀ b2, markedIn (gcMarkF f hd (setMark heap aid)) b2 = true →
                        markedIn (gcMarkF f tl (gcMarkF f hd (setMark heap aid))) b2 = true :=
                      fun b2 => markedIn_mono f tl _ b2
                    have hkindaid : kindAt heap aid = some (.pairA hd tl) := by
                      rw [kindAt_eq, h]; simp [hk]
                    have hwfaid := hwf aid hd tl hkindaid
                    constructor
                    · intro aid2 h2 t2 hnot hm2 hkind3
                      by_cases he : aid2 = aid
                      · have : kindAt (gcMarkF f tl (gcMarkF f hd (setMark heap aid))) aid2 =
                            some (.pairA hd tl) := by
                          rw [he, kindAt_gcMarkF, hkind2]
                          exact hkindaid
                        rw [this] at hkind3
                        injection hkind3 with hkind4
                        injection hkind4 with hh ht
                        subst hh
                        subst ht
                        constructor
                        · intro a2 ha
                          apply hmono23
                          apply hmk2 a2 ha
                          rw [length_setMark]
                          exact hwfaid.1 a2 ha
                        · intro a2 ha
                          apply hmk3 a2 ha
                          rw [hlen2]
                          exact hwfaid.2 a2 ha
                      · exact hc3 aid2 h2 t2 (fun hx => by
                          rcases hx with hx | hx
                          · exact hnot hx
                          · exact he hx) hm2 hkind3
                    · intro aid2 ha _
                      injection ha with ha2
                      subst ha2
                      exact hmono23 _ (markedIn_mono f hd _ _ hmarked1)

theorem gcMarkF_stable (fuel : Nat) : ∀ (v : HVal) (heap : Heap),
    unmarkedCount heap < fuel →
    gcMarkF (fuel + 1) v heap = gcMarkF fuel v heap := by
  induction fuel with
  | zero => intro v heap h; exact absurd h (Nat.not_lt_zero _)
  | succ f ih =>
      intro v heap hf
      cases hv : allocIdOf v with
      | none => simp [gcMarkF, hv]
      | some aid =>
          cases h : heap[aid]? with
          | none => simp [gcMarkF, hv, h]
          | some a =>
              by_cases hm : a.mark
              · simp [gcMarkF, hv, h, hm]
              · have hm' : a.mark = false := by simpa using hm
                cases hk : a.kind with
                | strA s => simp [gcMarkF, hv, h, hm, hk]
                | pairA hd tl =>
                    have hcount : unmarkedCount (setMark heap aid) + 1 = unmarkedCount heap :=
                      unmarkedCount_setMark h hm'
                    have h1 : unmarkedCount (setMark heap aid) < f := by omega
                    have h2 : unmarkedCount (gcMarkF f hd (setMark heap aid)) < f :=
                      Nat.lt_of_le_of_lt (unmarkedCount_gcMarkF _ _ _) h1
                    have e1 : gcMarkF (f + 1) hd (setMark heap aid) =
                        gcMarkF f hd (setMark heap aid) := ih hd _ h1
                    have e2 : gcMarkF (f + 1) tl (gcMarkF f hd (setMark heap aid)) =
                        gcMarkF f tl (gcMarkF f hd (setMark heap aid)) := ih tl _ h2
                    have hL : gcMarkF (f + 1 + 1) v heap =
                        gcMarkF (f + 1) tl (gcMarkF (f + 1) hd (setMark heap aid)) := by
                      rw [gcMarkF]
                      simp only [hv, List.get?_eq_getElem?, h, hk, if_neg hm]
                    have hR : gcMarkF (f + 1) v heap =
                        gcMarkF f tl (gcMarkF f hd (setMark heap aid)) := by
                      rw [gcMarkF]
                      simp only [hv, List.get?_eq_getElem?, h, hk, if_neg hm]
                    rw [hL, hR, e1, e2]

theorem gcMarkF_extra (extra : Nat) (v : HVal) (heap : Heap) :
    gcMarkF (unmarkedCount heap + 1 + extra) v heap = gcMarkRun v heap := by
  induction extra with
  | zero => rfl
  | succ e ih =>
      have : unmarkedCount heap < unmarkedCount heap + 1 + e := by omega
      calc gcMarkF (unmarkedCount heap + 1 + (e + 1)) v heap
          = gcMarkF ((unmarkedCount heap + 1 + e) + 1) v heap := rfl
        _ = gcMarkF (unmarkedCount heap + 1 + e) v heap := gcMarkF_stable _ v heap this
        _ = gcMarkRun v heap := ih

theorem reaches_all_marked {heap heapS : Heap}
    (hkind : ∀ b, kindAt heapS b = kindAt heap b)
    (hclosedS : ClosedExcept heapS ∅) :
    ∀ (v : HVal) (a : Nat), Reaches heap v a →
    (∀ aid, allocIdOf v = some aid → markedIn heapS aid = true) →
    markedIn heapS a = true := by
  intro v a hr
  induction hr with
  | root w aid hv => exact fun hm => hm aid hv
  | head w aid hd tl a2 hv hk _ ih =>
      intro hm
      have hmaid : markedIn heapS aid = true := hm aid hv
      have hkS : kindAt heapS aid = some (.pairA hd tl) := by rw [hkind]; exact hk
      have hchild := hclosedS aid hd tl (Set.not_mem_empty aid) hmaid hkS
      exact ih (fun aid2 h2 => hchild.1 aid2 h2)
  | tail w aid hd tl a2 hv hk _ ih =>
      intro hm
      have hmaid : markedIn heapS aid = true := hm aid hv
      have hkS : kindAt heapS aid = some (.pairA hd tl) := by rw [hkind]; exact hk
      have hchild := hclosedS aid hd tl (Set.not_mem_empty aid) hmaid hkS
      exact ih (fun aid2 h2 => hchild.2 aid2 h2)

/-- C9: on a well-formed heap (no dangling allocation references, root
reference in range) whose mark set is closed — the state at the start of
every collection campaign, all marks clear, is the special case — the
marking operation `gc_mark`:
(1) terminates: any fuel beyond one step per unmarked allocation computes
the same final heap, cyclic pair structure included;
(2) marks in-use exactly the allocations reachable from its argument value
(new marks = old marks ∪ reachable);
(3) never re-enters a marked allocation: if the argument's own allocation
is already marked, the heap is returned entirely untouched. -/
theorem gc_mark_terminates_exact (heap : Heap) (root : HVal)
    (hwf : HeapWF heap) (hroot : HValWF heap root) (hclosed : MarksClosed heap) :
    (∀ extra, gcMarkF (unmarkedCount heap + 1 + extra) root heap = gcMarkRun root heap) ∧
    (∀ aid, markedIn (gcMarkRun root heap) aid = true ↔
      (markedIn heap aid = true ∨ Reaches heap root aid)) ∧
    (∀ aid, allocIdOf root = some aid → markedIn heap aid = true →
      gcMarkRun root heap = heap) := by
  have hcount : unmarkedCount heap < unmarkedCount heap + 1 := Nat.lt_succ_self _
  obtain ⟨hcS, hmkS⟩ :=
    gcMarkF_closed (unmarkedCount heap + 1) root heap ∅ hcount hwf hclosed
  refine ⟨fun extra => gcMarkF_extra extra root heap, ?_, ?_⟩
  · intro aid
    constructor
    · intro hmk
      exact gcMarkF_sound _ root heap aid hmk
    · intro hor
      rcases hor with hm | hr
      · exact markedIn_mono _ root heap aid hm
      · refine reaches_all_marked
          (fun b => kindAt_gcMarkF (unmarkedCount heap + 1) root heap b) hcS
          root aid hr ?_
        intro aid2 h2
        exact hmkS aid2 h2 (hroot aid2 h2)
  · intro aid hv hm
    have hget : ∃ a, heap[aid]? = some a ∧ a.mark = true := by
      rw [markedIn_eq] at hm
      cases hx : heap[aid]? with
      | none => rw [hx] at hm; cases hm
      | some a => exact ⟨a, rfl, by rw [hx] at hm; simpa using hm⟩
    obtain ⟨a, ha, ham⟩ := hget
    simp [gcMarkRun, gcMarkF, hv, ha, ham]

/-- C9 witness: a two-allocation heap whose pair cells reference each other
(a genuine cycle), all marks clear.  The closed-marks and well-formedness
hypotheses hold, marking from a value referencing allocation 0 terminates,
returns the fully marked heap, and both allocations are exactly the
reachable ones. -/
theorem gc_mark_terminates_exact_witness :
    (gcMarkF (unmarkedCount cycleHeap + 1 + 5) (.cellRef .pairT 0) cycleHeap =
      gcMarkRun (.cellRef .pairT 0) cycleHeap) ∧
    markedIn (gcMarkRun (.cellRef .pairT 0) cycleHeap) 0 = true ∧
    markedIn (gcMarkRun (.cellRef .pairT 0) cycleHeap) 1 = true := by
  have hwf : HeapWF cycleHeap := by
    intro aid hd tl hk
    match aid with
    | 0 =>
        refine ⟨?_, ?_⟩ <;>
          · injection hk with hk2
            cases hk2
            intro a2 ha
            simp only [allocIdOf] at ha
            first
            | (injection ha with ha2; rw [← ha2]; decide)
            | cases ha
    | 1 =>
        refine ⟨?_, ?_⟩ <;>
          · injection hk with hk2
            cases hk2
            intro a2 ha
            simp only [allocIdOf] at ha
            first
            | (injection ha with ha2; rw [← ha2]; decide)
            | cases ha
    | n + 2 => simp [kindAt, cycleHeap, List.get?_eq_getElem?] at hk
  have hroot : HValWF cycleHeap (.cellRef .pairT 0) := by
    intro aid ha
    injection ha with ha2
    subst ha2
    simp [cycleHeap]
  have hclosed : MarksClosed cycleHeap := by
    intro aid hd tl _ hm hk
    exfalso
    match aid with
    | 0 => simp [markedIn_eq, cycleHeap] at hm
    | 1 => simp [markedIn_eq, cycleHeap] at hm
    | n + 2 => simp [markedIn_eq, cycleHeap] at hm
  have h := gc_mark_terminates_exact cycleHeap (.cellRef .pairT 0) hwf hroot hclosed
  refine ⟨h.1 5, ?_, ?_⟩
  · exact (h.2.1 0).mpr (Or.inr (.root _ 0 rfl))
  · exact (h.2.1 1).mpr (Or.inr (.head _ 0 (.cellRef .pairT 1) .nil 1 rfl (by
      simp [kindAt, cycleHeap]) (.root _ 1 rfl)))


/-! ### C6: hash literals -/

/-- `takeWhile`/`dropWhile` split at a boundary: if every element of `l`
satisfies `p` and the head of `rest` (when any) does not, the scan over
`l ++ rest` takes exactly `l`. -/
theorem takeWhile_append_of_all {p : Char → Bool} :
    ∀ (l rest : List Char), (∀ x ∈ l, p x = true) →
    (∀ r rs, rest = r :: rs → p r = false) →
    (l ++ rest).takeWhile p = l ∧ (l ++ rest).dropWhile p = rest
  | [], rest, _, hrest => by
      cases hr : rest with
      | nil => simp
      | cons r rs => simp [List.takeWhile, List.dropWhile, hrest r rs hr]
  | x :: xs, rest, hl, hrest => by
      have hx : p x = true := hl x (by simp)
      have ih := takeWhile_append_of_all xs rest (fun y hy => hl y (by simp [hy])) hrest
      simp [List.takeWhile, List.dropWhile, hx, ih.1, ih.2]

/-- Whitespace characters are delimiters (`delim` extends `wspace` in
`lex`). -/
theorem wspace_subset_delim {c : Char} (h : c ∈ wspaceChars) : c ∈ delimChars :=
  List.mem_append_right _ h

/-- `lex` on a delimiter-free run token followed by a delimiter (or the end
of input) yields exactly that token. -/
theorem lex_run (t : Char) (ts rest : List Char)
    (hdelim : ∀ x ∈ t :: ts, x ∉ delimChars)
    (hpre : t ∉ prefixTokChars)
    (hrest : ∀ r rs, rest = r :: rs → r ∈ delimChars) :
    lex ((t :: ts) ++ rest) = (.ok, t :: ts, rest) := by
  have htw : t ∉ wspaceChars := fun hw => hdelim t (by simp) (wspace_subset_delim hw)
  have hsplit := @takeWhile_append_of_all (fun d => (d ∉ delimChars : Bool))
    (t :: ts) rest
    (fun x hx => by simpa using hdelim x hx)
    (fun r rs hr => by simpa using hrest r rs hr)
  have hdw : (t :: (ts ++ rest)).dropWhile (fun c => (c ∈ wspaceChars : Bool)) =
      t :: (ts ++ rest) := by
    rw [List.dropWhile_cons, if_neg (by simpa using htw)]
  have h1 := hsplit.1
  have h2 := hsplit.2
  unfold lex
  simp only [hdw, List.cons_append] at h1 h2 ⊢
  rw [if_neg hpre, h1, h2]

/-- C6, counterexample: the token `#fred` begins with `#` and is none of
`#t`/`#T`/`#f`/`#F`, so per the claim the parser should fail with a syntax
error; instead `parse_hash_expr` inspects only the character after `#` and
`bamboo_parse_expr` returns the Boolean false atom with `BAMBOO_OK`. -/
theorem hash_literal_counterexample :
    parseExprTop "#fred".toList = some (.ok, some [], .boolean false) ∧
    ∀ endO a, parseExprTop "#fred".toList ≠ some (.err .syntaxErr, endO, a) := by
  have h1 : parseExprTop "#fred".toList = some (.ok, some [], .boolean false) := by decide
  refine ⟨h1, ?_⟩
  intro endO a h
  rw [h1] at h
  simp at h


/-- C6, amended: for a `#`-initial run token (delimiter-free, so `lex`
returns it whole), `bamboo_parse_expr` dispatches on the character directly
after `#` only: `f`/`F` yields Boolean false, `t`/`T` yields Boolean true,
and anything else — regardless of the remaining characters — is a syntax
error; a lone `#` is also a syntax error. -/
theorem hash_literal_second_char (c : Char) (cs : List Char)
    (hc : c ∉ delimChars) (hcs : ∀ d ∈ cs, d ∉ delimChars) :
    (parseExprTop ('#' :: c :: cs) =
      if c = 'F' ∨ c = 'f' then some (.ok, some [], .boolean false)
      else if c = 'T' ∨ c = 't' then some (.ok, some [], .boolean true)
      else some (.err .syntaxErr, none, .nil)) ∧
    parseExprTop ['#'] = some (.err .syntaxErr, none, .nil) := by
  refine ⟨?_, by decide⟩
  have hlex : lex (('#' :: c :: cs) ++ []) = (.ok, '#' :: c :: cs, []) := by
    refine lex_run '#' (c :: cs) [] ?_ (by decide) (fun r rs h => by cases h)
    intro x hx
    rcases List.mem_cons.mp hx with h | h
    · subst h; decide
    · rcases List.mem_cons.mp h with h2 | h2
      · subst h2; exact hc
      · exact hcs x h2
  rw [List.append_nil] at hlex
  show parseExpr (2 * ('#' :: c :: cs).length + 2) ('#' :: c :: cs) = _
  rw [show 2 * ('#' :: c :: cs).length + 2 = (2 * ('#' :: c :: cs).length + 1) + 1
    from rfl]
  rw [parseExpr]
  simp only [hlex]
  rw [if_neg (by decide : ¬('#' = quoteCh)), if_neg (by decide : ¬('#' = '(')),
    if_neg (by decide : ¬('#' = ')')), if_neg (by decide : ¬('#' = apostCh))]
  have hp : parsePrimitive ('#' :: c :: cs) [] = parseHashExpr ('#' :: c :: cs) [] := by
    rw [parsePrimitive, if_pos (show ('#' :: c :: cs).head? = some '#' from rfl)]
  rw [hp]
  cases cs with
  | nil =>
      show some (if c = 'F' ∨ c = 'f' then (Code.ok, some ([] : List Char), Atom.boolean false)
        else if c = 'T' ∨ c = 't' then (Code.ok, some ([] : List Char), Atom.boolean true)
        else (Code.err .syntaxErr, none, Atom.nil)) = _
      split_ifs <;> rfl
  | cons d ds =>
      show some (if c = 'F' ∨ c = 'f' then (Code.ok, some ([] : List Char), Atom.boolean false)
        else if c = 'T' ∨ c = 't' then (Code.ok, some ([] : List Char), Atom.boolean true)
        else (Code.err .syntaxErr, none, Atom.nil)) = _
      split_ifs <;> rfl

/-- Witness for the amended hash-literal theorem at the token `#red`: the
hypotheses hold for `r` and `ed` and the parser reports a syntax error. -/
theorem hash_literal_second_char_witness :
    parseExprTop "#red".toList = some (.err .syntaxErr, none, .nil) := by
  have h := (hash_literal_second_char 'r' ['e', 'd'] (by decide)
    (by intro d hd; fin_cases hd <;> decide)).1
  rw [if_neg (by decide), if_neg (by decide)] at h
  exact h

/-! ### C2: print/parse round trip -/

/-- C2, counterexample: the text `(a '.x)` parses without error to the
value `(A (QUOTE .X))` — built solely of pairs and symbols, so it contains
no closure, macro or built-in — because `parse_list` treats any token
starting with `.` as the pair separator and the `BAMBOO_QUOTE_END` handler
skips the token after a quoted element (here the closing parenthesis); but
parsing its own printed rendering `(A (QUOTE .X))` fails with a syntax
error ("Pair ends without right-hand atom"), so `parse(print(parse(e)))`
does not equal `parse(e)`. -/
theorem roundtrip_counterexample :
    parseExprTop "(a '.x)".toList =
      some (.ok, some [], cons (.symbol ['A'])
        (cons (cons (.symbol "QUOTE".toList) (cons (.symbol ['.', 'X']) .nil)) .nil)) ∧
    exprStr (cons (.symbol ['A'])
        (cons (cons (.symbol "QUOTE".toList) (cons (.symbol ['.', 'X']) .nil)) .nil)) =
      "(A (QUOTE .X))".toList ∧
    (parseExprTop "(A (QUOTE .X))".toList).map (fun r => r.1) =
      some (.err .syntaxErr) := by
  refine ⟨by decide, ?_, by decide⟩
  simp only [cons]
  simp only [exprStr, exprStrTail]
  decide

/-- `takeWhile` does not cross into following text whose head fails the
predicate. -/
theorem takeWhile_append_stop {p : Char → Bool} {rest : List Char}
    (hrest : ∀ r rs, rest = r :: rs → p r = false) :
    ∀ l : List Char, (l ++ rest).takeWhile p = l.takeWhile p := by
  intro l
  induction l with
  | nil =>
      cases hr : rest with
      | nil => simp
      | cons r rs => simp [List.takeWhile_cons, hrest r rs hr]
  | cons x xs ih =>
      rw [List.cons_append, List.takeWhile_cons, List.takeWhile_cons, ih]

/-- A `takeWhile` prefix is no longer than the list. -/
theorem length_takeWhile_le2 (p : Char → Bool) (l : List Char) :
    (l.takeWhile p).length ≤ l.length := by
  induction l with
  | nil => simp
  | cons a l ih =>
      rw [List.takeWhile_cons]
      split
      · simpa using ih
      · simp

/-- The head of printed-boundary text is a space or a closing
parenthesis. -/
theorem printedBoundary_head {rest : List Char} (hb : printedBoundary rest) :
    ∀ r rs, rest = r :: rs → r = ' ' ∨ r = ')' := by
  intro r rs hr
  rcases hb with h | ⟨rs2, h⟩ | ⟨rs2, h⟩ <;> rw [h] at hr
  · cases hr
  · injection hr with h1 _
    exact Or.inl h1.symm
  · injection hr with h1 _
    exact Or.inr h1.symm

/-- Printed-boundary text fails every character class that excludes the
space and `)` characters. -/
theorem printedBoundary_stop {p : Char → Bool} {rest : List Char}
    (hb : printedBoundary rest) (hp : p ' ' = false ∧ p ')' = false) :
    ∀ r rs, rest = r :: rs → p r = false := by
  intro r rs hr
  rcases printedBoundary_head hb r rs hr with h | h <;> rw [h]
  · exact hp.1
  · exact hp.2

/-- The sign scan ignores printed-boundary text after the subject. -/
theorem llSign_append {rest : List Char} (hb : printedBoundary rest) :
    ∀ s n l s1, llSign s = (n, l, s1) → llSign (s ++ rest) = (n, l, s1 ++ rest) := by
  intro s n l s1 hs
  cases s with
  | nil =>
      simp only [llSign, Prod.mk.injEq] at hs
      obtain ⟨h1, h2, h3⟩ := hs
      subst h1
      subst h2
      subst h3
      rcases hb with h | ⟨rs, h⟩ | ⟨rs, h⟩ <;> subst h <;> rfl
  | cons c t =>
      by_cases h1 : c = '+'
      · subst h1
        rw [llSign, if_pos rfl] at hs
        simp only [Prod.mk.injEq] at hs
        obtain ⟨h3, h4, h5⟩ := hs
        subst h3
        subst h4
        subst h5
        rw [List.cons_append, llSign, if_pos rfl]
      · by_cases h2 : c = '-'
        · subst h2
          rw [llSign, if_neg h1, if_pos rfl] at hs
          simp only [Prod.mk.injEq] at hs
          obtain ⟨h3, h4, h5⟩ := hs
          subst h3
          subst h4
          subst h5
          rw [List.cons_append, llSign, if_neg h1, if_pos rfl]
        · rw [llSign, if_neg h1, if_neg h2] at hs
          simp only [Prod.mk.injEq] at hs
          obtain ⟨h3, h4, h5⟩ := hs
          subst h3
          subst h4
          subst h5
          rw [List.cons_append, llSign, if_neg h1, if_neg h2, ← List.cons_append]

/-- `llMag` on a list headed by anything but `0`: the decimal scan. -/
theorem llMag_cons_ne (c : Char) (t : List Char) (hc : c ≠ '0') :
    llMag (c :: t) =
      (natOfDigits 10 digitVal ((c :: t).takeWhile isDigitCh),
        ((c :: t).takeWhile isDigitCh).length) := by
  rw [llMag.eq_def]
  simp only []
  rw [if_neg hc]

/-- `llMag` after `0` with at least two more characters: the hex test reads
the character after the `x`. -/
theorem llMag_hex_shape (x c2 : Char) (r2 : List Char) :
    llMag ('0' :: x :: c2 :: r2) =
      if ((x == 'x' || x == 'X') && isHexCh c2) = true then
        (natOfDigits 16 hexVal ((c2 :: r2).takeWhile isHexCh),
          2 + ((c2 :: r2).takeWhile isHexCh).length)
      else
        (natOfDigits 8 digitVal ((x :: c2 :: r2).takeWhile isOctalCh),
          1 + ((x :: c2 :: r2).takeWhile isOctalCh).length) := rfl

/-- `llMag` on exactly `0` followed by one character: the octal scan (the
hex branch needs a digit after the `x`). -/
theorem llMag_zero_one (x : Char) :
    llMag ['0', x] =
      (natOfDigits 8 digitVal ([x].takeWhile isOctalCh),
        1 + ([x].takeWhile isOctalCh).length) := by
  have h : llMag ['0', x] =
      if ((x == 'x' || x == 'X') && false) = true then
        (natOfDigits 16 hexVal (([] : List Char).takeWhile isHexCh),
          2 + (([] : List Char).takeWhile isHexCh).length)
      else (natOfDigits 8 digitVal ([x].takeWhile isOctalCh),
        1 + ([x].takeWhile isOctalCh).length) := rfl
  rw [h, Bool.and_false, if_neg (by simp)]

/-- The digit scan of `strtoll` ignores printed-boundary text after the
subject. -/
theorem llMag_append {rest : List Char} (hb : printedBoundary rest) :
    ∀ s1, llMag (s1 ++ rest) = llMag s1 := by
  have hO : ∀ r rs, rest = r :: rs → isOctalCh r = false :=
    printedBoundary_stop hb (by decide)
  have hH : ∀ r rs, rest = r :: rs → isHexCh r = false :=
    printedBoundary_stop hb (by decide)
  have hD : ∀ r rs, rest = r :: rs → isDigitCh r = false :=
    printedBoundary_stop hb (by decide)
  intro s1
  cases s1 with
  | nil =>
      rcases hb with h | ⟨rs, h⟩ | ⟨rs, h⟩ <;> subst h <;> rfl
  | cons c t =>
      by_cases hc : c = '0'
      · subst hc
        cases t with
        | nil =>
            rcases hb with h | ⟨rs, h⟩ | ⟨rs, h⟩ <;> subst h <;> rfl
        | cons x r =>
            cases r with
            | nil =>
                rcases hb with h | ⟨rs, h⟩ | ⟨rs, h⟩ <;> subst h
                · rfl
                · rw [show ((['0', x] : List Char) ++ ' ' :: rs) =
                      '0' :: x :: ' ' :: rs from rfl]
                  rw [llMag_hex_shape, llMag_zero_one]
                  rw [show isHexCh ' ' = false from rfl, Bool.and_false,
                    if_neg (by simp)]
                  have h2 := @takeWhile_append_stop isOctalCh _ hO [x]
                  simp only [List.cons_append, List.nil_append] at h2
                  rw [h2]
                · rw [show ((['0', x] : List Char) ++ ')' :: rs) =
                      '0' :: x :: ')' :: rs from rfl]
                  rw [llMag_hex_shape, llMag_zero_one]
                  rw [show isHexCh ')' = false from rfl, Bool.and_false,
                    if_neg (by simp)]
                  have h2 := @takeWhile_append_stop isOctalCh _ hO [x]
                  simp only [List.cons_append, List.nil_append] at h2
                  rw [h2]
            | cons c2 r2 =>
                rw [show (('0' :: x :: c2 :: r2) ++ rest) =
                    '0' :: x :: c2 :: (r2 ++ rest) from rfl]
                rw [llMag_hex_shape, llMag_hex_shape]
                by_cases hcnd : ((x == 'x' || x == 'X') && isHexCh c2) = true
                · rw [if_pos hcnd, if_pos hcnd]
                  have h2 := @takeWhile_append_stop isHexCh _ hH (c2 :: r2)
                  simp only [List.cons_append] at h2
                  rw [h2]
                · rw [if_neg hcnd, if_neg hcnd]
                  have h2 := @takeWhile_append_stop isOctalCh _ hO (x :: c2 :: r2)
                  simp only [List.cons_append] at h2
                  rw [h2]
      · rw [List.cons_append, llMag_cons_ne c (t ++ rest) hc, llMag_cons_ne c t hc]
        have h2 := @takeWhile_append_stop isDigitCh _ hD (c :: t)
        simp only [List.cons_append] at h2
        rw [h2]

/-- `strtoll` ignores printed-boundary text after its subject sequence:
the space or `)` that follows a printed token can neither extend nor alter
the conversion. -/
theorem strtollM_boundary {rest : List Char} (hb : printedBoundary rest)
    (s : List Char) : strtollM (s ++ rest) = strtollM s := by
  rcases hsg : llSign s with ⟨n, l, s1⟩
  have h1 := llSign_append hb s n l s1 hsg
  simp only [strtollM, h1, hsg, llMag_append hb]

/-- Case-insensitive matching distributes over printed-boundary text after
the subject when the pattern has no space or `)`. -/
theorem matchCI_append {rest : List Char} (hb : printedBoundary rest) :
    ∀ (pat s : List Char), (∀ p ∈ pat, totupper p ≠ ' ' ∧ totupper p ≠ ')') →
    matchCI pat (s ++ rest) = (matchCI pat s).map (fun z => z ++ rest) := by
  intro pat
  induction pat with
  | nil => intro s _; rfl
  | cons p ps ih =>
      intro s hpat
      cases s with
      | nil =>
          rcases hb with h | ⟨rs, h⟩ | ⟨rs, h⟩ <;> subst h
          · rfl
          · rw [List.nil_append]
            show (if totupper ' ' = totupper p then matchCI ps rs else none) =
              Option.map (fun z => z ++ ' ' :: rs) (matchCI (p :: ps) [])
            rw [if_neg (fun hx => (hpat p (by simp)).1 (hx.symm.trans (by rfl)))]
            rfl
          · rw [List.nil_append]
            show (if totupper ')' = totupper p then matchCI ps rs else none) =
              Option.map (fun z => z ++ ')' :: rs) (matchCI (p :: ps) [])
            rw [if_neg (fun hx => (hpat p (by simp)).2 (hx.symm.trans (by rfl)))]
            rfl
      | cons c cs =>
          rw [List.cons_append]
          show (if totupper c = totupper p then matchCI ps (cs ++ rest) else none) =
            Option.map (fun z => z ++ rest)
              (if totupper c = totupper p then matchCI ps cs else none)
          by_cases h : totupper c = totupper p
          · rw [if_pos h, if_pos h, ih cs (fun q hq => hpat q (by simp [hq]))]
          · rw [if_neg h, if_neg h]
            rfl

/-- A successful case-insensitive match returns a suffix of the subject. -/
theorem matchCI_suffix : ∀ (pat s r : List Char), matchCI pat s = some r →
    ∀ x ∈ r, x ∈ s := by
  intro pat
  induction pat with
  | nil =>
      intro s r h x hx
      have h2 : (some s : Option (List Char)) = some r := h
      injection h2 with h3
      rw [← h3] at hx
      exact hx
  | cons p ps ih =>
      intro s r h x hx
      cases s with
      | nil => cases h
      | cons c cs =>
          have h2 : (if totupper c = totupper p then matchCI ps cs else none) =
              some r := h
          by_cases hcp : totupper c = totupper p
          · rw [if_pos hcp] at h2
            exact List.mem_cons_of_mem c (ih cs r h2 x hx)
          · rw [if_neg hcp] at h2
            cases h2

/-- The `nan(...)` suffix scan ignores printed-boundary text when the
subject holds no opening parenthesis. -/
theorem nanSuffixLen_append {rest : List Char} (hb : printedBoundary rest)
    (r : List Char) (hpar : '(' ∉ r) : nanSuffixLen (r ++ rest) = nanSuffixLen r := by
  cases r with
  | nil =>
      rcases hb with h | ⟨rs, h⟩ | ⟨rs, h⟩ <;> subst h <;> rfl
  | cons c rr =>
      have hc : c ≠ '(' := fun h => hpar (h ▸ List.mem_cons_self c rr)
      rw [List.cons_append, nanSuffixLen.eq_def, nanSuffixLen.eq_def]
      simp only []
      rw [if_neg hc, if_neg hc]

/-- The mantissa scan consumes at most the subject. -/
theorem cMantissa_consumed_le (isD : Char → Bool) (val : Char → Nat) (base : Nat)
    (s : List Char) : (cMantissa isD val base s).2.2.1 ≤ s.length := by
  have hle := length_takeWhile_le2 isD s
  have hlen : (s.drop (s.takeWhile isD).length).length =
      s.length - (s.takeWhile isD).length := List.length_drop _ _
  rw [cMantissa.eq_def]
  simp only []
  split
  · rename_i c r heq
    have h4 : (s.drop (s.takeWhile isD).length).length = r.length + 1 := by
      rw [heq]
      simp
    rw [hlen] at h4
    have hds2 := length_takeWhile_le2 isD r
    split
    · split
      · show (0 : Nat) <= s.length
        exact Nat.zero_le _
      · show (s.takeWhile isD).length + 1 + (r.takeWhile isD).length <= s.length
        omega
    · split
      · show (0 : Nat) <= s.length
        exact Nat.zero_le _
      · show (s.takeWhile isD).length <= s.length
        exact hle
  · split
    · show (0 : Nat) <= s.length
      exact Nat.zero_le _
    · show (s.takeWhile isD).length <= s.length
      exact hle

/-- The mantissa scan ignores printed-boundary text after the subject. -/
theorem cMantissa_append {rest : List Char} (hb : printedBoundary rest)
    (isD : Char → Bool) (val : Char → Nat) (base : Nat)
    (hD : isD ' ' = false ∧ isD ')' = false) (s : List Char) :
    cMantissa isD val base (s ++ rest) = cMantissa isD val base s := by
  have hstop : ∀ r rs, rest = r :: rs → isD r = false := printedBoundary_stop hb hD
  have h1 : (s ++ rest).takeWhile isD = s.takeWhile isD := takeWhile_append_stop hstop s
  have hle : (s.takeWhile isD).length ≤ s.length := length_takeWhile_le2 isD s
  have h2 : (s ++ rest).drop (s.takeWhile isD).length =
      s.drop (s.takeWhile isD).length ++ rest := List.drop_append_of_le_length hle
  rw [cMantissa.eq_def, cMantissa.eq_def]
  simp only [h1, h2]
  cases hds : s.drop (s.takeWhile isD).length with
  | nil =>
      simp only [List.nil_append]
      rcases hb with h | ⟨rs, h⟩ | ⟨rs, h⟩ <;> subst h
      · rfl
      · simp only []
        rw [if_neg (by decide : ¬(' ' = '.'))]
      · simp only []
        rw [if_neg (by decide : ¬(')' = '.'))]
  | cons c r =>
      rw [List.cons_append]
      simp only []
      by_cases hc : c = '.'
      · rw [if_pos hc, if_pos hc, takeWhile_append_stop hstop r]
      · rw [if_neg hc, if_neg hc]

/-- The exponent scan ignores printed-boundary text after the subject. -/
theorem cExponent_append {rest : List Char} (hb : printedBoundary rest)
    (e1 e2 : Char) (he : e1 ≠ ' ' ∧ e1 ≠ ')' ∧ e2 ≠ ' ' ∧ e2 ≠ ')')
    (s : List Char) : cExponent e1 e2 (s ++ rest) = cExponent e1 e2 s := by
  have hD : ∀ r rs, rest = r :: rs → isDigitCh r = false :=
    printedBoundary_stop hb (by decide)
  cases s with
  | nil =>
      rcases hb with h | ⟨rs, h⟩ | ⟨rs, h⟩ <;> subst h
      · rfl
      · rw [List.nil_append, cExponent.eq_def]
        simp only []
        rw [if_neg (by rintro (h | h); exacts [he.1 h.symm, he.2.2.1 h.symm])]
        rfl
      · rw [List.nil_append, cExponent.eq_def]
        simp only []
        rw [if_neg (by rintro (h | h); exacts [he.2.1 h.symm, he.2.2.2 h.symm])]
        rfl
  | cons c r =>
      rw [List.cons_append, cExponent.eq_def, cExponent.eq_def]
      simp only []
      by_cases hce : c = e1 ∨ c = e2
      · rw [if_pos hce, if_pos hce]
        cases r with
        | nil =>
            rcases hb with h | ⟨rs, h⟩ | ⟨rs, h⟩ <;> subst h <;> rfl
        | cons c2 r2 =>
            rw [List.cons_append]
            simp only []
            by_cases h2 : c2 = '+'
            · rw [if_pos h2, if_pos h2, takeWhile_append_stop hD r2]
            · rw [if_neg h2, if_neg h2]
              by_cases h3 : c2 = '-'
              · rw [if_pos h3, if_pos h3, takeWhile_append_stop hD r2]
              · rw [if_neg h3, if_neg h3]
                have h4 := takeWhile_append_stop hD (c2 :: r2)
                simp only [List.cons_append] at h4
                rw [h4]
      · rw [if_neg hce, if_neg hce]

/-- The subject left after the sign scan is part of the original text. -/
theorem llSign_sub : ∀ s n l s1, llSign s = (n, l, s1) → ∀ x ∈ s1, x ∈ s := by
  intro s n l s1 hs x hx
  cases s with
  | nil =>
      simp only [llSign, Prod.mk.injEq] at hs
      obtain ⟨_, _, h3⟩ := hs
      rw [← h3] at hx
      cases hx
  | cons c t =>
      by_cases h1 : c = '+'
      · subst h1
        rw [llSign, if_pos rfl] at hs
        simp only [Prod.mk.injEq] at hs
        obtain ⟨_, _, h3⟩ := hs
        rw [← h3] at hx
        exact List.mem_cons_of_mem _ hx
      · by_cases h2 : c = '-'
        · subst h2
          rw [llSign, if_neg h1, if_pos rfl] at hs
          simp only [Prod.mk.injEq] at hs
          obtain ⟨_, _, h3⟩ := hs
          rw [← h3] at hx
          exact List.mem_cons_of_mem _ hx
        · rw [llSign, if_neg h1, if_neg h2] at hs
          simp only [Prod.mk.injEq] at hs
          obtain ⟨_, _, h3⟩ := hs
          rw [← h3] at hx
          exact hx

/-- The hex-float subject scan ignores printed-boundary text after the
subject. -/
theorem ldHex_append {rest : List Char} (hb : printedBoundary rest) (neg : Bool) :
    ∀ s1, ldHex neg (s1 ++ rest) = ldHex neg s1 := by
  intro s1
  cases s1 with
  | nil =>
      rcases hb with h | ⟨rs, h⟩ | ⟨rs, h⟩ <;> subst h
      · rfl
      · cases rs <;> rfl
      · cases rs <;> rfl
  | cons a s2 =>
      cases s2 with
      | nil =>
          rcases hb with h | ⟨rs, h⟩ | ⟨rs, h⟩ <;> subst h
          · rfl
          · by_cases ha : a = '0'
            · subst ha
              rfl
            · rw [show (([a] : List Char) ++ ' ' :: rs) = a :: ' ' :: rs from rfl,
                ldHex.eq_def]
              simp only []
              rw [if_neg (fun hx => ha hx.1)]
              rfl
          · by_cases ha : a = '0'
            · subst ha
              rfl
            · rw [show (([a] : List Char) ++ ')' :: rs) = a :: ')' :: rs from rfl,
                ldHex.eq_def]
              simp only []
              rw [if_neg (fun hx => ha hx.1)]
              rfl
      | cons b r =>
          rw [show ((a :: b :: r) ++ rest) = a :: b :: (r ++ rest) from rfl,
            ldHex.eq_def, ldHex.eq_def]
          simp only []
          by_cases hab : a = '0' ∧ (b = 'x' ∨ b = 'X')
          · rw [if_pos hab, if_pos hab,
              cMantissa_append hb isHexCh hexVal 16 (by decide) r]
            rcases hm : cMantissa isHexCh hexVal 16 r with ⟨m, fr, rest2⟩
            rcases rest2 with ⟨used, okm⟩
            simp only [hm]
            cases okm with
            | false => rfl
            | true =>
                simp only [if_pos rfl]
                have hle : used ≤ r.length := by
                  have := cMantissa_consumed_le isHexCh hexVal 16 r
                  rw [hm] at this
                  exact this
                rw [List.drop_append_of_le_length hle,
                  cExponent_append hb 'p' 'P' (by decide) (r.drop used)]
          · rw [if_neg hab, if_neg hab]

/-- `strtold` ignores printed-boundary text after its subject sequence,
provided the subject has no opening parenthesis (which could otherwise
open a `nan(...)` n-char sequence). -/
theorem strtoldM_boundary {rest : List Char} (hb : printedBoundary rest)
    (s : List Char) (hpar : '(' ∉ s) : strtoldM (s ++ rest) = strtoldM s := by
  rcases hsg : llSign s with ⟨n, l, s1⟩
  have h1 := llSign_append hb s n l s1 hsg
  have hpar1 : '(' ∉ s1 := fun h => hpar (llSign_sub s n l s1 hsg '(' h)
  have hI := matchCI_append hb "INFINITY".toList s1 (by decide)
  have hI3 := matchCI_append hb "INF".toList s1 (by decide)
  have hN := matchCI_append hb "NAN".toList s1 (by decide)
  rw [strtoldM.eq_def, strtoldM.eq_def]
  simp only [h1, hsg, hI, hI3, hN]
  cases hmi : matchCI "INFINITY".toList s1 with
  | some r => rfl
  | none =>
  simp only [Option.map_none']
  cases hm3 : matchCI "INF".toList s1 with
  | some r => rfl
  | none =>
  simp only [Option.map_none']
  cases hmn : matchCI "NAN".toList s1 with
  | some r =>
      simp only [Option.map_some']
      rw [nanSuffixLen_append hb r
        (fun hx => hpar1 (matchCI_suffix "NAN".toList s1 r hmn '(' hx))]
  | none =>
  simp only [Option.map_none']
  rw [ldHex_append hb n s1]
  cases hlx : ldHex n s1 with
  | some p => rfl
  | none =>
  simp only []
  rw [cMantissa_append hb isDigitCh digitVal 10 (by decide) s1]
  rcases hm : cMantissa isDigitCh digitVal 10 s1 with ⟨m, fr, rest2⟩
  rcases rest2 with ⟨used, okm⟩
  simp only [hm]
  cases okm with
  | false => rfl
  | true =>
      simp only [if_pos rfl]
      have hle : used ≤ s1.length := by
        have := cMantissa_consumed_le isDigitCh digitVal 10 s1
        rw [hm] at this
        exact this
      rw [List.drop_append_of_le_length hle,
        cExponent_append hb 'e' 'E' (by decide) (s1.drop used)]

/-- Characters with equal code points are equal. -/
theorem char_eq_of_toNat {c d : Char} (h : c.toNat = d.toNat) : c = d := by
  apply Char.eq_of_val_eq
  apply UInt32.eq_of_val_eq
  apply Fin.eq_of_val_eq
  exact h

/-- The decimal-digit class in terms of code points. -/
theorem isDigitCh_iff (c : Char) : isDigitCh c = true ↔ 48 ≤ c.toNat ∧ c.toNat ≤ 57 := by
  simp only [isDigitCh, Char.le_def, Char.toNat, decide_eq_true_eq]
  exact Iff.rfl

/-- `Char.ofNat` on a valid code point keeps the code point. -/
theorem toNat_ofNat_valid {n : Nat} (hval : Nat.isValidChar n) :
    (Char.ofNat n).toNat = n := by
  unfold Char.ofNat
  split
  · rfl
  · rename_i h2
    exact absurd hval h2

/-- Code point of a digit character built by the printer. -/
theorem digit_char_toNat {k : Nat} (hk : k < 10) :
    (Char.ofNat (48 + k)).toNat = 48 + k :=
  toNat_ofNat_valid (Or.inl (by omega))

/-- Printer-built digit characters are decimal digits. -/
theorem isDigitCh_ofNat {k : Nat} (hk : k < 10) :
    isDigitCh (Char.ofNat (48 + k)) = true :=
  (isDigitCh_iff _).mpr (by rw [digit_char_toNat hk]; omega)

/-- A digit is not a sign, a period, or an opening parenthesis. -/
theorem digit_not_sign {c : Char} (hc : isDigitCh c = true) :
    c ≠ '+' ∧ c ≠ '-' ∧ c ≠ '.' ∧ c ≠ '(' := by
  refine ⟨fun h => ?_, fun h => ?_, fun h => ?_, fun h => ?_⟩ <;>
    exact absurd ((isDigitCh_iff c).mp hc).1 (by rw [h]; decide)

/-- `takeWhile` keeps a list all of whose elements satisfy the predicate. -/
theorem takeWhile_all {p : Char → Bool} :
    ∀ l : List Char, (∀ x ∈ l, p x = true) → l.takeWhile p = l := by
  intro l
  induction l with
  | nil => intro _; rfl
  | cons x xs ih =>
      intro h
      rw [List.takeWhile_cons, if_pos (h x (by simp)),
        ih (fun y hy => h y (by simp [hy]))]

/-- `natDigits` always emits at least one digit. -/
theorem natDigits_ne_nil (m : Nat) : natDigits m ≠ [] := by
  rw [natDigits]
  split
  · simp
  · simp

/-- Every character `natDigits` emits is a decimal digit. -/
theorem natDigits_all_digits : ∀ m, ∀ c ∈ natDigits m, isDigitCh c = true := by
  intro m
  induction m using Nat.strong_induction_on with
  | _ m ih =>
      intro c hc
      rw [natDigits] at hc
      split at hc
      · rename_i h
        simp only [List.mem_singleton] at hc
        rw [hc]
        exact isDigitCh_ofNat h
      · rename_i h
        rcases List.mem_append.mp hc with h2 | h2
        · exact ih (m / 10) (Nat.div_lt_self (by omega) (by omega)) c h2
        · simp only [List.mem_singleton] at h2
          rw [h2]
          exact isDigitCh_ofNat (Nat.mod_lt _ (by omega))

/-- For a positive number the leading digit is nonzero. -/
theorem natDigits_head_ne_zero : ∀ m, 0 < m → ∀ c,
    (natDigits m).head? = some c → c ≠ '0' := by
  intro m
  induction m using Nat.strong_induction_on with
  | _ m ih =>
      intro hm c hc
      rw [natDigits] at hc
      split at hc
      · rename_i h
        simp only [List.head?_cons, Option.some.injEq] at hc
        intro hz
        rw [hz] at hc
        have := congrArg Char.toNat hc
        rw [digit_char_toNat h] at this
        have h0 : Char.toNat '0' = 48 := rfl
        omega
      · rename_i h
        cases hd : natDigits (m / 10) with
        | nil => exact absurd hd (natDigits_ne_nil _)
        | cons d ds =>
            rw [hd, List.cons_append, List.head?_cons, Option.some.injEq] at hc
            rw [← hc]
            exact ih (m / 10) (Nat.div_lt_self (by omega) (by omega))
              (Nat.div_pos (by omega) (by omega)) d (by rw [hd]; rfl)

/-- Reading back the digits `natDigits` produced recovers the number. -/
theorem natOfDigits_natDigits : ∀ m, natOfDigits 10 digitVal (natDigits m) = m := by
  intro m
  induction m using Nat.strong_induction_on with
  | _ m ih =>
      rw [natDigits]
      split
      · rename_i h
        simp only [natOfDigits, List.foldl_cons, List.foldl_nil]
        rw [show digitVal (Char.ofNat (48 + m)) = (Char.ofNat (48 + m)).toNat - 48
          from rfl, digit_char_toNat h]
        omega
      · rename_i h
        simp only [natOfDigits, List.foldl_append, List.foldl_cons, List.foldl_nil]
        have h1 := ih (m / 10) (Nat.div_lt_self (by omega) (by omega))
        simp only [natOfDigits] at h1
        rw [h1]
        rw [show digitVal (Char.ofNat (48 + m % 10)) =
          (Char.ofNat (48 + m % 10)).toNat - 48 from rfl,
          digit_char_toNat (Nat.mod_lt _ (by omega))]
        omega

/-- `strtoll` on the canonical decimal rendering of an `int64_t` value
consumes it entirely and returns the value without a range error. -/
theorem strtollM_intRepr {n : Int} (hlo : -(2 ^ 63) ≤ n) (hhi : n ≤ 2 ^ 63 - 1) :
    strtollM (intRepr n) = (n, (intRepr n).length, false) := by
  by_cases hneg : n < 0
  · rw [intRepr, if_pos hneg]
    have hpos : 0 < n.natAbs := by omega
    obtain ⟨d, ds, hd⟩ : ∃ d ds, natDigits n.natAbs = d :: ds := by
      cases h : natDigits n.natAbs with
      | nil => exact absurd h (natDigits_ne_nil _)
      | cons d ds => exact ⟨d, ds, rfl⟩
    have hdall := natDigits_all_digits n.natAbs
    have hdz : d ≠ '0' := natDigits_head_ne_zero n.natAbs hpos d (by rw [hd]; rfl)
    have htw : (d :: ds).takeWhile isDigitCh = d :: ds := takeWhile_all _ (by
      intro x hx
      exact hdall x (by rw [hd]; exact hx))
    have hsgn : llSign ('-' :: natDigits n.natAbs) = (true, 1, natDigits n.natAbs) := by
      rw [llSign, if_neg (by decide), if_pos rfl]
    have hmag : llMag (natDigits n.natAbs) = (n.natAbs, (natDigits n.natAbs).length) := by
      rw [hd, llMag_cons_ne d ds hdz, htw]
      have h2 := natOfDigits_natDigits n.natAbs
      rw [hd] at h2
      rw [h2]
    simp only [strtollM, hsgn, hmag]
    have hlen : ¬((natDigits n.natAbs).length = 0) := by rw [hd]; simp
    rw [if_neg hlen]
    rw [if_pos trivial]
    rw [if_neg (show ¬(n.natAbs > 2 ^ 63) by omega)]
    simp only [List.length_cons, Prod.mk.injEq]
    refine ⟨by omega, by omega, trivial⟩
  · rw [intRepr, if_neg hneg]
    by_cases h0 : n = 0
    · subst h0
      have hd0 : natDigits (Int.toNat 0) = ['0'] := by
        rw [show Int.toNat 0 = 0 from rfl, natDigits, dif_pos (by omega)]
      rw [hd0]
      decide
    · have hpos : 0 < n.toNat := by omega
      obtain ⟨d, ds, hd⟩ : ∃ d ds, natDigits n.toNat = d :: ds := by
        cases h : natDigits n.toNat with
        | nil => exact absurd h (natDigits_ne_nil _)
        | cons d ds => exact ⟨d, ds, rfl⟩
      have hdall := natDigits_all_digits n.toNat
      have hddig : isDigitCh d = true := hdall d (by rw [hd]; simp)
      have hdz : d ≠ '0' := natDigits_head_ne_zero n.toNat hpos d (by rw [hd]; rfl)
      have htw : (d :: ds).takeWhile isDigitCh = d :: ds := takeWhile_all _ (by
        intro x hx
        exact hdall x (by rw [hd]; exact hx))
      have hsgn : llSign (natDigits n.toNat) = (false, 0, natDigits n.toNat) := by
        rw [hd, llSign, if_neg (digit_not_sign hddig).1,
          if_neg (digit_not_sign hddig).2.1, ← hd]
      have hmag : llMag (natDigits n.toNat) = (n.toNat, (natDigits n.toNat).length) := by
        rw [hd, llMag_cons_ne d ds hdz, htw]
        have h2 := natOfDigits_natDigits n.toNat
        rw [hd] at h2
        rw [h2]
      simp only [strtollM, hsgn, hmag]
      have hlen : ¬((natDigits n.toNat).length = 0) := by rw [hd]; simp
      rw [if_neg hlen]
      simp only [Bool.false_eq_true, if_false]
      rw [if_neg (show ¬((n.toNat : Nat) > 2 ^ 63 - 1) by omega)]
      simp only [Prod.mk.injEq]
      refine ⟨by omega, by omega, trivial⟩

/-- Digits are neither delimiters, prefix characters, `#`, nor the pair
separator. -/
theorem digit_char_props {c : Char} (hc : isDigitCh c = true) :
    c ∉ delimChars ∧ c ∉ prefixTokChars ∧ c ≠ '#' ∧ c ≠ '.' := by
  have h := (isDigitCh_iff c).mp hc
  refine ⟨fun hm => ?_, fun hm => ?_, fun he => ?_, fun he => ?_⟩
  · fin_cases hm <;> exact absurd h (by decide)
  · fin_cases hm <;> exact absurd h (by decide)
  · rw [he] at h
    exact absurd h (by decide)
  · rw [he] at h
    exact absurd h (by decide)

/-- `parse_hash_expr` never produces a symbol. -/
theorem parseHashExpr_no_symbol (tok rest : List Char) :
    ∀ m, (parseHashExpr tok rest).2.2 ≠ .symbol m := by
  intro m
  rw [parseHashExpr.eq_def]
  rcases tok with _ | ⟨c, t⟩
  · simp
  · rcases t with _ | ⟨c2, t2⟩
    · simp
    · simp only []
      split_ifs <;> simp

/-- `parse_primitive` on the canonical rendering of an in-range integer
followed by boundary text: the integer converts exactly and is returned. -/
theorem parsePrimitive_intRepr {n : Int} (hlo : -(2 ^ 63) ≤ n) (hhi : n ≤ 2 ^ 63 - 1)
    (rest : List Char) (hb : printedBoundary rest) :
    parsePrimitive (intRepr n) rest = (.ok, some rest, .integer n) := by
  have hhead : ∃ c, (intRepr n).head? = some c ∧
      (isDigitCh c || c == '+' || c == '-') = true ∧ c ≠ '#' := by
    by_cases hneg : n < 0
    · exact ⟨'-', by rw [intRepr, if_pos hneg]; rfl, by decide, by decide⟩
    · obtain ⟨d, ds, hd⟩ : ∃ d ds, natDigits n.toNat = d :: ds := by
        cases h : natDigits n.toNat with
        | nil => exact absurd h (natDigits_ne_nil _)
        | cons d ds => exact ⟨d, ds, rfl⟩
      have hdd : isDigitCh d = true := natDigits_all_digits n.toNat d (by rw [hd]; simp)
      refine ⟨d, by rw [intRepr, if_neg hneg, hd]; rfl, by simp [hdd],
        (digit_char_props hdd).2.2.1⟩
  obtain ⟨c, hc1, hc2, hc3⟩ := hhead
  rw [parsePrimitive]
  rw [if_neg (by rw [hc1]; exact fun h => hc3 (Option.some.inj h))]
  simp only [hc1]
  rw [if_pos hc2]
  simp only [strtollM_boundary hb (intRepr n), strtollM_intRepr hlo hhi]
  rw [if_pos trivial, if_neg (by simp), if_neg (by simp)]

/-- `parse_primitive` on a round-trip-safe symbol name followed by boundary
text returns the same symbol. -/
theorem parsePrimitive_symbol {name : List Char} (hok : symbolRoundOK name = true)
    (hpar : '(' ∉ name) (rest : List Char) (hb : printedBoundary rest) :
    parsePrimitive name rest = (.ok, some rest, .symbol name) := by
  rw [symbolRoundOK, Bool.and_eq_true] at hok
  obtain ⟨hdot, h2⟩ := hok
  rcases hP : parsePrimitive name [] with ⟨code, endO, atom⟩
  rw [hP] at h2
  have hsym : code = .ok ∧ ∃ m, atom = .symbol m ∧ m = name := by
    cases code with
    | ok =>
        cases atom <;> simp_all
    | special c => cases atom <;> simp_all
    | err e => cases atom <;> simp_all
  obtain ⟨hcode, m, hatom, hm⟩ := hsym
  subst hcode
  rw [hm] at hatom
  subst hatom
  by_cases hhash : List.head? name = some '#'
  · rw [parsePrimitive, if_pos hhash] at hP
    exact absurd (congrArg (fun z => z.2.2) hP)
      (by exact fun h => parseHashExpr_no_symbol name [] name h)
  rw [parsePrimitive, if_neg hhash] at hP
  simp only [List.append_nil] at hP
  rw [parsePrimitive, if_neg hhash]
  cases hhd : List.head? name with
  | none =>
      simp only [hhd] at hP ⊢
      rw [if_neg (by simp)] at hP
      rw [if_neg (by simp)]
      split at hP
      · simp at hP
      · rename_i hNIL
        rw [if_neg hNIL]
        simp only [Prod.mk.injEq] at hP
        rw [hP.2.2]
  | some c =>
      simp only [hhd] at hP ⊢
      by_cases hnm : (isDigitCh c || c == '+' || c == '-') = true
      · rw [if_pos hnm] at hP
        rw [if_pos hnm]
        rcases hll : strtollM name with ⟨iv, irest⟩
        rcases irest with ⟨ic, ie⟩
        rw [hll] at hP
        rw [strtollM_boundary hb name, hll]
        by_cases hic : ic = name.length
        · rw [if_pos hic] at hP
          split at hP
          · simp at hP
          · split at hP <;> simp at hP
        · rw [if_neg hic] at hP
          rw [if_neg hic]
          rcases hld : strtoldM name with ⟨fv, frest⟩
          rcases frest with ⟨fc, fr⟩
          rw [hld] at hP
          rw [strtoldM_boundary hb name hpar, hld]
          by_cases hfc : fc = name.length
          · rw [if_pos hfc] at hP
            split at hP <;> simp at hP
          · rw [if_neg hfc] at hP
            rw [if_neg hfc]
            split at hP
            · simp at hP
            · rename_i hNIL
              rw [if_neg hNIL]
              simp only [Prod.mk.injEq] at hP
              rw [hP.2.2]
      · rw [if_neg hnm] at hP
        rw [if_neg hnm]
        split at hP
        · simp at hP
        · rename_i hNIL
          rw [if_neg hNIL]
          simp only [Prod.mk.injEq] at hP
          rw [hP.2.2]
/-- The head surviving a `dropWhile` fails the predicate. -/
theorem head_dropWhile_not (p : Char → Bool) :
    ∀ (l : List Char) (c : Char), ((l.dropWhile p).head? = some c) → p c = false := by
  intro l
  induction l with
  | nil =>
      intro c h
      cases h
  | cons x xs ih =>
      intro c h
      rw [List.dropWhile_cons] at h
      by_cases hx : p x = true
      · rw [if_pos hx] at h
        exact ih c h
      · rw [if_neg hx] at h
        injection h with h2
        rw [← h2]
        simpa using hx

/-- A character that is neither whitespace nor a prefix character is not a
delimiter. -/
theorem not_delim_of_not_wspace_prefix {c : Char} (hw : c ∉ wspaceChars)
    (hp : c ∉ prefixTokChars) : c ∉ delimChars := by
  intro hmem
  fin_cases hmem
  · exact hp (by decide)
  · exact hp (by decide)
  · exact hp (by decide)
  · exact hw (by decide)
  · exact hw (by decide)
  · exact hw (by decide)
  · exact hw (by decide)

/-- `lex` on input headed by a non-whitespace character: the token starts
with that character, the code is `BAMBOO_OK`, and no whitespace is
skipped. -/
theorem lex_head_shape {c : Char} {t : List Char}
    (hw : c ∉ wspaceChars) :
    ∃ tok tokRest, lex (c :: t) = (.ok, tok, tokRest) ∧ tok.head? = some c := by
  have hdw : (c :: t).dropWhile (fun x => (x ∈ wspaceChars : Bool)) = c :: t := by
    rw [List.dropWhile_cons, if_neg (by simpa using hw)]
  by_cases hpre : c ∈ prefixTokChars
  · refine ⟨[c], t, ?_, rfl⟩
    unfold lex
    simp only [hdw]
    rw [if_pos hpre]
  · have hcd : c ∉ delimChars := not_delim_of_not_wspace_prefix hw hpre
    refine ⟨(c :: t).takeWhile (fun d => (d ∉ delimChars : Bool)),
      (c :: t).dropWhile (fun d => (d ∉ delimChars : Bool)), ?_, ?_⟩
    · unfold lex
      simp only [hdw]
      rw [if_neg hpre]
    · rw [List.takeWhile_cons, if_pos (by simpa using hcd)]
      rfl

/-- Every `BAMBOO_OK` token from `lex` is a lone prefix character or a
nonempty delimiter-free run not headed by a prefix character. -/
theorem lex_shape {input tok rest : List Char}
    (h : lex input = (.ok, tok, rest)) :
    (∃ c, tok = [c] ∧ c ∈ prefixTokChars) ∨
    (tok ≠ [] ∧ (∀ x ∈ tok, x ∉ delimChars) ∧
      ∀ c, tok.head? = some c → c ∉ prefixTokChars) := by
  unfold lex at h
  cases hdw : input.dropWhile (fun x => (x ∈ wspaceChars : Bool)) with
  | nil =>
      rw [hdw] at h
      cases h
  | cons c t =>
      rw [hdw] at h
      simp only [] at h
      by_cases hpre : c ∈ prefixTokChars
      · rw [if_pos hpre] at h
        simp only [Prod.mk.injEq] at h
        exact Or.inl ⟨c, h.2.1.symm, hpre⟩
      · rw [if_neg hpre] at h
        simp only [Prod.mk.injEq] at h
        have hcw : c ∉ wspaceChars := by
          have := head_dropWhile_not (fun x => (x ∈ wspaceChars : Bool)) input c
            (by rw [hdw]; rfl)
          simpa using this
        have hcd : c ∉ delimChars := not_delim_of_not_wspace_prefix hcw hpre
        have htok : tok = (c :: t).takeWhile (fun d => (d ∉ delimChars : Bool)) :=
          h.2.1.symm
        rw [List.takeWhile_cons, if_pos (by simpa using hcd)] at htok
        refine Or.inr ⟨by rw [htok]; simp, ?_, ?_⟩
        · intro x hx
          rw [htok] at hx
          rcases List.mem_cons.mp hx with h2 | h2
          · rw [h2]; exact hcd
          · simpa using List.mem_takeWhile_imp h2
        · intro c2 hc2
          rw [htok] at hc2
          injection hc2 with h3
          rw [← h3]
          exact hpre

/-- `bamboo_parse_expr` on a delimiter-free run token (not starting with a
prefix character) followed by a delimiter or end of input: the token goes
to `parse_primitive` whole. -/
theorem parseExpr_run_token (t : Char) (ts rest : List Char) (fuel : Nat)
    (hf : 1 ≤ fuel)
    (hdelim : ∀ x ∈ t :: ts, x ∉ delimChars)
    (hpre : t ∉ prefixTokChars)
    (hrest : ∀ r rs, rest = r :: rs → r ∈ delimChars) :
    parseExpr fuel ((t :: ts) ++ rest) = some (parsePrimitive (t :: ts) rest) := by
  obtain ⟨g, rfl⟩ : ∃ g, fuel = g + 1 := ⟨fuel - 1, by omega⟩
  rw [parseExpr]
  simp only [lex_run t ts rest hdelim hpre hrest]
  rw [if_neg (fun h => hpre (by rw [h]; decide)),
    if_neg (fun h => hpre (by rw [h]; decide)),
    if_neg (fun h => hpre (by rw [h]; decide)),
    if_neg (fun h => hpre (by rw [h]; decide))]

/-- The first character of the rendering of a parser-shaped, print-safe
atom: never whitespace, never the pair separator, never a closing
parenthesis. -/
theorem exprStr_head {v : Atom} (hs : ParseShape v) (hc : printSafe v = true) :
    ∃ c t, exprStr v = c :: t ∧ c ∉ wspaceChars ∧ c ≠ '.' ∧ c ≠ ')' := by
  cases hs with
  | nilS =>
      exact ⟨'n', ['i', 'l'], by simp only [exprStr]; rfl, by decide, by decide, by decide⟩
  | intS n hlo hhi =>
      by_cases hneg : n < 0
      · refine ⟨'-', natDigits n.natAbs, ?_, by decide, by decide, by decide⟩
        simp only [exprStr, intRepr, if_pos hneg]
      · obtain ⟨d, ds, hd⟩ : ∃ d ds, natDigits n.toNat = d :: ds := by
          cases h : natDigits n.toNat with
          | nil => exact absurd h (natDigits_ne_nil _)
          | cons d ds => exact ⟨d, ds, rfl⟩
        have hdd : isDigitCh d = true := natDigits_all_digits n.toNat d (by rw [hd]; simp)
        have hprops := digit_char_props hdd
        refine ⟨d, ds, ?_, fun hw => hprops.1 (wspace_subset_delim hw), hprops.2.2.2,
          fun he => hprops.1 (by rw [he]; decide)⟩
        simp only [exprStr, intRepr, if_neg hneg]
        exact hd
  | boolS b =>
      exact ⟨'#', [if b then 't' else 'f'], by simp only [exprStr], by decide,
        by decide, by decide⟩
  | floatS q => simp [printSafe] at hc
  | strS s hq =>
      exact ⟨quoteCh, s ++ [quoteCh], by simp only [exprStr, List.cons_append],
        by decide, by decide, by decide⟩
  | symS name hne hdelim hpre =>
      obtain ⟨d, ds, hd⟩ : ∃ d ds, name = d :: ds := by
        cases name with
        | nil => exact absurd rfl hne
        | cons d ds => exact ⟨d, ds, rfl⟩
      have hdm : d ∈ name := by rw [hd]; simp
      have hdot : d ≠ '.' := by
        rw [printSafe, symbolRoundOK, Bool.and_eq_true] at hc
        have := hc.1
        simp only [hd, List.head?_cons, decide_eq_true_eq] at this
        exact fun he => this (by rw [he])
      refine ⟨d, ds, by simp only [exprStr]; exact hd,
        fun hw => hdelim d hdm (wspace_subset_delim hw), hdot,
        fun he => hdelim d hdm (by rw [he]; decide)⟩
  | pairS a d ha hd =>
      exact ⟨'(', exprStr a ++ exprStrTail d ++ [')'], by simp only [exprStr]; rfl,
        by decide, by decide, by decide⟩

/-- Printed-boundary heads are delimiters. -/
theorem printedBoundary_delim {rest : List Char} (hb : printedBoundary rest) :
    ∀ r rs, rest = r :: rs → r ∈ delimChars := by
  intro r rs hr
  rcases printedBoundary_head hb r rs hr with h | h <;> rw [h] <;> decide

/-- `lex` on a closing parenthesis. -/
theorem lex_close (rest : List Char) : lex (')' :: rest) = (.ok, [')'], rest) := rfl

/-- Skipping the leading space of a token. -/
theorem lex_cons_space (l : List Char) : lex (' ' :: l) = lex l := by
  unfold lex
  rw [List.dropWhile_cons, if_pos (by decide)]

/-- No whitespace before a closing parenthesis. -/
theorem dropWhile_wspace_close (rest : List Char) :
    (')' :: rest).dropWhile (fun c => (c ∈ wspaceChars : Bool)) = ')' :: rest := by
  rw [List.dropWhile_cons, if_neg (by decide)]

/-- `bamboo_parse_expr` on a closing parenthesis reports `BAMBOO_PAREN_END`. -/
theorem parseExpr_close (g : Nat) (rest : List Char) :
    parseExpr (g + 1) (')' :: rest) = some (.special .parenEnd, none, .nil) := by
  rw [parseExpr]
  simp only [lex_close]
  rw [if_neg (by decide), if_neg (by decide), if_pos trivial]

/-- The element-append block on a nonempty list with no tail installed. -/
theorem appendStep_snoc (elems : List Atom) (x : Atom) (hne : elems ≠ []) :
    appendStep elems none false x = some (elems ++ [x], none, false) := by
  rw [appendStep, if_neg (by simpa [List.isEmpty_iff] using hne),
    if_neg (by simp), if_neg (by simp)]

/-- The element-append block with the pair flag set installs the tail. -/
theorem appendStep_tail (elems : List Atom) (x : Atom) (hne : elems ≠ []) :
    appendStep elems none true x = some (elems, some x, false) := by
  rw [appendStep, if_neg (by simpa [List.isEmpty_iff] using hne),
    if_neg (by simp), if_pos rfl]

/-- The element-append block on the first element. -/
theorem appendStep_first (x : Atom) (p : Bool) :
    appendStep [] none p x = some ([x], none, p) := by
  rw [appendStep, if_pos (show ([] : List Atom).isEmpty = true from rfl)]

/-- The text after a printed list tail starts with a space or the closing
parenthesis. -/
theorem printedBoundary_tail (d : Atom) (rest : List Char) :
    printedBoundary (exprStrTail d ++ ')' :: rest) := by
  cases d with
  | nil =>
      rw [show exprStrTail .nil = [] from by simp only [exprStrTail]]
      exact Or.inr (Or.inr ⟨rest, rfl⟩)
  | cell tag a b =>
      cases tag with
      | pairT =>
          rw [show exprStrTail (.cell .pairT a b) = ' ' :: exprStr a ++ exprStrTail b
            from by simp only [exprStrTail], List.cons_append]
          exact Or.inr (Or.inl ⟨_, rfl⟩)
      | closureT =>
          simp only [exprStrTail]
          rw [List.cons_append]
          exact Or.inr (Or.inl ⟨_, rfl⟩)
      | macroT =>
          simp only [exprStrTail]
          rw [List.cons_append]
          exact Or.inr (Or.inl ⟨_, rfl⟩)
  | symbol n =>
      simp only [exprStrTail]
      rw [List.cons_append]
      exact Or.inr (Or.inl ⟨_, rfl⟩)
  | integer n =>
      simp only [exprStrTail]
      rw [List.cons_append]
      exact Or.inr (Or.inl ⟨_, rfl⟩)
  | float q =>
      simp only [exprStrTail]
      rw [List.cons_append]
      exact Or.inr (Or.inl ⟨_, rfl⟩)
  | boolean b =>
      simp only [exprStrTail]
      rw [List.cons_append]
      exact Or.inr (Or.inl ⟨_, rfl⟩)
  | str s =>
      simp only [exprStrTail]
      rw [List.cons_append]
      exact Or.inr (Or.inl ⟨_, rfl⟩)
  | builtin f =>
      simp only [exprStrTail]
      rw [List.cons_append]
      exact Or.inr (Or.inl ⟨_, rfl⟩)

/-- The `parse_list` loop over a printed dotted tail ` . x)`: the dot token
sets the pair flag, the element becomes the tail, and the closing
parenthesis finishes the list. -/
theorem parseList_dotted {v : Atom} (hs : ParseShape v) (hc : printSafe v = true)
    (hstr : exprStrTail v = ' ' :: '.' :: ' ' :: exprStr v)
    (hE : ∀ rest fuel, printedBoundary rest → 2 * (exprStr v).length + 1 ≤ fuel →
      parseExpr fuel (exprStr v ++ rest) = some (.ok, some rest, v)) :
    ∀ elems endCur rest fuel, elems ≠ [] → printedBoundary rest →
      2 * (exprStrTail v).length + 2 ≤ fuel →
      parseList fuel (exprStrTail v ++ ')' :: rest) elems none false endCur =
        some (.ok, some rest, elems.foldr cons v) := by
  intro elems endCur rest fuel hne hb hf
  rw [hstr] at hf ⊢
  simp only [List.length_cons] at hf
  rw [show ((' ' :: '.' :: ' ' :: exprStr v) ++ ')' :: rest) =
    ' ' :: '.' :: ' ' :: (exprStr v ++ ')' :: rest) from by simp]
  obtain ⟨c0, t0, hh, hw0, hdot0, hpar0⟩ := exprStr_head hs hc
  obtain ⟨g, rfl⟩ : ∃ g, fuel = g + 1 := ⟨fuel - 1, by omega⟩
  rw [parseList]
  have hlex1 : lex (' ' :: '.' :: ' ' :: (exprStr v ++ ')' :: rest)) =
      (.ok, ['.'], ' ' :: (exprStr v ++ ')' :: rest)) := by
    rw [lex_cons_space]
    rfl
  simp only [hlex1]
  rw [if_pos (show (['.'] : List Char).head? = some '.' from rfl),
    if_neg (by simpa [List.isEmpty_iff] using hne)]
  obtain ⟨tok2, tr2, hlex2, hhead2⟩ :=
    @lex_head_shape c0 (t0 ++ ')' :: rest) hw0
  have hlex2' : lex (' ' :: (exprStr v ++ ')' :: rest)) = (.ok, tok2, tr2) := by
    rw [lex_cons_space, hh, List.cons_append]
    exact hlex2
  simp only [hlex2']
  rw [if_neg (by
    rintro (h | h)
    · exact h rfl
    · exact hpar0 (Option.some.inj (hhead2.symm.trans h)))]
  obtain ⟨g1, rfl⟩ : ∃ g1, g = g1 + 1 := ⟨g - 1, by omega⟩
  rw [parseList]
  simp only [hlex2']
  rw [if_neg (fun h => hdot0 (Option.some.inj (hhead2.symm.trans h)))]
  have hts : (' ' :: (exprStr v ++ ')' :: rest)).dropWhile
      (fun c => (c ∈ wspaceChars : Bool)) = exprStr v ++ ')' :: rest := by
    rw [List.dropWhile_cons, if_pos (by decide), hh, List.cons_append,
      List.dropWhile_cons, if_neg (by simpa using hw0), ← List.cons_append, ← hh]
  simp only [hts]
  rw [hE (')' :: rest) g1 (Or.inr (Or.inr ⟨rest, rfl⟩)) (by omega)]
  simp only [appendStep_tail elems v hne, Option.getD_some]
  obtain ⟨g2, rfl⟩ : ∃ g2, g1 = g2 + 1 := ⟨g1 - 1, by omega⟩
  rw [parseList]
  simp only [lex_close]
  rw [if_neg (by decide)]
  obtain ⟨g3, rfl⟩ : ∃ g3, g2 = g3 + 1 := ⟨g2 - 1, by omega⟩
  simp only [dropWhile_wspace_close, parseExpr_close]
  rfl

/-- Inversion for symbol shapes. -/
theorem ParseShape_symbol {name : List Char} (h : ParseShape (.symbol name)) :
    name ≠ [] ∧ (∀ c ∈ name, c ∉ delimChars) ∧
      ∀ c, name.head? = some c → c ∉ prefixTokChars := by
  cases h
  exact ⟨by assumption, by assumption, by assumption⟩

/-- Inversion for integer shapes. -/
theorem ParseShape_int {n : Int} (h : ParseShape (.integer n)) :
    -(2 ^ 63) ≤ n ∧ n ≤ 2 ^ 63 - 1 := by
  cases h
  exact ⟨by assumption, by assumption⟩

/-- Inversion for string shapes. -/
theorem ParseShape_str {s : List Char} (h : ParseShape (.str s)) : quoteCh ∉ s := by
  cases h
  assumption

/-- Inversion for pair shapes. -/
theorem ParseShape_pair {a d : Atom} (h : ParseShape (.cell .pairT a d)) :
    ParseShape a ∧ ParseShape d := by
  cases h
  exact ⟨by assumption, by assumption⟩

/-- The canonical integer rendering is a single lexer run token. -/
theorem intRepr_token (n : Int) :
    intRepr n ≠ [] ∧ (∀ x ∈ intRepr n, x ∉ delimChars) ∧
      ∀ c, (intRepr n).head? = some c → c ∉ prefixTokChars := by
  by_cases hneg : n < 0
  · rw [intRepr, if_pos hneg]
    refine ⟨by simp, ?_, ?_⟩
    · intro x hx
      rcases List.mem_cons.mp hx with h | h
      · rw [h]
        decide
      · exact (digit_char_props (natDigits_all_digits _ x h)).1
    · intro c hc
      injection hc with h2
      rw [← h2]
      decide
  · rw [intRepr, if_neg hneg]
    obtain ⟨d, ds, hd⟩ : ∃ d ds, natDigits n.toNat = d :: ds := by
      cases h : natDigits n.toNat with
      | nil => exact absurd h (natDigits_ne_nil _)
      | cons d ds => exact ⟨d, ds, rfl⟩
    refine ⟨natDigits_ne_nil _,
      fun x hx => (digit_char_props (natDigits_all_digits _ x hx)).1, ?_⟩
    intro c hc
    rw [hd] at hc
    injection hc with h2
    rw [← h2]
    exact (digit_char_props (natDigits_all_digits _ d (by rw [hd]; simp))).2.1

/-- Printing then reparsing, proved jointly for elements
(`bamboo_parse_expr`) and list tails (`parse_list`) by structural
induction over the atom. -/
theorem print_parse_both (v : Atom) :
    (ParseShape v → printSafe v = true → ∀ rest fuel, printedBoundary rest →
      2 * (exprStr v).length + 1 ≤ fuel →
      parseExpr fuel (exprStr v ++ rest) = some (.ok, some rest, v)) ∧
    (ParseShape v → printSafe v = true → ∀ elems endCur rest fuel, elems ≠ [] →
      printedBoundary rest → 2 * (exprStrTail v).length + 2 ≤ fuel →
      parseList fuel (exprStrTail v ++ ')' :: rest) elems none false endCur =
        some (.ok, some rest, elems.foldr cons v)) := by
  induction v with
  | nil =>
      refine ⟨fun _ _ rest fuel hb hf => ?_, fun _ _ elems endCur rest fuel hne hb hf => ?_⟩
      · have h1 : exprStr Atom.nil = ['n', 'i', 'l'] := by
          simp only [exprStr]
          rfl
        rw [h1] at hf ⊢
        rw [parseExpr_run_token 'n' ['i', 'l'] rest fuel (by omega)
          (by intro x hx; fin_cases hx <;> decide) (by decide)
          (printedBoundary_delim hb)]
        rfl
      · rw [show exprStrTail Atom.nil = [] from by simp only [exprStrTail]] at hf ⊢
        rw [List.nil_append]
        obtain ⟨g, rfl⟩ : ∃ g, fuel = g + 1 := ⟨fuel - 1, by omega⟩
        rw [parseList]
        simp only [lex_close]
        rw [if_neg (by decide)]
        obtain ⟨g2, rfl⟩ : ∃ g2, g = g2 + 1 := ⟨g - 1, by simp at hf; omega⟩
        simp only [dropWhile_wspace_close, parseExpr_close]
        rfl
  | symbol name =>
      have hE : ParseShape (.symbol name) → printSafe (.symbol name) = true →
          ∀ rest fuel, printedBoundary rest →
          2 * (exprStr (.symbol name)).length + 1 ≤ fuel →
          parseExpr fuel (exprStr (.symbol name) ++ rest) =
            some (.ok, some rest, .symbol name) := by
        intro hs hc rest fuel hb hf
        have hok : symbolRoundOK name = true := by simpa [printSafe] using hc
        obtain ⟨hne2, hdelim, hpre⟩ := ParseShape_symbol hs
        rw [show exprStr (.symbol name) = name from by simp only [exprStr]] at hf ⊢
        have hpar : '(' ∉ name := fun h => hdelim '(' h (by decide)
        obtain ⟨d, ds, hd⟩ : ∃ d ds, name = d :: ds := by
          cases hx : name with
          | nil => exact absurd hx hne2
          | cons d ds => exact ⟨d, ds, rfl⟩
        rw [hd] at hf ⊢
        rw [parseExpr_run_token d ds rest fuel (by omega)
          (by rw [← hd]; exact hdelim) (by
            have := hpre d
            rw [hd] at this
            exact this rfl)
          (printedBoundary_delim hb)]
        rw [← hd, parsePrimitive_symbol hok hpar rest hb]
      refine ⟨hE, fun hs hc elems endCur rest fuel hne hb hf => ?_⟩
      exact parseList_dotted hs hc (by simp only [exprStrTail]) (hE hs hc)
        elems endCur rest fuel hne hb hf
  | integer n =>
      have hE : ParseShape (.integer n) → printSafe (.integer n) = true →
          ∀ rest fuel, printedBoundary rest →
          2 * (exprStr (.integer n)).length + 1 ≤ fuel →
          parseExpr fuel (exprStr (.integer n) ++ rest) =
            some (.ok, some rest, .integer n) := by
        intro hs hc rest fuel hb hf
        obtain ⟨hlo, hhi⟩ := ParseShape_int hs
        rw [show exprStr (.integer n) = intRepr n from by simp only [exprStr]] at hf ⊢
        obtain ⟨hne2, hdelim, hpre⟩ := intRepr_token n
        obtain ⟨t0, ts0, hshape⟩ : ∃ t0 ts0, intRepr n = t0 :: ts0 := by
          cases hx : intRepr n with
          | nil => exact absurd hx hne2
          | cons t0 ts0 => exact ⟨t0, ts0, rfl⟩
        rw [hshape] at hf ⊢
        rw [parseExpr_run_token t0 ts0 rest fuel (by omega)
          (by rw [← hshape]; exact hdelim) (by
            have := hpre t0
            rw [hshape] at this
            exact this rfl)
          (printedBoundary_delim hb)]
        rw [← hshape, parsePrimitive_intRepr hlo hhi rest hb]
      refine ⟨hE, fun hs hc elems endCur rest fuel hne hb hf => ?_⟩
      exact parseList_dotted hs hc (by simp only [exprStrTail]) (hE hs hc)
        elems endCur rest fuel hne hb hf
  | float q =>
      exact ⟨fun _ hc => by simp [printSafe] at hc,
        fun _ hc => by simp [printSafe] at hc⟩
  | boolean b =>
      have hE : ParseShape (.boolean b) → printSafe (.boolean b) = true →
          ∀ rest fuel, printedBoundary rest →
          2 * (exprStr (.boolean b)).length + 1 ≤ fuel →
          parseExpr fuel (exprStr (.boolean b) ++ rest) =
            some (.ok, some rest, .boolean b) := by
        intro hs hc rest fuel hb hf
        cases b with
        | false =>
            rw [show exprStr (.boolean false) = ['#', 'f'] from by
              simp only [exprStr]
              rfl] at hf ⊢
            rw [parseExpr_run_token '#' ['f'] rest fuel (by omega)
              (by intro x hx; fin_cases hx <;> decide) (by decide)
              (printedBoundary_delim hb)]
            rfl
        | true =>
            rw [show exprStr (.boolean true) = ['#', 't'] from by
              simp only [exprStr]
              rfl] at hf ⊢
            rw [parseExpr_run_token '#' ['t'] rest fuel (by omega)
              (by intro x hx; fin_cases hx <;> decide) (by decide)
              (printedBoundary_delim hb)]
            rfl
      refine ⟨hE, fun hs hc elems endCur rest fuel hne hb hf => ?_⟩
      exact parseList_dotted hs hc (by simp only [exprStrTail]) (hE hs hc)
        elems endCur rest fuel hne hb hf
  | str s =>
      have hE : ParseShape (.str s) → printSafe (.str s) = true →
          ∀ rest fuel, printedBoundary rest →
          2 * (exprStr (.str s)).length + 1 ≤ fuel →
          parseExpr fuel (exprStr (.str s) ++ rest) =
            some (.ok, some rest, .str s) := by
        intro hs hc rest fuel hb hf
        have hq : quoteCh ∉ s := ParseShape_str hs
        rw [show exprStr (.str s) = quoteCh :: (s ++ [quoteCh]) from by
          simp only [exprStr, List.cons_append]] at hf ⊢
        obtain ⟨g, rfl⟩ : ∃ g, fuel = g + 1 := ⟨fuel - 1, by omega⟩
        rw [List.cons_append, parseExpr]
        have hlexq : lex (quoteCh :: ((s ++ [quoteCh]) ++ rest)) =
            (.ok, [quoteCh], (s ++ [quoteCh]) ++ rest) := rfl
        simp only [hlexq]
        rw [if_pos trivial]
        have hps : parseString ((s ++ [quoteCh]) ++ rest) = (.ok, some rest, .str s) := by
          rw [List.append_assoc,
            show ([quoteCh] : List Char) ++ rest = quoteCh :: rest from rfl,
            parseString]
          have h1 : (s ++ quoteCh :: rest).takeWhile (fun c => (c ≠ quoteCh : Bool)) = s := by
            rw [takeWhile_append_stop (fun r rs hr => by
              injection hr with h2 _
              rw [← h2]
              simp) s]
            exact takeWhile_all s (fun x hx => by
              simp only [decide_eq_true_eq]
              intro he
              exact hq (he ▸ hx))
          simp only [h1]
          rw [show (s ++ quoteCh :: rest).drop s.length = quoteCh :: rest from by
            rw [List.drop_append_of_le_length (le_refl _), List.drop_length,
              List.nil_append]]
        rw [hps]
      refine ⟨hE, fun hs hc elems endCur rest fuel hne hb hf => ?_⟩
      exact parseList_dotted hs hc (by simp only [exprStrTail]) (hE hs hc)
        elems endCur rest fuel hne hb hf
  | cell tag a d ihh iht =>
      cases tag with
      | closureT =>
          exact ⟨fun _ hc => by simp [printSafe] at hc,
            fun _ hc => by simp [printSafe] at hc⟩
      | macroT =>
          exact ⟨fun _ hc => by simp [printSafe] at hc,
            fun _ hc => by simp [printSafe] at hc⟩
      | pairT =>
          constructor
          · intro hs hc rest fuel hb hf
            have hca : printSafe a = true := by
              simp only [printSafe, Bool.and_eq_true] at hc
              exact hc.1
            have hcd : printSafe d = true := by
              simp only [printSafe, Bool.and_eq_true] at hc
              exact hc.2
            have hsa : ParseShape a := (ParseShape_pair hs).1
            have hsd : ParseShape d := (ParseShape_pair hs).2
            rw [show exprStr (.cell .pairT a d) =
              '(' :: exprStr a ++ exprStrTail d ++ [')'] from by
              simp only [exprStr]] at hf ⊢
            simp only [List.length_cons, List.length_append] at hf
            rw [show (('(' :: exprStr a ++ exprStrTail d ++ [')']) ++ rest) =
              '(' :: (exprStr a ++ (exprStrTail d ++ ')' :: rest)) from by simp]
            obtain ⟨g, rfl⟩ : ∃ g, fuel = g + 1 := ⟨fuel - 1, by omega⟩
            rw [parseExpr]
            have hlexp : lex ('(' :: (exprStr a ++ (exprStrTail d ++ ')' :: rest))) =
                (.ok, ['('], exprStr a ++ (exprStrTail d ++ ')' :: rest)) := rfl
            simp only [hlexp]
            rw [if_neg (by decide), if_pos trivial]
            obtain ⟨g1, rfl⟩ : ∃ g1, g = g1 + 1 := ⟨g - 1, by omega⟩
            rw [parseList]
            obtain ⟨c0, t0, hh, hw0, hdot0, hpar0⟩ := exprStr_head hsa hca
            obtain ⟨tok2, tr2, hlex2, hhead2⟩ :=
              @lex_head_shape c0 (t0 ++ (exprStrTail d ++ ')' :: rest)) hw0
            have hlex2s : lex (exprStr a ++ (exprStrTail d ++ ')' :: rest)) =
                (.ok, tok2, tr2) := by
              rw [hh, List.cons_append]
              exact hlex2
            simp only [hlex2s]
            rw [if_neg (fun h => hdot0 (Option.some.inj (hhead2.symm.trans h)))]
            have hts : (exprStr a ++ (exprStrTail d ++ ')' :: rest)).dropWhile
                (fun c => (c ∈ wspaceChars : Bool)) =
                exprStr a ++ (exprStrTail d ++ ')' :: rest) := by
              rw [hh, List.cons_append, List.dropWhile_cons,
                if_neg (by simpa using hw0), ← List.cons_append, ← hh]
            simp only [hts]
            rw [ihh.1 hsa hca (exprStrTail d ++ ')' :: rest) g1
              (printedBoundary_tail d rest) (by omega)]
            simp only [appendStep_first a false, Option.getD_some]
            rw [iht.2 hsd hcd [a] none rest g1 (by simp) hb (by omega)]
            rfl
          · intro hs hc elems endCur rest fuel hne hb hf
            have hca : printSafe a = true := by
              simp only [printSafe, Bool.and_eq_true] at hc
              exact hc.1
            have hcd : printSafe d = true := by
              simp only [printSafe, Bool.and_eq_true] at hc
              exact hc.2
            have hsa : ParseShape a := (ParseShape_pair hs).1
            have hsd : ParseShape d := (ParseShape_pair hs).2
            rw [show exprStrTail (.cell .pairT a d) =
              ' ' :: exprStr a ++ exprStrTail d from by simp only [exprStrTail]] at hf ⊢
            simp only [List.length_cons, List.length_append] at hf
            rw [show ((' ' :: exprStr a ++ exprStrTail d) ++ ')' :: rest) =
              ' ' :: (exprStr a ++ (exprStrTail d ++ ')' :: rest)) from by simp]
            obtain ⟨g, rfl⟩ : ∃ g, fuel = g + 1 := ⟨fuel - 1, by omega⟩
            rw [parseList]
            obtain ⟨c0, t0, hh, hw0, hdot0, hpar0⟩ := exprStr_head hsa hca
            obtain ⟨tok2, tr2, hlex2, hhead2⟩ :=
              @lex_head_shape c0 (t0 ++ (exprStrTail d ++ ')' :: rest)) hw0
            have hlex2s : lex (' ' :: (exprStr a ++ (exprStrTail d ++ ')' :: rest))) =
                (.ok, tok2, tr2) := by
              rw [lex_cons_space, hh, List.cons_append]
              exact hlex2
            simp only [hlex2s]
            rw [if_neg (fun h => hdot0 (Option.some.inj (hhead2.symm.trans h)))]
            have hts : (' ' :: (exprStr a ++ (exprStrTail d ++ ')' :: rest))).dropWhile
                (fun c => (c ∈ wspaceChars : Bool)) =
                exprStr a ++ (exprStrTail d ++ ')' :: rest) := by
              rw [List.dropWhile_cons, if_pos (by decide), hh, List.cons_append,
                List.dropWhile_cons, if_neg (by simpa using hw0),
                ← List.cons_append, ← hh]
            simp only [hts]
            rw [ihh.1 hsa hca (exprStrTail d ++ ')' :: rest) g
              (printedBoundary_tail d rest) (by omega)]
            simp only [appendStep_snoc elems a hne, Option.getD_some]
            rw [iht.2 hsd hcd (elems ++ [a]) endCur rest g (by simp) hb (by omega)]
            rw [show (elems ++ [a]).foldr cons d = elems.foldr cons (cons a d) from by
              rw [List.foldr_append]
              rfl]
            rfl
  | builtin f =>
      exact ⟨fun _ hc => by simp [printSafe] at hc,
        fun _ hc => by simp [printSafe] at hc⟩

/-- A `strtoll` conversion without `ERANGE` lies in `int64_t` range. -/
theorem strtollM_accept_range (s : List Char) :
    (strtollM s).2.2 = false → -(2 ^ 63) ≤ (strtollM s).1 ∧ (strtollM s).1 ≤ 2 ^ 63 - 1 := by
  rcases hsg : llSign s with ⟨sn, sl, s1⟩
  rcases hmg : llMag s1 with ⟨mag, used⟩
  simp only [strtollM, hsg, hmg]
  split
  · intro _
    constructor <;> omega
  · split
    · split
      · intro h
        cases h
      · intro _
        rename_i hle
        constructor <;> omega
    · split
      · intro h
        cases h
      · intro _
        rename_i hle
        constructor <;> omega

/-- A `strtoll` conversion with `ERANGE` returns a clamped boundary
value. -/
theorem strtollM_erange_clamp (s : List Char) :
    (strtollM s).2.2 = true → (strtollM s).1 = 2 ^ 63 - 1 ∨ (strtollM s).1 = -(2 ^ 63) := by
  rcases hsg : llSign s with ⟨sn, sl, s1⟩
  rcases hmg : llMag s1 with ⟨mag, used⟩
  simp only [strtollM, hsg, hmg]
  split
  · intro h
    cases h
  · split
    · split
      · intro _
        right
        rfl
      · intro h
        cases h
    · split
      · intro _
        left
        rfl
      · intro h
        cases h

/-- Character order in terms of code points. -/
theorem char_le_iff_toNat {a b : Char} : a ≤ b ↔ a.toNat ≤ b.toNat := by
  simp only [Char.le_def, Char.toNat]
  exact Iff.rfl

/-- Upper-casing either fixes the character or yields an uppercase
letter. -/
theorem totupper_cases (c : Char) :
    totupper c = c ∨ (65 ≤ (totupper c).toNat ∧ (totupper c).toNat ≤ 90) := by
  rw [totupper]
  split
  · rename_i hlc
    right
    have hb1 : 97 ≤ c.toNat := by
      have := char_le_iff_toNat.mp hlc.1
      rw [show Char.toNat 'a' = 97 from rfl] at this
      exact this
    have hb2 : c.toNat ≤ 122 := by
      have := char_le_iff_toNat.mp hlc.2
      rw [show Char.toNat 'z' = 122 from rfl] at this
      exact this
    have hln : (Char.ofNat (c.toNat - 32)).toNat = c.toNat - 32 :=
      toNat_ofNat_valid (Or.inl (by omega))
    rw [hln]
    omega
  · left
    rfl

/-- Upper-casing never introduces a delimiter. -/
theorem totupper_not_delim {c : Char} (h : c ∉ delimChars) :
    totupper c ∉ delimChars := by
  rcases totupper_cases c with he | ⟨h1, h2⟩
  · rw [he]
    exact h
  · intro hmem
    have hall : ∀ x ∈ delimChars, Char.toNat x ≤ 60 := by decide
    have := hall _ hmem
    omega

/-- Upper-casing never introduces a prefix character. -/
theorem totupper_not_prefix {c : Char} (h : c ∉ prefixTokChars) :
    totupper c ∉ prefixTokChars := by
  rcases totupper_cases c with he | ⟨h1, h2⟩
  · rw [he]
    exact h
  · intro hmem
    have hall : ∀ x ∈ prefixTokChars, Char.toNat x ≤ 60 := by decide
    have := hall _ hmem
    omega

/-- A non-error `parse_string` result has parser shape. -/
theorem parseString_shape (rest : List Char) :
    (parseString rest).1.isErr = false → ParseShape (parseString rest).2.2 := by
  rw [parseString]
  cases hdr : rest.drop ((rest.takeWhile (fun c => (c ≠ quoteCh : Bool))).length) with
  | nil =>
      intro h
      cases h
  | cons x r2 =>
      intro _
      exact ParseShape.strS _ (fun hmem => by
        have := List.mem_takeWhile_imp hmem
        simp at this)

/-- A non-error `parse_hash_expr` result has parser shape. -/
theorem parseHashExpr_shape (tok rest : List Char) :
    (parseHashExpr tok rest).1.isErr = false → ParseShape (parseHashExpr tok rest).2.2 := by
  rw [parseHashExpr.eq_def]
  rcases tok with _ | ⟨c, t⟩
  · intro h
    cases h
  · rcases t with _ | ⟨c2, t2⟩
    · intro h
      cases h
    · simp only []
      split_ifs <;> intro h
      · exact ParseShape.boolS false
      · exact ParseShape.boolS true
      · cases h

/-- A non-error `parse_primitive` result on a delimiter-free run token has
parser shape. -/
theorem parsePrimitive_shape (tok rest : List Char) (hne : tok ≠ [])
    (hdelim : ∀ x ∈ tok, x ∉ delimChars)
    (hpre : ∀ c, tok.head? = some c → c ∉ prefixTokChars) :
    (parsePrimitive tok rest).1.isErr = false →
    ParseShape (parsePrimitive tok rest).2.2 := by
  have hsymbol : ParseShape (Atom.symbol (tok.map totupper)) := by
    refine ParseShape.symS _ ?_ ?_ ?_
    · intro hmap
      exact hne (List.map_eq_nil_iff.mp hmap)
    · intro x hx
      obtain ⟨y, hy, hxy⟩ := List.mem_map.mp hx
      rw [← hxy]
      exact totupper_not_delim (hdelim y hy)
    · intro c hc
      obtain ⟨y, ys, hys⟩ : ∃ y ys, tok = y :: ys := by
        cases hx : tok with
        | nil => exact absurd hx hne
        | cons y ys => exact ⟨y, ys, rfl⟩
      rw [hys, List.map_cons, List.head?_cons] at hc
      injection hc with hc2
      rw [← hc2]
      exact totupper_not_prefix (hpre y (by rw [hys]; rfl))
  rw [parsePrimitive]
  by_cases hhash : List.head? tok = some '#'
  · rw [if_pos hhash]
    exact parseHashExpr_shape tok rest
  rw [if_neg hhash]
  cases hhd : List.head? tok with
  | none =>
      simp only [hhd]
      rw [if_neg (by simp)]
      by_cases hnil : tok.map totupper = "NIL".toList
      · rw [if_pos hnil]
        intro _
        exact ParseShape.nilS
      · rw [if_neg hnil]
        intro _
        exact hsymbol
  | some c =>
      simp only [hhd]
      by_cases hnm : (isDigitCh c || c == '+' || c == '-') = true
      · rw [if_pos hnm]
        rcases hll : strtollM (tok ++ rest) with ⟨iv, irest⟩
        rcases irest with ⟨ic, ie⟩
        simp only [hll]
        by_cases hic : ic = tok.length
        · rw [if_pos hic]
          by_cases hmax : ie = true ∧ iv = 2 ^ 63 - 1
          · rw [if_pos hmax]
            intro h
            cases h
          · rw [if_neg hmax]
            by_cases hmin : ie = true ∧ iv = -(2 ^ 63)
            · rw [if_pos hmin]
              intro h
              cases h
            · rw [if_neg hmin]
              intro _
              have hie : ie = false := by
                cases hif : ie with
                | false => rfl
                | true =>
                    have hcl := strtollM_erange_clamp (tok ++ rest)
                    rw [hll] at hcl
                    rcases hcl hif with h2 | h2
                    · exact absurd ⟨hif, h2⟩ hmax
                    · exact absurd ⟨hif, h2⟩ hmin
              have hrange := strtollM_accept_range (tok ++ rest)
              rw [hll] at hrange
              exact ParseShape.intS iv (hrange hie).1 (hrange hie).2
        · rw [if_neg hic]
          rcases hld : strtoldM (tok ++ rest) with ⟨fv, frest⟩
          rcases frest with ⟨fc, fr⟩
          simp only [hld]
          by_cases hfc : fc = tok.length
          · rw [if_pos hfc]
            by_cases hfr : fr = true
            · rw [if_pos hfr]
              intro h
              cases h
            · rw [if_neg hfr]
              intro _
              exact ParseShape.floatS fv
          · rw [if_neg hfc]
            by_cases hnil : tok.map totupper = "NIL".toList
            · rw [if_pos hnil]
              intro _
              exact ParseShape.nilS
            · rw [if_neg hnil]
              intro _
              exact hsymbol
      · rw [if_neg hnm]
        by_cases hnil : tok.map totupper = "NIL".toList
        · rw [if_pos hnil]
          intro _
          exact ParseShape.nilS
        · rw [if_neg hnil]
          intro _
          exact hsymbol

/-- `appendStep` preserves parser shape of the element list and tail. -/
theorem appendStep_shape {elems : List Atom} {tail : Option Atom} {isPair : Bool}
    {tmp : Atom} {e2 : List Atom} {t2 : Option Atom} {p2 : Bool}
    (h : appendStep elems tail isPair tmp = some (e2, t2, p2))
    (he : ∀ x ∈ elems, ParseShape x) (_ht : ∀ t, tail = some t → ParseShape t)
    (hm : ParseShape tmp) :
    (∀ x ∈ e2, ParseShape x) ∧ (∀ t, t2 = some t → ParseShape t) := by
  rw [appendStep] at h
  split at h
  · simp only [Option.some.injEq, Prod.mk.injEq] at h
    obtain ⟨h1, h2, h3⟩ := h
    subst h1
    subst h2
    refine ⟨?_, fun t htt => by cases htt⟩
    intro x hx
    rw [List.mem_singleton.mp hx]
    exact hm
  · split at h
    · cases h
    · split at h
      · simp only [Option.some.injEq, Prod.mk.injEq] at h
        obtain ⟨h1, h2, h3⟩ := h
        subst h1
        subst h2
        refine ⟨he, fun t htt => ?_⟩
        injection htt with h4
        rw [← h4]
        exact hm
      · simp only [Option.some.injEq, Prod.mk.injEq] at h
        obtain ⟨h1, h2, h3⟩ := h
        subst h1
        subst h2
        refine ⟨?_, fun t htt => by cases htt⟩
        intro x hx
        rcases List.mem_append.mp hx with h4 | h4
        · exact he x h4
        · rw [List.mem_singleton.mp h4]
          exact hm

/-- `assembleList` of shaped elements and tail is shaped. -/
theorem assembleList_shape (tail : Option Atom)
    (ht : ∀ t, tail = some t → ParseShape t) :
    ∀ elems : List Atom, (∀ x ∈ elems, ParseShape x) →
    ParseShape (assembleList elems tail) := by
  intro elems
  induction elems with
  | nil =>
      intro _
      cases htl : tail with
      | none => exact ParseShape.nilS
      | some t => exact ht t htl
  | cons x xs ih =>
      intro he
      exact ParseShape.pairS _ _ (he x (by simp))
        (ih (fun y hy => he y (by simp [hy])))

/-- `lex` returns `BAMBOO_OK` or the empty-line condition. -/
theorem lex_code (input : List Char) :
    (lex input).1 = .ok ∨ (lex input).1 = .special .emptyLine := by
  unfold lex
  cases hdw : input.dropWhile (fun c => (c ∈ wspaceChars : Bool)) with
  | nil => exact Or.inr rfl
  | cons c t =>
      left
      simp only []
      split <;> rfl

/-- Every atom a successful parse returns has parser shape: the joint
fuel induction over `bamboo_parse_expr` and `parse_list`. -/
theorem parse_image : ∀ fuel : Nat,
    (∀ input res, parseExpr fuel input = some res → res.1.isErr = false →
      ParseShape res.2.2) ∧
    (∀ input elems tail isPair endCur res,
      parseList fuel input elems tail isPair endCur = some res →
      res.1.isErr = false → (∀ x ∈ elems, ParseShape x) →
      (∀ t, tail = some t → ParseShape t) → ParseShape res.2.2) := by
  intro fuel
  induction fuel with
  | zero =>
      constructor
      · intro input res h
        cases h
      · intro input elems tail isPair endCur res h
        cases h
  | succ g ih =>
      obtain ⟨ihE, ihL⟩ := ih
      constructor
      · intro input res h hok
        rw [parseExpr] at h
        rcases hlx : lex input with ⟨lcode, tokp⟩
        rcases tokp with ⟨tok, tokRest⟩
        have hcode := lex_code input
        rw [hlx] at hcode
        simp only [] at hcode
        simp only [hlx] at h
        rcases hcode with hcode | hcode
        · subst hcode
          simp only [] at h
          cases tok with
          | nil =>
              injection h with h2
              rw [← h2] at hok
              cases hok
          | cons c ct =>
              simp only [] at h
              by_cases hq : c = quoteCh
              · rw [if_pos hq] at h
                injection h with h2
                rw [← h2] at hok ⊢
                exact parseString_shape tokRest hok
              · rw [if_neg hq] at h
                by_cases hp : c = '('
                · rw [if_pos hp] at h
                  exact ihL tokRest [] none false none res h hok (by simp)
                    (fun t htt => by cases htt)
                · rw [if_neg hp] at h
                  by_cases hcp : c = ')'
                  · rw [if_pos hcp] at h
                    injection h with h2
                    rw [← h2]
                    exact ParseShape.nilS
                  · rw [if_neg hcp] at h
                    by_cases hap : c = apostCh
                    · rw [if_pos hap] at h
                      by_cases hop : tokRest.head? = some '('
                      · rw [if_pos hop] at h
                        injection h with h2
                        rw [← h2] at hok
                        cases hok
                      · rw [if_neg hop] at h
                        rcases hin : parseExpr g tokRest with _ | inres
                        · rw [hin] at h
                          cases h
                        · rw [hin] at h
                          rcases inres with ⟨icode, ipr⟩
                          rcases ipr with ⟨iendO, inner⟩
                          simp only [] at h
                          by_cases hierr : icode.isErr = true
                          · rw [if_pos hierr] at h
                            injection h with h2
                            rw [← h2] at hok
                            rw [hok] at hierr
                            cases hierr
                          · rw [if_neg hierr] at h
                            have hinner : ParseShape inner := by
                              have h3 := ihE tokRest (icode, iendO, inner) hin
                              simp only [] at h3
                              exact h3 (by
                                cases hi : icode.isErr with
                                | false => rfl
                                | true => exact absurd hi hierr)
                            have hq2 : ParseShape
                                (cons (.symbol "QUOTE".toList) (cons inner .nil)) :=
                              ParseShape.pairS _ _
                                (ParseShape.symS _ (by decide) (by decide) (by decide))
                                (ParseShape.pairS _ _ hinner ParseShape.nilS)
                            by_cases hpe2 : icode = Code.special .parenEnd
                            · rw [if_pos hpe2] at h
                              injection h with h2
                              rw [← h2]
                              exact hq2
                            · rw [if_neg hpe2] at h
                              injection h with h2
                              rw [← h2]
                              exact hq2
                    · rw [if_neg hap] at h
                      injection h with h2
                      rw [← h2] at hok ⊢
                      rcases lex_shape hlx with ⟨c0, htok, hc0⟩ | ⟨hne2, hdelim2, hpre2⟩
                      · exfalso
                        injection htok with h3 h4
                        rw [← h3] at hc0
                        fin_cases hc0
                        · exact hp rfl
                        · exact hcp rfl
                        · exact hap rfl
                        · exact hq rfl
                      · exact parsePrimitive_shape (c :: ct) tokRest hne2 hdelim2
                          hpre2 hok
        · subst hcode
          injection h with h2
          rw [← h2]
          exact ParseShape.nilS
      · intro input elems tail isPair endCur res h hok he ht
        rw [parseList] at h
        rcases hlx : lex input with ⟨lcode, tokp⟩
        rcases tokp with ⟨tok, tokRest⟩
        have hcode := lex_code input
        rw [hlx] at hcode
        simp only [] at hcode
        simp only [hlx] at h
        rcases hcode with hcode | hcode
        · subst hcode
          simp only [] at h
          by_cases hdot : tok.head? = some '.'
          · rw [if_pos hdot] at h
            by_cases hemp : elems.isEmpty = true
            · rw [if_pos hemp] at h
              injection h with h2
              rw [← h2] at hok
              cases hok
            · rw [if_neg hemp] at h
              rcases hlx2 : lex tokRest with ⟨lcode2, tokp2⟩
              rcases tokp2 with ⟨tok2, tr2⟩
              simp only [hlx2] at h
              by_cases hc2 : lcode2 ≠ Code.ok ∨ tok2.head? = some ')'
              · rw [if_pos hc2] at h
                injection h with h2
                rw [← h2] at hok
                cases hok
              · rw [if_neg hc2] at h
                exact ihL tokRest elems tail true endCur res h hok he ht
          · rw [if_neg hdot] at h
            rcases hpe : parseExpr g
                (input.dropWhile (fun c => (c ∈ wspaceChars : Bool))) with _ | pres
            · rw [hpe] at h
              cases h
            · rw [hpe] at h
              rcases pres with ⟨code, ppr⟩
              rcases ppr with ⟨endO, tmpAtom⟩
              simp only [] at h
              have htmp : code.isErr = false → ParseShape tmpAtom := by
                intro hcf
                have h3 := ihE _ _ hpe
                simp only [] at h3
                exact h3 hcf
              cases code with
              | ok =>
                  rcases hap2 : appendStep elems tail isPair tmpAtom with _ | st2
                  · rw [hap2] at h
                    injection h with h2
                    rw [← h2] at hok
                    cases hok
                  · rcases st2 with ⟨e2, t22⟩
                    rcases t22 with ⟨t2, p2⟩
                    rw [hap2] at h
                    obtain ⟨he2, ht2⟩ := appendStep_shape hap2 he ht (htmp rfl)
                    exact ihL _ e2 t2 p2 endCur res h hok he2 ht2
              | special sc =>
                  cases sc with
                  | parenEnd =>
                      injection h with h2
                      rw [← h2]
                      exact assembleList_shape tail ht elems he
                  | quoteEnd =>
                      rcases hap2 : appendStep elems tail isPair tmpAtom with _ | st2
                      · rw [hap2] at h
                        injection h with h2
                        rw [← h2] at hok
                        cases hok
                      · rcases st2 with ⟨e2, t22⟩
                        rcases t22 with ⟨t2, p2⟩
                        rw [hap2] at h
                        obtain ⟨he2, ht2⟩ := appendStep_shape hap2 he ht (htmp rfl)
                        exact ihL _ e2 t2 p2 _ res h hok he2 ht2
                  | parenQuoteEnd =>
                      rcases hap2 : appendStep elems tail isPair tmpAtom with _ | st2
                      · rw [hap2] at h
                        injection h with h2
                        rw [← h2] at hok
                        cases hok
                      · rcases st2 with ⟨e2, t22⟩
                        rcases t22 with ⟨t2, p2⟩
                        rw [hap2] at h
                        obtain ⟨he2, ht2⟩ := appendStep_shape hap2 he ht (htmp rfl)
                        exact ihL _ e2 t2 p2 _ res h hok he2 ht2
                  | comment =>
                      injection h with h2
                      rw [← h2]
                      exact assembleList_shape tail ht elems he
                  | emptyLine =>
                      injection h with h2
                      rw [← h2]
                      exact assembleList_shape tail ht elems he
              | err e =>
                  injection h with h2
                  rw [← h2] at hok
                  cases hok
        · subst hcode
          injection h with h2
          rw [← h2]
          exact assembleList_shape tail ht elems he

/-- C2, amended: for every text `e` that `bamboo_parse_expr` accepts
without error, yielding the value `v`, if `v` contains no closure, macro
or built-in (as the claim already excludes) and moreover no float atom and
only symbols that re-tokenize to themselves (`printSafe` — ruling out
names that begin with the pair separator `.`, like the `.X` of the
counterexample, and names the numeric conversions accept, like `+NAN`),
then parsing the pretty-printed rendering of `v` yields exactly `v` again
with `BAMBOO_OK`, the whole text consumed. -/
theorem roundtrip_amended (e : List Char) (code : Code) (endO : Option (List Char))
    (v : Atom)
    (hp : parseExprTop e = some (code, endO, v))
    (hcode : code.isErr = false)
    (hsafe : printSafe v = true) :
    parseExprTop (exprStr v) = some (.ok, some [], v) := by
  have hshape : ParseShape v :=
    (parse_image (2 * e.length + 2)).1 e (code, endO, v) hp hcode
  have hE := (print_parse_both v).1 hshape hsafe [] (2 * (exprStr v).length + 2)
    (Or.inl rfl) (by omega)
  rw [List.append_nil] at hE
  exact hE

/-- Witness for the amended round trip at the text `(a b)`: it parses to
the value `(A B)`, whose rendering `(A B)` reparses to the same value. -/
theorem roundtrip_amended_witness :
    exprStr (cons (.symbol ['A']) (cons (.symbol ['B']) .nil)) = "(A B)".toList ∧
    parseExprTop "(A B)".toList = some (.ok, some [],
      cons (.symbol ['A']) (cons (.symbol ['B']) .nil)) := by
  have h1 : exprStr (cons (.symbol ['A']) (cons (.symbol ['B']) .nil)) =
      "(A B)".toList := by
    simp only [cons]
    simp only [exprStr, exprStrTail]
    decide
  refine ⟨h1, ?_⟩
  have h2 := roundtrip_amended "(a b)".toList .ok (some [])
    (cons (.symbol ['A']) (cons (.symbol ['B']) .nil)) (by decide) rfl (by decide)
  rw [h1] at h2
  exact h2

end Bamboo
